import Mathlib

/-!
Verification of the `ruleport` textual codec (the serializer in
`src/ruleport/src/ser.rs`, its error surface in `src/ruleport/src/error.rs`).

The serializer is embedded shallowly: the Rust `Serializer` struct becomes a
Lean structure whose `output` buffer is a `List Char`; every `serde` driver
method that the codec's value vocabulary can reach becomes a Lean function of
the same name, translated line by line from the source.  The value vocabulary
itself (spec section 3) is the inductive `Value`; driving a `Value` through the
serializer mirrors exactly which `ser::Serializer` methods `serde` invokes for
the corresponding Rust data (arrays drive `serialize_tuple`, string map keys go
through the `Key` mode, and so on).  Optionals are not a separate constructor:
per the spec, presence serializes as the inner value and absence as the unit
sentinel, so they reduce to the rest of the vocabulary.  Floating point values
(`ryu` shortest round-trip textualization) are outside the model.

The Rust `indent_tracking` field is a `u16`; it is modelled as a `Nat` together
with a ghost `underflow` flag that records whether any decrement was ever
applied to a zero value (which in Rust would be a `u16` underflow).  No other
field or statement deviates from the source.

The deserializer (`de.rs`) is declared in `src/ruleport/src/lib.rs` but its
source file is not present under `src/`; the functions in the `De` namespace
below are therefore modelled from the spec (sections 4.3 and 6), as marked on
each definition.
-/

namespace Ruleport

/-- Mirrors `Iterable` from `src/ruleport/src/lib.rs`. -/
inductive Iterable where
  | Tuple
  | Array
deriving DecidableEq

/-- Mirrors `Error` from `src/ruleport/src/error.rs` (line/column are `u32`). -/
inductive Error where
  | Message (msg : String)
  | UnrecognizedSyntax (line column : Nat)
  | SequenceKeptOpen (data : Iterable) (line column : Nat)
  | InvalidKey (line column : Nat)
  | InvalidValue (line column : Nat)
deriving DecidableEq

/-- Mirrors `DelimiterType` from `src/ruleport/src/ser.rs`. -/
inductive DelimiterType where
  | Newline
  | Whitespace
  | Colon
deriving DecidableEq

/-- Mirrors `PrettyConfig` (`delimiter`, `indent_width: u8`). -/
structure PrettyConfig where
  delimiter : DelimiterType
  indent_width : Nat
deriving DecidableEq

/-- Mirrors `impl Default for PrettyConfig`: colon delimiter, indent width 0. -/
def PrettyConfig.default : PrettyConfig :=
  { delimiter := DelimiterType.Colon, indent_width := 0 }

/-- Mirrors `PrettyConfig::hierarchy()`: newline delimiter, indent width 4. -/
def PrettyConfig.hierarchy : PrettyConfig :=
  { delimiter := DelimiterType.Newline, indent_width := 4 }

/-- Mirrors `SerializerMode`. -/
inductive SerializerMode where
  | Normal
  | Key
  | Map
deriving DecidableEq

/-- Mirrors the `Serializer` struct.  `output` is the growing output string as a
character list; `underflow` is a ghost flag (not in the source) recording
whether `indent_tracking -= 1` was ever executed while the counter was zero,
which for the source's `u16` would be an underflow. -/
structure Serializer where
  output : List Char
  mode : SerializerMode
  pretty : PrettyConfig
  indent_tracking : Nat
  underflow : Bool

/-- Appends text to the output buffer (the `self.output += ...` statements). -/
def Serializer.write (s : Serializer) (cs : List Char) : Serializer :=
  { s with output := s.output ++ cs }

/-- Mirrors `str::ends_with` for the single-character patterns the source
checks (`"["`, `"("`, `'{'`). -/
def endsWithChar (o : List Char) (c : Char) : Bool :=
  o.getLast? == some c

/-- Mirrors the `delimiter!` macro: the configured delimiter character. -/
def delimiter_of (s : Serializer) : Char :=
  match s.pretty.delimiter with
  | DelimiterType.Colon => ':'
  | DelimiterType.Whitespace => ' '
  | DelimiterType.Newline => '\n'

/-- Mirrors `create_indent`: `indent_width * indent_tracking` spaces. -/
def create_indent (s : Serializer) : List Char :=
  List.replicate (s.pretty.indent_width * s.indent_tracking) ' '

/-- Decimal digit to its character, `48 + d` as in standard decimal text. -/
def digitToChar (d : Nat) : Char := Char.ofNat (48 + d)

/-- Fueled decimal formatting of a natural number (most significant digit
first); fuel `n + 1` always suffices. -/
def natToCharsF : Nat → Nat → List Char
  | 0, _ => []
  | fuel + 1, n =>
    if n < 10 then [digitToChar n]
    else natToCharsF fuel (n / 10) ++ [digitToChar (n % 10)]

/-- Models `itoa::Buffer::format` on a `u64`: canonical decimal text. -/
def natToChars (n : Nat) : List Char := natToCharsF (n + 1) n

/-- Models `itoa::Buffer::format` on an `i64`: optional minus sign followed by
the decimal digits of the absolute value. -/
def intChars (i : Int) : List Char :=
  if i < 0 then '-' :: natToChars i.natAbs else natToChars i.natAbs

/-- Mirrors `serialize_bool`. -/
def serialize_bool (s : Serializer) (v : Bool) : Except Error Serializer :=
  .ok (s.write (if v then "true".data else "false".data))

/-- Mirrors `serialize_i64` (via `itoa`). -/
def serialize_i64 (s : Serializer) (v : Int) : Except Error Serializer :=
  .ok (s.write (intChars v))

/-- The value-preserving widening `i64::from(v: i8)`; on the mathematical
integer carried by the model it is the identity. -/
def i64_from_i8 (v : Int) : Int := v

/-- The value-preserving widening `i64::from(v: i16)`. -/
def i64_from_i16 (v : Int) : Int := v

/-- The value-preserving widening `i64::from(v: i32)`. -/
def i64_from_i32 (v : Int) : Int := v

/-- Mirrors `serialize_i8`: `self.serialize_i64(i64::from(v))`. -/
def serialize_i8 (s : Serializer) (v : Int) : Except Error Serializer :=
  serialize_i64 s (i64_from_i8 v)

/-- Mirrors `serialize_i16`. -/
def serialize_i16 (s : Serializer) (v : Int) : Except Error Serializer :=
  serialize_i64 s (i64_from_i16 v)

/-- Mirrors `serialize_i32`. -/
def serialize_i32 (s : Serializer) (v : Int) : Except Error Serializer :=
  serialize_i64 s (i64_from_i32 v)

/-- Mirrors `serialize_u64` (via `itoa`). -/
def serialize_u64 (s : Serializer) (v : Nat) : Except Error Serializer :=
  .ok (s.write (natToChars v))

/-- The value-preserving widening `u64::from(v: u8)`. -/
def u64_from_u8 (v : Nat) : Nat := v

/-- The value-preserving widening `u64::from(v: u16)`. -/
def u64_from_u16 (v : Nat) : Nat := v

/-- The value-preserving widening `u64::from(v: u32)`. -/
def u64_from_u32 (v : Nat) : Nat := v

/-- Mirrors `serialize_u8`: `self.serialize_u64(u64::from(v))`. -/
def serialize_u8 (s : Serializer) (v : Nat) : Except Error Serializer :=
  serialize_u64 s (u64_from_u8 v)

/-- Mirrors `serialize_u16`. -/
def serialize_u16 (s : Serializer) (v : Nat) : Except Error Serializer :=
  serialize_u64 s (u64_from_u16 v)

/-- Mirrors `serialize_u32`. -/
def serialize_u32 (s : Serializer) (v : Nat) : Except Error Serializer :=
  serialize_u64 s (u64_from_u32 v)

/-- Mirrors `serialize_char`: `format!("'{v}'")`, the character between two
single quotes with no escaping. -/
def serialize_char (s : Serializer) (v : Char) : Except Error Serializer :=
  .ok (s.write ['\x27', v, '\x27'])

/-- Mirrors `serialize_str`: bare in `Key` mode, double-quoted (no escaping)
otherwise. -/
def serialize_str (s : Serializer) (v : String) : Except Error Serializer :=
  if s.mode = SerializerMode.Key then .ok (s.write v.data)
  else .ok (s.write ('\x22' :: v.data ++ ['\x22']))

/-- Mirrors `serialize_unit`: the sentinel `/`. -/
def serialize_unit (s : Serializer) : Except Error Serializer :=
  .ok (s.write ['/'])

/-- Mirrors `serialize_unit_variant`: `$` followed by the variant name. -/
def serialize_unit_variant (s : Serializer) (variant : String) :
    Except Error Serializer :=
  .ok (s.write ('$' :: variant.data))

/-- The abstract value vocabulary of the format (spec section 3), as driven
through the adapter: every category reduces to these constructors.  Map and
struct keys are strings (struct keys are field identifiers; the map shapes the
surrounding CLI exchanges are string-keyed).  Optionals reduce to the inner
value or `unit`; floating point is outside the model. -/
inductive Value where
  | bool (b : Bool)
  | int (i : Int)
  | uint (n : Nat)
  | char (c : Char)
  | str (s : String)
  | unit
  | bytes (bs : List Nat)
  | seq (elems : List Value)
  | tuple (elems : List Value)
  | map (entries : List (String × Value))
  | strct (fields : List (String × Value))
  | unitVariant (tag : String)
  | newtypeVariant (tag : String) (inner : Value)
  | tupleVariant (tag : String) (elems : List Value)
  | structVariant (tag : String) (fields : List (String × Value))

/-- The delimiter character used between iterable siblings, mirroring the body
of `serialize_iterable!`: the configured delimiter, except that a newline is
replaced by a single space when the container opener is `(` or `[`. -/
def seqElemDelim (s : Serializer) (start : Char) : Char :=
  let c := delimiter_of s
  if (start = '(' ∨ start = '[') ∧ c = '\n' then ' ' else c

/-- Mirrors `SerializeMap::end` / `SerializeStruct::end` (identical bodies):
decrement the depth counter, then close with `}`, placed on its own indented
line when the delimiter is newline and the mode is not `Map`; finally reset the
mode to `Normal`.  The ghost `underflow` flag records a decrement at zero. -/
def map_struct_end (s : Serializer) : Serializer :=
  let s1 : Serializer :=
    { s with indent_tracking := s.indent_tracking - 1,
             underflow := s.underflow || decide (s.indent_tracking = 0) }
  let ending : List Char :=
    if s1.mode = SerializerMode.Map ∨ s1.pretty.delimiter ≠ DelimiterType.Newline
    then ['\x7d']
    else '\n' :: create_indent s1 ++ ['\x7d']
  { s1.write ending with mode := SerializerMode.Normal }

/-- Mirrors `serialize_bytes` driving each byte through `serialize_element`
(the `SerializeSeq` impl) and `serialize_u64`. -/
def serializeBytesElems (s : Serializer) : List Nat → Except Error Serializer
  | [] => .ok s
  | b :: rest =>
    let s1 := if endsWithChar s.output '[' then s
              else s.write [seqElemDelim s '[']
    match serialize_u64 s1 b with
    | .error e => .error e
    | .ok s2 => serializeBytesElems s2 rest

mutual

/-- Drives a `Value` through the serializer: each case invokes exactly the
`ser::Serializer` method the `serde` adapter would invoke for that value
category, translated from `src/ruleport/src/ser.rs`. -/
def serializeValue (s : Serializer) : Value → Except Error Serializer
  | .bool b => serialize_bool s b
  | .int i => serialize_i64 s i
  | .uint n => serialize_u64 s n
  | .char c => serialize_char s c
  | .str v => serialize_str s v
  | .unit => serialize_unit s
  | .bytes bs =>
    match serializeBytesElems (s.write ['[']) bs with
    | .error e => .error e
    | .ok s1 => .ok (s1.write [']'])
  | .seq l =>
    match serializeElems (s.write ['[']) '[' l with
    | .error e => .error e
    | .ok s1 => .ok (s1.write [']'])
  | .tuple l =>
    match serializeElems (s.write ['(']) '(' l with
    | .error e => .error e
    | .ok s1 => .ok (s1.write [')'])
  | .map entries =>
    let s1 : Serializer :=
      { s.write ['\x7b'] with mode := SerializerMode.Map, indent_tracking := s.indent_tracking + 1 }
    match serializeMapEntries s1 entries with
    | .error e => .error e
    | .ok s2 => .ok (map_struct_end s2)
  | .strct fields =>
    let s1 : Serializer :=
      { s.write ['\x7b'] with mode := SerializerMode.Map, indent_tracking := s.indent_tracking + 1 }
    match serializeStructFields s1 fields with
    | .error e => .error e
    | .ok s2 => .ok (map_struct_end s2)
  | .unitVariant tag => serialize_unit_variant s tag
  | .newtypeVariant tag v =>
    match serializeValue (s.write ('$' :: tag.data ++ ['('])) v with
    | .error e => .error e
    | .ok s1 => .ok (s1.write [')'])
  | .tupleVariant tag l =>
    match serializeElems (s.write ('$' :: tag.data ++ ['('])) '(' l with
    | .error e => .error e
    | .ok s1 => .ok (s1.write [')'])
  | .structVariant tag fields =>
    match serializeSVFields (s.write ('$' :: tag.data ++ ['\x7b'])) fields with
    | .error e => .error e
    | .ok s1 => .ok (s1.write ['\x7d'])

/-- Mirrors `serialize_element` / `serialize_field` from `serialize_iterable!`
iterated over a sibling list: a delimiter is written unless the output ends
with the opening bracket, with the newline-to-space substitution. -/
def serializeElems (s : Serializer) (start : Char) :
    List Value → Except Error Serializer
  | [] => .ok s
  | v :: rest =>
    let s1 := if endsWithChar s.output start then s
              else s.write [seqElemDelim s start]
    match serializeValue s1 v with
    | .error e => .error e
    | .ok s2 => serializeElems s2 start rest

/-- Mirrors `SerializeMap::serialize_key` followed by `serialize_value` for
each entry: delimiter unless the output ends with `{` (always under newline),
`Key` mode, indentation under newline, the bare key, then `->` and the value in
`Normal` mode. -/
def serializeMapEntries (s : Serializer) :
    List (String × Value) → Except Error Serializer
  | [] => .ok s
  | (k, v) :: rest =>
    let s1 := if ¬ endsWithChar s.output '\x7b'
                 ∨ s.pretty.delimiter = DelimiterType.Newline
              then s.write [delimiter_of s] else s
    let s2 : Serializer := { s1 with mode := SerializerMode.Key }
    let s3 := if s2.pretty.delimiter = DelimiterType.Newline
              then s2.write (create_indent s2) else s2
    let s4 := s3.write k.data
    let s5 : Serializer := { s4 with mode := SerializerMode.Normal }
    let s6 := s5.write ['-', '>']
    match serializeValue s6 v with
    | .error e => .error e
    | .ok s7 => serializeMapEntries s7 rest

/-- Mirrors `SerializeStruct::serialize_field` for each field: delimiter unless
the output ends with `{` (always under newline), indentation under newline,
then the `serialize_key!` macro (bare key in `Key` mode, `Normal` after), `->`
and the value. -/
def serializeStructFields (s : Serializer) :
    List (String × Value) → Except Error Serializer
  | [] => .ok s
  | (k, v) :: rest =>
    let s1 := if ¬ endsWithChar s.output '\x7b'
                 ∨ s.pretty.delimiter = DelimiterType.Newline
              then s.write [delimiter_of s] else s
    let s2 := if s1.pretty.delimiter = DelimiterType.Newline
              then s1.write (create_indent s1) else s1
    let s3 : Serializer := { s2 with mode := SerializerMode.Key }
    let s4 := s3.write k.data
    let s5 : Serializer := { s4 with mode := SerializerMode.Normal }
    let s6 := s5.write ['-', '>']
    match serializeValue s6 v with
    | .error e => .error e
    | .ok s7 => serializeStructFields s7 rest

/-- Mirrors `SerializeStructVariant::serialize_field` for each field: delimiter
only when the output does not end with `{` (no newline clause, no
indentation), then the bare key, `->` and the value. -/
def serializeSVFields (s : Serializer) :
    List (String × Value) → Except Error Serializer
  | [] => .ok s
  | (k, v) :: rest =>
    let s1 := if ¬ endsWithChar s.output '\x7b'
              then s.write [delimiter_of s] else s
    let s2 : Serializer := { s1 with mode := SerializerMode.Key }
    let s3 := s2.write k.data
    let s4 : Serializer := { s3 with mode := SerializerMode.Normal }
    let s5 := s4.write ['-', '>']
    match serializeValue s5 v with
    | .error e => .error e
    | .ok s6 => serializeSVFields s6 rest

end

/-- Pure version of the `delimiter!` macro, on a config. -/
def delimChar (d : DelimiterType) : Char :=
  match d with
  | DelimiterType.Colon => ':'
  | DelimiterType.Whitespace => ' '
  | DelimiterType.Newline => '\n'

/-- Pure version of `seqElemDelim`. -/
def seqSepChar (d : DelimiterType) (start : Char) : Char :=
  if (start = '(' ∨ start = '[') ∧ delimChar d = '\n' then ' ' else delimChar d

/-- Pure version of `create_indent` on a config and depth. -/
def indentChars (cfg : PrettyConfig) (depth : Nat) : List Char :=
  List.replicate (cfg.indent_width * depth) ' '

/-- Pure version of the closing text written by `SerializeMap::end` /
`SerializeStruct::end`; `wasEmpty` records whether the mode is still `Map`
(no entry was serialized), `d` is the depth after the decrement. -/
def mapEndChars (cfg : PrettyConfig) (d : Nat) (wasEmpty : Bool) : List Char :=
  if wasEmpty ∨ cfg.delimiter ≠ DelimiterType.Newline then ['\x7d']
  else '\n' :: indentChars cfg d ++ ['\x7d']

/-- Pure rendering of a byte-sequence body, mirroring `serializeBytesElems` on
the accumulated container text `acc` (which starts at the opening bracket). -/
def renderBytesElems (cfg : PrettyConfig) (acc : List Char) :
    List Nat → List Char
  | [] => acc
  | b :: rest =>
    let acc1 := if endsWithChar acc '[' then acc
                else acc ++ [seqSepChar cfg.delimiter '[']
    renderBytesElems cfg (acc1 ++ natToChars b) rest

mutual

/-- Pure rendering of a value: the exact text `serializeValue` appends when
invoked in `Normal` mode at depth `d` (established by `serializeValue_ok`
below). -/
def render (cfg : PrettyConfig) (d : Nat) : Value → List Char
  | .bool b => if b then "true".data else "false".data
  | .int i => intChars i
  | .uint n => natToChars n
  | .char c => ['\x27', c, '\x27']
  | .str v => '\x22' :: v.data ++ ['\x22']
  | .unit => ['/']
  | .bytes bs => renderBytesElems cfg ['['] bs ++ [']']
  | .seq l => renderElems cfg d '[' ['['] l ++ [']']
  | .tuple l => renderElems cfg d '(' ['('] l ++ [')']
  | .map entries =>
    renderMapEntries cfg (d + 1) ['\x7b'] entries
      ++ mapEndChars cfg d entries.isEmpty
  | .strct fields =>
    renderStructFields cfg (d + 1) ['\x7b'] fields
      ++ mapEndChars cfg d fields.isEmpty
  | .unitVariant tag => '$' :: tag.data
  | .newtypeVariant tag v => '$' :: tag.data ++ ['('] ++ render cfg d v ++ [')']
  | .tupleVariant tag l =>
    '$' :: tag.data ++ renderElems cfg d '(' ['('] l ++ [')']
  | .structVariant tag fields =>
    '$' :: tag.data ++ renderSVFields cfg d ['\x7b'] fields ++ ['\x7d']

/-- Pure rendering of iterable siblings appended to the container text so far
(`acc` starts at the opening bracket, so the `ends_with` test agrees with the
stateful serializer's test on the whole output). -/
def renderElems (cfg : PrettyConfig) (d : Nat) (start : Char) (acc : List Char) :
    List Value → List Char
  | [] => acc
  | v :: rest =>
    let acc1 := if endsWithChar acc start then acc
                else acc ++ [seqSepChar cfg.delimiter start]
    renderElems cfg d start (acc1 ++ render cfg d v) rest

/-- Pure rendering of map entries (`d` is the incremented depth used by
`indents!`). -/
def renderMapEntries (cfg : PrettyConfig) (d : Nat) (acc : List Char) :
    List (String × Value) → List Char
  | [] => acc
  | (k, v) :: rest =>
    let acc1 := if ¬ endsWithChar acc '\x7b' ∨ cfg.delimiter = DelimiterType.Newline
                then acc ++ [delimChar cfg.delimiter] else acc
    let acc2 := if cfg.delimiter = DelimiterType.Newline
                then acc1 ++ indentChars cfg d else acc1
    renderMapEntries cfg d (acc2 ++ k.data ++ ['-', '>'] ++ render cfg d v) rest

/-- Pure rendering of struct fields (same emitted text as map entries). -/
def renderStructFields (cfg : PrettyConfig) (d : Nat) (acc : List Char) :
    List (String × Value) → List Char
  | [] => acc
  | (k, v) :: rest =>
    let acc1 := if ¬ endsWithChar acc '\x7b' ∨ cfg.delimiter = DelimiterType.Newline
                then acc ++ [delimChar cfg.delimiter] else acc
    let acc2 := if cfg.delimiter = DelimiterType.Newline
                then acc1 ++ indentChars cfg d else acc1
    renderStructFields cfg d (acc2 ++ k.data ++ ['-', '>'] ++ render cfg d v) rest

/-- Pure rendering of struct-variant fields: delimiter only when the text does
not end with `{`, no indentation (mirrors `SerializeStructVariant`). -/
def renderSVFields (cfg : PrettyConfig) (d : Nat) (acc : List Char) :
    List (String × Value) → List Char
  | [] => acc
  | (k, v) :: rest =>
    let acc1 := if ¬ endsWithChar acc '\x7b'
                then acc ++ [delimChar cfg.delimiter] else acc
    renderSVFields cfg d (acc1 ++ k.data ++ ['-', '>'] ++ render cfg d v) rest

end

/-- Characters admissible in a variant tag: Rust enum variant names (ASCII
alphanumeric or underscore). -/
def isTagChar (c : Char) : Bool :=
  (48 ≤ c.toNat && c.toNat ≤ 57) || (65 ≤ c.toNat && c.toNat ≤ 90) ||
  (97 ≤ c.toNat && c.toNat ≤ 122) || c == '_'

/-- Characters admissible in a bare map/struct key for the amended round-trip:
ASCII identifier characters plus `-` (as in `my-plugin`). -/
def isKeyChar (c : Char) : Bool :=
  (48 ≤ c.toNat && c.toNat ≤ 57) || (65 ≤ c.toNat && c.toNat ≤ 90) ||
  (97 ≤ c.toNat && c.toNat ≤ 122) || c == '_' || c == '-'

/-- A key whose characters are all admissible key characters. -/
def goodKey (k : String) : Bool := k.data.all isKeyChar

/-- A tag whose characters are all admissible tag characters. -/
def goodTag (t : String) : Bool := t.data.all isTagChar

mutual

/-- Every variant tag inside the value is made of tag characters (true of any
value produced by `derive(Serialize)` on Rust enums). -/
def goodTagsV : Value → Bool
  | .bool _ => true
  | .int _ => true
  | .uint _ => true
  | .char _ => true
  | .str _ => true
  | .unit => true
  | .bytes _ => true
  | .seq l => goodTagsL l
  | .tuple l => goodTagsL l
  | .map es => goodTagsE es
  | .strct fs => goodTagsE fs
  | .unitVariant t => goodTag t
  | .newtypeVariant t v => goodTag t && goodTagsV v
  | .tupleVariant t l => goodTag t && goodTagsL l
  | .structVariant t fs => goodTag t && goodTagsE fs

/-- List version of `goodTagsV`. -/
def goodTagsL : List Value → Bool
  | [] => true
  | v :: tl => goodTagsV v && goodTagsL tl

/-- Entry-list version of `goodTagsV`. -/
def goodTagsE : List (String × Value) → Bool
  | [] => true
  | (_, v) :: tl => goodTagsV v && goodTagsE tl

end

mutual

/-- The in-vocabulary values for which the amended round-trip holds: strings
contain no double quote, chars are not the single quote, keys and tags use
identifier characters, integers fit their 64-bit machine ranges, bytes fit in
eight bits. -/
def goodV : Value → Bool
  | .bool _ => true
  | .int i => decide (-(2 ^ 63 : Int) ≤ i) && decide (i < 2 ^ 63)
  | .uint n => decide (n < 2 ^ 64)
  | .char c => c != '\x27'
  | .str v => v.data.all (fun c => c != '\x22')
  | .unit => true
  | .bytes bs => bs.all (fun b => decide (b < 256))
  | .seq l => goodL l
  | .tuple l => goodL l
  | .map es => goodE es
  | .strct fs => goodE fs
  | .unitVariant t => goodTag t
  | .newtypeVariant t v => goodTag t && goodV v
  | .tupleVariant t l => goodTag t && goodL l
  | .structVariant t fs => goodTag t && goodE fs

/-- List version of `goodV`. -/
def goodL : List Value → Bool
  | [] => true
  | v :: tl => goodV v && goodL tl

/-- Entry-list version of `goodV` (also constrains the keys). -/
def goodE : List (String × Value) → Bool
  | [] => true
  | (k, v) :: tl => goodKey k && goodV v && goodE tl

end

/-- The static type shapes that drive the type-directed deserializer (the
adapter's expected category, spec section 4.3).  The `v`-prefixed constructors
describe the payload of one enum variant and occur only inside `enumS`. -/
inductive Shape where
  | bool
  | int
  | uint
  | char
  | str
  | unit
  | bytes
  | seq (elem : Shape)
  | tuple (elems : List Shape)
  | map (value : Shape)
  | strct (fields : List (String × Shape))
  | enumS (variants : List (String × Shape))
  | vUnit
  | vNewtype (inner : Shape)
  | vTuple (elems : List Shape)
  | vStruct (fields : List (String × Shape))

mutual

/-- The value conforms to the shape (the value is one the Rust type described
by the shape could have produced). -/
def hasShape : Value → Shape → Bool
  | .bool _, .bool => true
  | .int _, .int => true
  | .uint _, .uint => true
  | .char _, .char => true
  | .str _, .str => true
  | .unit, .unit => true
  | .bytes _, .bytes => true
  | .seq l, .seq S => hasShapeL l S
  | .tuple l, .tuple Ss => hasShapeT l Ss
  | .map es, .map S => hasShapeM es S
  | .strct fs, .strct Fs => hasShapeF fs Fs
  | .unitVariant t, .enumS vs =>
    match vs.lookup t with
    | some .vUnit => true
    | _ => false
  | .newtypeVariant t v, .enumS vs =>
    match vs.lookup t with
    | some (.vNewtype S) => hasShape v S
    | _ => false
  | .tupleVariant t l, .enumS vs =>
    match vs.lookup t with
    | some (.vTuple Ss) => hasShapeT l Ss
    | _ => false
  | .structVariant t fs, .enumS vs =>
    match vs.lookup t with
    | some (.vStruct Fs) => hasShapeF fs Fs
    | _ => false
  | _, _ => false

/-- All sequence elements conform to the element shape. -/
def hasShapeL : List Value → Shape → Bool
  | [], _ => true
  | v :: tl, S => hasShape v S && hasShapeL tl S

/-- Tuple elements conform pointwise to the component shapes. -/
def hasShapeT : List Value → List Shape → Bool
  | [], [] => true
  | v :: tl, S :: Ss => hasShape v S && hasShapeT tl Ss
  | _, _ => false

/-- All map values conform to the value shape. -/
def hasShapeM : List (String × Value) → Shape → Bool
  | [], _ => true
  | (_, v) :: tl, S => hasShape v S && hasShapeM tl S

/-- Struct fields match the declared field names in order and conform
pointwise. -/
def hasShapeF : List (String × Value) → List (String × Shape) → Bool
  | [], [] => true
  | (k, v) :: tl, (n, S) :: Fs => k == n && hasShape v S && hasShapeF tl Fs
  | _, _ => false

end

namespace De

/-- Modelled from the spec: whitespace skipped between tokens (space, tab,
newline, carriage return; spec section 4.3 tokenization). -/
def isWSChar (c : Char) : Bool := c = ' ' || c = '\t' || c = '\n' || c = '\r'

/-- Modelled from the spec: the sibling-separator characters the parser must
accept regardless of producer config — whitespace or `:` (spec section 4.3,
delimiter recognition; consecutive delimiters are one delimiter). -/
def isSepChar (c : Char) : Bool := isWSChar c || c = ':'

/-- Modelled from the spec: skip whitespace between tokens. -/
def skipWS : List Char → List Char := List.dropWhile isWSChar

/-- Modelled from the spec: skip a (possibly empty) run of sibling separators
and whitespace, treating consecutive delimiters as one. -/
def skipSep : List Char → List Char := List.dropWhile isSepChar

/-- Decimal digit recognition for the integer production. -/
def isDigitChar (c : Char) : Bool := 48 ≤ c.toNat && c.toNat ≤ 57

/-- Character to decimal digit. -/
def charToDigit (c : Char) : Nat := c.toNat - 48

/-- Modelled from the spec: a key in key context is the run of bytes up to the
next `->`, delimiter, or closing `}` (spec section 4.3, string productions). -/
def scanKey : List Char → List Char × List Char
  | [] => ([], [])
  | c :: rest =>
    if isSepChar c || c = '\x7d' then ([], c :: rest)
    else if c = '-' && rest.head? = some '>' then ([], c :: rest)
    else
      let (k, r) := scanKey rest
      (c :: k, r)

/-- Modelled from the spec: longest run of digits, folded into a natural
number. -/
def parseNatTok (input : List Char) : Option (Nat × List Char) :=
  let ds := input.takeWhile isDigitChar
  if ds.isEmpty then none
  else some (ds.foldl (fun a c => 10 * a + charToDigit c) 0,
             input.dropWhile isDigitChar)

/-- Modelled from the spec: optional sign followed by the longest digit run. -/
def parseIntTok (input : List Char) : Option (Int × List Char) :=
  if input.head? = some '-' then
    match parseNatTok input.tail with
    | some (n, r) => some (-(n : Int), r)
    | none => none
  else
    match parseNatTok input with
    | some (n, r) => some ((n : Int), r)
    | none => none

mutual

/-- Modelled from the spec: the type-directed value recognizer of the missing
`de.rs` (spec section 4.3).  The recognizer dispatches on the expected shape;
integers are reparsed into the target width with overflow rejected; strings in
value context read up to the next `"` with no escapes; a key is scanned bare;
a tagged variant is `$`, an identifier, then the form the expected variant
payload dictates.  Fuel decreases on every recursive call; position tracking is
omitted (the claims settled against this model concern success and the parsed
value only). -/
def parseValue : Shape → Nat → List Char → Option (Value × List Char)
  | _, 0, _ => none
  | S, fuel + 1, input0 =>
    let input := skipWS input0
    match S with
    | .bool =>
      if input.take 4 = "true".data then some (.bool true, input.drop 4)
      else if input.take 5 = "false".data then some (.bool false, input.drop 5)
      else none
    | .int =>
      match parseIntTok input with
      | some (i, r) =>
        if -(2 ^ 63 : Int) ≤ i ∧ i < 2 ^ 63 then some (.int i, r) else none
      | none => none
    | .uint =>
      match parseNatTok input with
      | some (n, r) => if n < 2 ^ 64 then some (.uint n, r) else none
      | none => none
    | .char =>
      match input with
      | '\x27' :: c :: '\x27' :: rest => some (.char c, rest)
      | _ => none
    | .str =>
      match input with
      | '\x22' :: rest =>
        match rest.dropWhile (fun c => c != '\x22') with
        | '\x22' :: rest' =>
          some (.str (String.mk (rest.takeWhile (fun c => c != '\x22'))), rest')
        | _ => none
      | _ => none
    | .unit =>
      match input with
      | '/' :: rest => some (.unit, rest)
      | _ => none
    | .bytes =>
      match input with
      | '[' :: rest =>
        match parseBytesTail fuel rest with
        | some (bs, r) => some (.bytes bs, r)
        | none => none
      | _ => none
    | .seq Se =>
      match input with
      | '[' :: rest =>
        match parseSeqTail Se fuel rest with
        | some (vs, r) => some (.seq vs, r)
        | none => none
      | _ => none
    | .tuple Ss =>
      match input with
      | '(' :: rest =>
        match parseTupleTail Ss fuel rest with
        | some (vs, r) => some (.tuple vs, r)
        | none => none
      | _ => none
    | .map Sv =>
      match input with
      | '\x7b' :: rest =>
        match parseMapTail Sv fuel rest with
        | some (es, r) => some (.map es, r)
        | none => none
      | _ => none
    | .strct Fs =>
      match input with
      | '\x7b' :: rest =>
        match parseFieldsTail Fs fuel rest with
        | some (fs, r) => some (.strct fs, r)
        | none => none
      | _ => none
    | .enumS vs =>
      match input with
      | '$' :: rest =>
        let tag := rest.takeWhile isTagChar
        let r1 := rest.dropWhile isTagChar
        match vs.lookup (String.mk tag) with
        | some .vUnit => some (.unitVariant (String.mk tag), r1)
        | some (.vNewtype Si) =>
          (match skipWS r1 with
           | '(' :: r2 =>
             match parseValue Si fuel r2 with
             | some (v, r3) =>
               (match skipSep r3 with
                | ')' :: r4 => some (.newtypeVariant (String.mk tag) v, r4)
                | _ => none)
             | none => none
           | _ => none)
        | some (.vTuple Ss) =>
          (match skipWS r1 with
           | '(' :: r2 =>
             match parseTupleTail Ss fuel r2 with
             | some (vs', r3) => some (.tupleVariant (String.mk tag) vs', r3)
             | none => none
           | _ => none)
        | some (.vStruct Fs) =>
          (match skipWS r1 with
           | '\x7b' :: r2 =>
             match parseFieldsTail Fs fuel r2 with
             | some (fs, r3) => some (.structVariant (String.mk tag) fs, r3)
             | none => none
           | _ => none)
        | _ => none
      | _ => none
    | _ => none

/-- Modelled from the spec: sequence tail — elements of one shape separated by
delimiters until `]`. -/
def parseSeqTail (S : Shape) : Nat → List Char → Option (List Value × List Char)
  | 0, _ => none
  | fuel + 1, input0 =>
    let input := skipSep input0
    if input.head? = some ']' then some ([], input.tail)
    else
      match parseValue S fuel input with
      | some (v, r1) =>
        match parseSeqTail S fuel r1 with
        | some (vs, r2) => some (v :: vs, r2)
        | none => none
      | none => none

/-- Modelled from the spec: tuple tail — one element per component shape, then
`)`. -/
def parseTupleTail : List Shape → Nat → List Char →
    Option (List Value × List Char)
  | _, 0, _ => none
  | [], _ + 1, input0 =>
    if (skipSep input0).head? = some ')' then some ([], (skipSep input0).tail)
    else none
  | S :: Ss, fuel + 1, input0 =>
    let input := skipSep input0
    match parseValue S fuel input with
    | some (v, r1) =>
      match parseTupleTail Ss fuel r1 with
      | some (vs, r2) => some (v :: vs, r2)
      | none => none
    | none => none

/-- Modelled from the spec: map tail — `key -> value` pairs separated by
delimiters until `}`. -/
def parseMapTail (Sv : Shape) : Nat → List Char →
    Option (List (String × Value) × List Char)
  | 0, _ => none
  | fuel + 1, input0 =>
    let input := skipSep input0
    if input.head? = some '\x7d' then some ([], input.tail)
    else
      match scanKey input with
      | (k, '-' :: '>' :: r2) =>
        match parseValue Sv fuel r2 with
        | some (v, r3) =>
          match parseMapTail Sv fuel r3 with
          | some (es, r4) => some ((String.mk k, v) :: es, r4)
          | none => none
        | none => none
      | _ => none

/-- Modelled from the spec: struct tail — one `name -> value` pair per declared
field in order (an unexpected name is rejected, as `InvalidKey` would be), then
`}`. -/
def parseFieldsTail : List (String × Shape) → Nat → List Char →
    Option (List (String × Value) × List Char)
  | _, 0, _ => none
  | [], _ + 1, input0 =>
    if (skipSep input0).head? = some '\x7d' then
      some ([], (skipSep input0).tail)
    else none
  | (name, S) :: Fs, fuel + 1, input0 =>
    let input := skipSep input0
    match scanKey input with
    | (k, '-' :: '>' :: r2) =>
      if String.mk k = name then
        match parseValue S fuel r2 with
        | some (v, r3) =>
          match parseFieldsTail Fs fuel r3 with
          | some (fs, r4) => some ((String.mk k, v) :: fs, r4)
          | none => none
        | none => none
      else none
    | _ => none

/-- Modelled from the spec: byte-sequence tail — integers reparsed into the
byte width (overflow rejected) until `]`. -/
def parseBytesTail : Nat → List Char → Option (List Nat × List Char)
  | 0, _ => none
  | fuel + 1, input0 =>
    let input := skipSep input0
    if input.head? = some ']' then some ([], input.tail)
    else
      match parseNatTok input with
      | some (n, r1) =>
        if n < 256 then
          match parseBytesTail fuel r1 with
          | some (bs, r2) => some (n :: bs, r2)
          | none => none
        else none
      | none => none

end

/-- Modelled from the spec: `from_str<T>(input) → T | Error` — parse one value
of the expected shape and require the entire input to be consumed modulo
trailing whitespace.  The fuel `3 * input.length + 3` dominates the fuel any
successful parse can consume (each recursive call either consumes input or
descends into a strictly smaller production). -/
def from_str (S : Shape) (input : List Char) : Option Value :=
  match parseValue S (3 * input.length + 3) input with
  | some (v, rest) => if (skipWS rest).isEmpty then some v else none
  | none => none

end De

mutual

/-- Fuel sufficient for `De.parseValue` on the rendering of this value. -/
def fuelV : Value → Nat
  | .bool _ => 1
  | .int _ => 1
  | .uint _ => 1
  | .char _ => 1
  | .str _ => 1
  | .unit => 1
  | .bytes bs => 2 + bs.length
  | .seq l => 2 + fuelL l
  | .tuple l => 2 + fuelL l
  | .map es => 2 + fuelE es
  | .strct fs => 2 + fuelE fs
  | .unitVariant _ => 1
  | .newtypeVariant _ v => 2 + fuelV v
  | .tupleVariant _ l => 2 + fuelL l
  | .structVariant _ fs => 2 + fuelE fs

/-- Fuel sufficient for the element-list parsing loops. -/
def fuelL : List Value → Nat
  | [] => 1
  | v :: tl => 1 + fuelV v + fuelL tl

/-- Fuel sufficient for the entry-list parsing loops. -/
def fuelE : List (String × Value) → Nat
  | [] => 1
  | (_, v) :: tl => 1 + fuelV v + fuelE tl

end

/-- Mirrors `to_string`: serialize with the default pretty config from a fresh
serializer and return the output. -/
def to_string (value : Value) : Except Error (List Char) :=
  let serializer : Serializer :=
    { output := [], mode := SerializerMode.Normal,
      pretty := PrettyConfig.default, indent_tracking := 0, underflow := false }
  match serializeValue serializer value with
  | .error e => .error e
  | .ok s => .ok s.output

/-- Mirrors `to_string_pretty`: serialize with the given pretty config from a
fresh serializer and return the output. -/
def to_string_pretty (value : Value) (pretty : PrettyConfig) :
    Except Error (List Char) :=
  let serializer : Serializer :=
    { output := [], mode := SerializerMode.Normal,
      pretty := pretty, indent_tracking := 0, underflow := false }
  match serializeValue serializer value with
  | .error e => .error e
  | .ok s => .ok s.output

/-- Statement of the serializer decomposition: driving `v` in `Normal` mode
appends exactly `render` to the output and restores mode, config, depth and the
ghost underflow flag. -/
def SerOK (v : Value) : Prop :=
  ∀ (o : List Char) (cfg : PrettyConfig) (n : Nat) (u : Bool),
    serializeValue
      { output := o, mode := SerializerMode.Normal, pretty := cfg,
        indent_tracking := n, underflow := u } v =
    .ok { output := o ++ render cfg n v, mode := SerializerMode.Normal,
          pretty := cfg, indent_tracking := n, underflow := u }

/-- A remainder that can legally follow a rendered value: empty, or starting
with a sibling separator or a closing bracket. -/
def De.boundaryOK (rest : List Char) : Prop :=
  match rest with
  | [] => True
  | c :: _ => De.isSepChar c = true ∨ c = ']' ∨ c = ')' ∨ c = '\x7d'

/-- The S1 scenario value: the `Plugin` struct of the source's test module
(`serialize_simple_struct`).  Its `[u8; 3]` fields drive `serialize_tuple`
(serde serializes fixed-size arrays through `serialize_tuple`), the enum
variant `Stable` drives `serialize_unit_variant`, and the empty `HashMap`
drives `serialize_map` with no entries. -/
def s1_plugin : Value :=
  .strct [("name", .str "my-plugin"),
          ("version", .tuple [.uint 1, .uint 0, .uint 0]),
          ("api_compat", .tuple [.uint 1, .uint 0, .uint 1]),
          ("distribution", .unitVariant "Stable"),
          ("compat", .map [])]

/-- The S1 output the claim asserts (spec section 8). -/
def s1_claimed_output : List Char :=
  ("\x7bname->\x22my-plugin\x22:version->[1: 0: 0]:api_compat->[1: 0: 1]:distribution->$Stable:compat->\x7b\x7d\x7d").data

/-- The S1 output the code actually produces. -/
def s1_actual_output : List Char :=
  ("\x7bname->\x22my-plugin\x22:version->(1:0:0):api_compat->(1:0:1):distribution->$Stable:compat->\x7b\x7d\x7d").data

/-- The S3 scenario value: `DistributionMode::ReleaseCandidate` with a
changelog string containing embedded double quotes. -/
def s3_release_candidate : Value :=
  .structVariant "ReleaseCandidate"
    [("changelog", .str "Added \x22switch\x22 subcommand")]

/-- The three-line S3 output the claim asserts (spec section 8). -/
def s3_claimed_output : List Char :=
  ("$ReleaseCandidate\x7b\n    changelog->\x22Added \x22switch\x22 subcommand\x22\n\x7d").data

/-- The single-line S3 output the code actually produces. -/
def s3_actual_output : List Char :=
  ("$ReleaseCandidate\x7bchangelog->\x22Added \x22switch\x22 subcommand\x22\x7d").data

/-- The shape of the `Plugin` struct (for deserializing S1 output). -/
def s1_shape : Shape :=
  .strct [("name", .str),
          ("version", .tuple [.uint, .uint, .uint]),
          ("api_compat", .tuple [.uint, .uint, .uint]),
          ("distribution", .enumS
            [("Stable", .vUnit), ("Alpha", .vUnit),
             ("Nightly", .vTuple [.uint, .uint, .uint]),
             ("ReleaseCandidate", .vStruct [("changelog", .str)])]),
          ("compat", .map (.tuple [.uint, .uint, .uint]))]

/-- Junk text made only of sibling separators and whitespace (what may appear
between two tokens of the surface syntax). -/
def allSep (junk : List Char) : Prop := ∀ c ∈ junk, De.isSepChar c = true

/-- Statement of the parse-of-print property for one value: parsing its
rendering (under any config, any depth, enough fuel) followed by a legal
remainder succeeds and returns exactly the value and the remainder. -/
def PRT (v : Value) : Prop :=
  ∀ (S : Shape) (cfg : PrettyConfig) (d f : Nat) (rest : List Char),
    goodV v = true → hasShape v S = true → fuelV v ≤ f →
    De.boundaryOK rest →
    De.parseValue S f (render cfg d v ++ rest) = some (v, rest)

/-- The three opening brackets of the format. -/
def isOpenChar (c : Char) : Bool := c == '[' || c == '(' || c == '\x7b'

/-- Sibling items joined with exactly one separator character between each
consecutive pair and nothing before the first. -/
def sepJoin (sep : Char) (items : List (List Char)) : List Char :=
  match items with
  | [] => []
  | x :: tl => x ++ (tl.map (fun y => sep :: y)).flatten

/-- Sibling items joined with one separator run (a list of characters) between
each consecutive pair and nothing before the first. -/
def sepJoinL (sepj : List Char) (items : List (List Char)) : List Char :=
  match items with
  | [] => []
  | x :: tl => x ++ (tl.map (fun y => sepj ++ y)).flatten

/-- The text of one `key -> value` pair. -/
def pairItem (cfg : PrettyConfig) (d : Nat) (kv : String × Value) : List Char :=
  kv.1.data ++ '-' :: '>' :: render cfg d kv.2

/-- A fresh serializer with the default pretty config (the state both entry
points start from). -/
def sample_serializer : Serializer :=
  { output := [], mode := SerializerMode.Normal, pretty := PrettyConfig.default,
    indent_tracking := 0, underflow := false }

/-! ## Generic list-scanning lemmas -/

theorem takeWhile_append_stop (p : Char → Bool) (xs : List Char)
    (h : ∀ a ∈ xs, p a = true) (c : Char) (hc : p c = false) (rest : List Char) :
    (xs ++ c :: rest).takeWhile p = xs := by
  induction xs with
  | nil => simp [List.takeWhile_cons, hc]
  | cons a tl ih =>
    have ha : p a = true := h a (by simp)
    simp only [List.cons_append, List.takeWhile_cons, ha]
    simp only [if_true]
    rw [ih (fun b hb => h b (by simp [hb]))]

theorem dropWhile_append_stop (p : Char → Bool) (xs : List Char)
    (h : ∀ a ∈ xs, p a = true) (c : Char) (hc : p c = false) (rest : List Char) :
    (xs ++ c :: rest).dropWhile p = c :: rest := by
  induction xs with
  | nil => simp [List.dropWhile_cons, hc]
  | cons a tl ih =>
    have ha : p a = true := h a (by simp)
    simp only [List.cons_append, List.dropWhile_cons, ha, if_true]
    exact ih (fun b hb => h b (by simp [hb]))

theorem takeWhile_all_eq (p : Char → Bool) (xs : List Char)
    (h : ∀ a ∈ xs, p a = true) : xs.takeWhile p = xs := by
  induction xs with
  | nil => rfl
  | cons a tl ih =>
    have ha : p a = true := h a (by simp)
    simp only [List.takeWhile_cons, ha, if_true]
    rw [ih (fun b hb => h b (by simp [hb]))]

theorem dropWhile_all_eq (p : Char → Bool) (xs : List Char)
    (h : ∀ a ∈ xs, p a = true) : xs.dropWhile p = [] := by
  induction xs with
  | nil => rfl
  | cons a tl ih =>
    have ha : p a = true := h a (by simp)
    simp only [List.dropWhile_cons, ha, if_true]
    exact ih (fun b hb => h b (by simp [hb]))

theorem dropWhile_cons_stop (p : Char → Bool) (c : Char) (rest : List Char)
    (hc : p c = false) : (c :: rest).dropWhile p = c :: rest := by
  simp [List.dropWhile_cons, hc]

theorem endsWithChar_append (o acc : List Char) (c : Char) (h : acc ≠ []) :
    endsWithChar (o ++ acc) c = endsWithChar acc c := by
  unfold endsWithChar
  rw [List.getLast?_append]
  cases hl : acc.getLast? with
  | some a => rfl
  | none =>
    exact absurd (List.getLast?_eq_none_iff.mp hl) h

/-! ## Serializer decomposition: the stateful serializer appends exactly the
pure rendering -/

theorem seqElemDelim_mk (o : List Char) (m : SerializerMode)
    (cfg : PrettyConfig) (n : Nat) (u : Bool) (start : Char) :
    seqElemDelim
      { output := o, mode := m, pretty := cfg, indent_tracking := n,
        underflow := u } start = seqSepChar cfg.delimiter start := rfl

theorem delimiter_of_mk (o : List Char) (m : SerializerMode)
    (cfg : PrettyConfig) (n : Nat) (u : Bool) :
    delimiter_of
      { output := o, mode := m, pretty := cfg, indent_tracking := n,
        underflow := u } = delimChar cfg.delimiter := by
  cases cfg with
  | mk d w => cases d <;> rfl

theorem create_indent_mk (o : List Char) (m : SerializerMode)
    (cfg : PrettyConfig) (n : Nat) (u : Bool) :
    create_indent
      { output := o, mode := m, pretty := cfg, indent_tracking := n,
        underflow := u } = indentChars cfg n := rfl

theorem serializeBytesElems_ok (bs : List Nat) :
    ∀ (acc o : List Char) (cfg : PrettyConfig) (n : Nat) (u : Bool)
      (m : SerializerMode), acc ≠ [] →
    serializeBytesElems
      { output := o ++ acc, mode := m, pretty := cfg, indent_tracking := n,
        underflow := u } bs =
    .ok { output := o ++ renderBytesElems cfg acc bs, mode := m, pretty := cfg,
          indent_tracking := n, underflow := u } := by
  induction bs with
  | nil =>
    intro acc o cfg n u m h
    simp [serializeBytesElems, renderBytesElems]
  | cons b tl ih =>
    intro acc o cfg n u m h
    simp only [serializeBytesElems, renderBytesElems, serialize_u64,
      Serializer.write, seqElemDelim_mk]
    rw [endsWithChar_append o acc '[' h]
    by_cases hb : endsWithChar acc '[' = true
    · simp only [hb, if_true, List.append_assoc]
      have := ih (acc ++ natToChars b) o cfg n u m
        (List.append_ne_nil_of_left_ne_nil h _)
      simpa [Serializer.write, List.append_assoc] using this
    · simp only [Bool.not_eq_true] at hb
      simp only [hb, Bool.false_eq_true, if_false, List.append_assoc]
      have := ih (acc ++ [seqSepChar cfg.delimiter '['] ++ natToChars b) o cfg
        n u m (by simp)
      simpa [Serializer.write, List.append_assoc] using this

theorem serializeElems_ok (l : List Value) (IH : ∀ w ∈ l, SerOK w) :
    ∀ (start : Char) (acc o : List Char) (cfg : PrettyConfig) (n : Nat)
      (u : Bool), acc ≠ [] →
    serializeElems
      { output := o ++ acc, mode := SerializerMode.Normal, pretty := cfg,
        indent_tracking := n, underflow := u } start l =
    .ok { output := o ++ renderElems cfg n start acc l,
          mode := SerializerMode.Normal, pretty := cfg, indent_tracking := n,
          underflow := u } := by
  induction l with
  | nil => intros; simp [serializeElems, renderElems]
  | cons v tl ih =>
    intro start acc o cfg n u h
    have IHv := IH v (by simp)
    have IHtl : ∀ w ∈ tl, SerOK w := fun w hw => IH w (by simp [hw])
    simp only [serializeElems, renderElems, seqElemDelim_mk, Serializer.write]
    rw [endsWithChar_append o acc start h]
    by_cases hb : endsWithChar acc start = true
    · simp only [hb, if_true]
      rw [IHv (o ++ acc) cfg n u]
      have := ih IHtl start (acc ++ render cfg n v) o cfg n u
        (List.append_ne_nil_of_left_ne_nil h _)
      simpa [List.append_assoc] using this
    · simp only [Bool.not_eq_true] at hb
      simp only [hb, Bool.false_eq_true, if_false]
      rw [show ((o ++ acc) ++ [seqSepChar cfg.delimiter start] : List Char) =
        o ++ (acc ++ [seqSepChar cfg.delimiter start]) from by
          simp [List.append_assoc]]
      rw [IHv (o ++ (acc ++ [seqSepChar cfg.delimiter start])) cfg n u]
      have := ih IHtl start
        (acc ++ [seqSepChar cfg.delimiter start] ++ render cfg n v) o cfg n u
        (List.append_ne_nil_of_left_ne_nil
          (List.append_ne_nil_of_left_ne_nil h _) _)
      simpa [List.append_assoc] using this

theorem serializeMapEntries_ok (l : List (String × Value))
    (IH : ∀ kv ∈ l, SerOK kv.2) :
    ∀ (acc o : List Char) (cfg : PrettyConfig) (n : Nat) (u : Bool)
      (m : SerializerMode), acc ≠ [] →
    serializeMapEntries
      { output := o ++ acc, mode := m, pretty := cfg, indent_tracking := n,
        underflow := u } l =
    .ok { output := o ++ renderMapEntries cfg n acc l,
          mode := (if l.isEmpty then m else SerializerMode.Normal),
          pretty := cfg, indent_tracking := n, underflow := u } := by
  induction l with
  | nil => intros; simp [serializeMapEntries, renderMapEntries]
  | cons kv tl ih =>
    obtain ⟨k, v⟩ := kv
    intro acc o cfg n u m h
    have IHv : SerOK v := IH (k, v) (by simp)
    have IHtl : ∀ kv ∈ tl, SerOK kv.2 := fun kv hkv => IH kv (by simp [hkv])
    have step : ∀ (acc' : List Char), acc' ≠ [] →
        (match serializeValue
          { output := (o ++ acc') ++ ['-', '>'], mode := SerializerMode.Normal,
            pretty := cfg, indent_tracking := n, underflow := u } v with
         | Except.error e => Except.error e
         | Except.ok s7 => serializeMapEntries s7 tl) =
        Except.ok
          { output :=
              o ++ renderMapEntries cfg n (acc' ++ ['-', '>'] ++ render cfg n v) tl,
            mode := SerializerMode.Normal, pretty := cfg,
            indent_tracking := n, underflow := u } := by
      intro acc' h'
      rw [show ((o ++ acc') ++ ['-', '>'] : List Char) =
        o ++ (acc' ++ ['-', '>']) from by simp [List.append_assoc]]
      rw [IHv (o ++ (acc' ++ ['-', '>'])) cfg n u]
      have := ih IHtl (acc' ++ ['-', '>'] ++ render cfg n v) o cfg n u
        SerializerMode.Normal
        (List.append_ne_nil_of_left_ne_nil
          (List.append_ne_nil_of_left_ne_nil h' _) _)
      simp only [List.append_assoc] at this ⊢
      rw [this]
      congr 1
      cases tl <;> simp
    by_cases hN : cfg.delimiter = DelimiterType.Newline
    · have hs := step (acc ++ [delimChar cfg.delimiter]
        ++ indentChars cfg n ++ k.data)
        (List.append_ne_nil_of_left_ne_nil
          (List.append_ne_nil_of_left_ne_nil
            (List.append_ne_nil_of_left_ne_nil h _) _) _)
      simp only [List.append_assoc, hN] at hs
      simp only [serializeMapEntries, renderMapEntries, delimiter_of_mk,
        create_indent_mk, Serializer.write, endsWithChar_append o acc _ h, hN,
        eq_self_iff_true, or_true, if_true, List.append_assoc, List.isEmpty_cons,
        Bool.false_eq_true, if_false]
      exact hs
    · by_cases hE : endsWithChar acc '\x7b' = true
      · have hs := step (acc ++ k.data)
          (List.append_ne_nil_of_left_ne_nil h _)
        simp only [List.append_assoc] at hs
        simp only [serializeMapEntries, renderMapEntries, delimiter_of_mk,
          create_indent_mk, Serializer.write, endsWithChar_append o acc _ h, hE,
          hN, not_true, false_or, if_false, if_neg hN, List.append_assoc,
          List.isEmpty_cons, Bool.false_eq_true]
        exact hs
      · simp only [Bool.not_eq_true] at hE
        have hs := step (acc ++ [delimChar cfg.delimiter] ++ k.data)
          (List.append_ne_nil_of_left_ne_nil
            (List.append_ne_nil_of_left_ne_nil h _) _)
        simp only [List.append_assoc] at hs
        simp only [serializeMapEntries, renderMapEntries, delimiter_of_mk,
          create_indent_mk, Serializer.write, endsWithChar_append o acc _ h, hE,
          Bool.false_eq_true, not_false_iff, true_or, if_true, if_neg hN,
          List.append_assoc, List.isEmpty_cons]
        exact hs

theorem serializeStructFields_ok (l : List (String × Value))
    (IH : ∀ kv ∈ l, SerOK kv.2) :
    ∀ (acc o : List Char) (cfg : PrettyConfig) (n : Nat) (u : Bool)
      (m : SerializerMode), acc ≠ [] →
    serializeStructFields
      { output := o ++ acc, mode := m, pretty := cfg, indent_tracking := n,
        underflow := u } l =
    .ok { output := o ++ renderStructFields cfg n acc l,
          mode := (if l.isEmpty then m else SerializerMode.Normal),
          pretty := cfg, indent_tracking := n, underflow := u } := by
  induction l with
  | nil => intros; simp [serializeStructFields, renderStructFields]
  | cons kv tl ih =>
    obtain ⟨k, v⟩ := kv
    intro acc o cfg n u m h
    have IHv : SerOK v := IH (k, v) (by simp)
    have IHtl : ∀ kv ∈ tl, SerOK kv.2 := fun kv hkv => IH kv (by simp [hkv])
    have step : ∀ (acc' : List Char), acc' ≠ [] →
        (match serializeValue
          { output := (o ++ acc') ++ ['-', '>'], mode := SerializerMode.Normal,
            pretty := cfg, indent_tracking := n, underflow := u } v with
         | Except.error e => Except.error e
         | Except.ok s7 => serializeStructFields s7 tl) =
        Except.ok
          { output :=
              o ++ renderStructFields cfg n (acc' ++ ['-', '>'] ++ render cfg n v) tl,
            mode := SerializerMode.Normal, pretty := cfg,
            indent_tracking := n, underflow := u } := by
      intro acc' h'
      rw [show ((o ++ acc') ++ ['-', '>'] : List Char) =
        o ++ (acc' ++ ['-', '>']) from by simp [List.append_assoc]]
      rw [IHv (o ++ (acc' ++ ['-', '>'])) cfg n u]
      have := ih IHtl (acc' ++ ['-', '>'] ++ render cfg n v) o cfg n u
        SerializerMode.Normal
        (List.append_ne_nil_of_left_ne_nil
          (List.append_ne_nil_of_left_ne_nil h' _) _)
      simp only [List.append_assoc] at this ⊢
      rw [this]
      congr 1
      cases tl <;> simp
    by_cases hN : cfg.delimiter = DelimiterType.Newline
    · have hs := step (acc ++ [delimChar cfg.delimiter]
        ++ indentChars cfg n ++ k.data)
        (List.append_ne_nil_of_left_ne_nil
          (List.append_ne_nil_of_left_ne_nil
            (List.append_ne_nil_of_left_ne_nil h _) _) _)
      simp only [List.append_assoc, hN] at hs
      simp only [serializeStructFields, renderStructFields, delimiter_of_mk,
        create_indent_mk, Serializer.write, endsWithChar_append o acc _ h, hN,
        eq_self_iff_true, or_true, if_true, List.append_assoc, List.isEmpty_cons,
        Bool.false_eq_true, if_false]
      exact hs
    · by_cases hE : endsWithChar acc '\x7b' = true
      · have hs := step (acc ++ k.data)
          (List.append_ne_nil_of_left_ne_nil h _)
        simp only [List.append_assoc] at hs
        simp only [serializeStructFields, renderStructFields, delimiter_of_mk,
          create_indent_mk, Serializer.write, endsWithChar_append o acc _ h, hE,
          hN, not_true, false_or, if_false, if_neg hN, List.append_assoc,
          List.isEmpty_cons, Bool.false_eq_true]
        exact hs
      · simp only [Bool.not_eq_true] at hE
        have hs := step (acc ++ [delimChar cfg.delimiter] ++ k.data)
          (List.append_ne_nil_of_left_ne_nil
            (List.append_ne_nil_of_left_ne_nil h _) _)
        simp only [List.append_assoc] at hs
        simp only [serializeStructFields, renderStructFields, delimiter_of_mk,
          create_indent_mk, Serializer.write, endsWithChar_append o acc _ h, hE,
          Bool.false_eq_true, not_false_iff, true_or, if_true, if_neg hN,
          List.append_assoc, List.isEmpty_cons]
        exact hs

theorem serializeSVFields_ok (l : List (String × Value))
    (IH : ∀ kv ∈ l, SerOK kv.2) :
    ∀ (acc o : List Char) (cfg : PrettyConfig) (n : Nat) (u : Bool),
      acc ≠ [] →
    serializeSVFields
      { output := o ++ acc, mode := SerializerMode.Normal, pretty := cfg,
        indent_tracking := n, underflow := u } l =
    .ok { output := o ++ renderSVFields cfg n acc l,
          mode := SerializerMode.Normal, pretty := cfg, indent_tracking := n,
          underflow := u } := by
  induction l with
  | nil => intros; simp [serializeSVFields, renderSVFields]
  | cons kv tl ih =>
    obtain ⟨k, v⟩ := kv
    intro acc o cfg n u h
    have IHv : SerOK v := IH (k, v) (by simp)
    have IHtl : ∀ kv ∈ tl, SerOK kv.2 := fun kv hkv => IH kv (by simp [hkv])
    have step : ∀ (acc' : List Char), acc' ≠ [] →
        (match serializeValue
          { output := (o ++ acc') ++ ['-', '>'], mode := SerializerMode.Normal,
            pretty := cfg, indent_tracking := n, underflow := u } v with
         | Except.error e => Except.error e
         | Except.ok s6 => serializeSVFields s6 tl) =
        Except.ok
          { output :=
              o ++ renderSVFields cfg n (acc' ++ ['-', '>'] ++ render cfg n v) tl,
            mode := SerializerMode.Normal, pretty := cfg,
            indent_tracking := n, underflow := u } := by
      intro acc' h'
      rw [show ((o ++ acc') ++ ['-', '>'] : List Char) =
        o ++ (acc' ++ ['-', '>']) from by simp [List.append_assoc]]
      rw [IHv (o ++ (acc' ++ ['-', '>'])) cfg n u]
      have := ih IHtl (acc' ++ ['-', '>'] ++ render cfg n v) o cfg n u
        (List.append_ne_nil_of_left_ne_nil
          (List.append_ne_nil_of_left_ne_nil h' _) _)
      simp only [List.append_assoc] at this ⊢
      rw [this]
    by_cases hE : endsWithChar acc '\x7b' = true
    · have hs := step (acc ++ k.data)
        (List.append_ne_nil_of_left_ne_nil h _)
      simp only [List.append_assoc] at hs
      simp only [serializeSVFields, renderSVFields, delimiter_of_mk,
        Serializer.write, endsWithChar_append o acc _ h, hE, not_true,
        if_false, List.append_assoc, Bool.true_eq_false]
      exact hs
    · simp only [Bool.not_eq_true] at hE
      have hs := step (acc ++ [delimChar cfg.delimiter] ++ k.data)
        (List.append_ne_nil_of_left_ne_nil
          (List.append_ne_nil_of_left_ne_nil h _) _)
      simp only [List.append_assoc] at hs
      simp only [serializeSVFields, renderSVFields, delimiter_of_mk,
        Serializer.write, endsWithChar_append o acc _ h, hE,
        Bool.false_eq_true, not_false_iff, if_true, List.append_assoc]
      exact hs

theorem serializeValue_ok (v : Value) : SerOK v := by
  have main : ∀ (N : Nat) (w : Value), sizeOf w ≤ N → SerOK w := by
    intro N
    induction N with
    | zero =>
      intro w hw
      exfalso
      cases w <;> simp_arith at hw
    | succ N ihN =>
      intro w hw
      have IHlt : ∀ x : Value, sizeOf x < sizeOf w → SerOK x := by
        intro x hx
        exact ihN x (by omega)
      cases w with
      | bool b =>
        intro o cfg n u
        cases b <;>
          simp [serializeValue, serialize_bool, render, Serializer.write]
      | int i =>
        intro o cfg n u
        simp [serializeValue, serialize_i64, render, Serializer.write]
      | uint k =>
        intro o cfg n u
        simp [serializeValue, serialize_u64, render, Serializer.write]
      | char c =>
        intro o cfg n u
        simp [serializeValue, serialize_char, render, Serializer.write]
      | str sv =>
        intro o cfg n u
        simp [serializeValue, serialize_str, render, Serializer.write]
      | unit =>
        intro o cfg n u
        simp [serializeValue, serialize_unit, render, Serializer.write]
      | unitVariant tag =>
        intro o cfg n u
        simp [serializeValue, serialize_unit_variant, render, Serializer.write]
      | bytes bs =>
        intro o cfg n u
        simp only [serializeValue, Serializer.write]
        rw [serializeBytesElems_ok bs ['['] o cfg n u SerializerMode.Normal
          (by simp)]
        simp [render, Serializer.write, List.append_assoc]
      | seq l =>
        have IH : ∀ x ∈ l, SerOK x := by
          intro x hx
          refine IHlt x ?_
          have h1 := List.sizeOf_lt_of_mem hx
          simp only [Value.seq.sizeOf_spec]
          omega
        intro o cfg n u
        simp only [serializeValue, Serializer.write]
        rw [serializeElems_ok l IH '[' ['['] o cfg n u (by simp)]
        simp [render, Serializer.write, List.append_assoc]
      | tuple l =>
        have IH : ∀ x ∈ l, SerOK x := by
          intro x hx
          refine IHlt x ?_
          have h1 := List.sizeOf_lt_of_mem hx
          simp only [Value.tuple.sizeOf_spec]
          omega
        intro o cfg n u
        simp only [serializeValue, Serializer.write]
        rw [serializeElems_ok l IH '(' ['('] o cfg n u (by simp)]
        simp [render, Serializer.write, List.append_assoc]
      | newtypeVariant tag x =>
        have IH : SerOK x := by
          refine IHlt x ?_
          simp only [Value.newtypeVariant.sizeOf_spec]
          omega
        intro o cfg n u
        simp only [serializeValue, Serializer.write]
        rw [show (o ++ ('$' :: tag.data ++ ['(']) : List Char) =
          (o ++ ('$' :: tag.data ++ ['('])) ++ [] from by simp]
        rw [show ((o ++ ('$' :: tag.data ++ ['('])) ++ [] : List Char) =
          o ++ ('$' :: tag.data ++ ['(']) from by simp]
        rw [IH (o ++ ('$' :: tag.data ++ ['('])) cfg n u]
        simp [render, Serializer.write, List.append_assoc]
      | tupleVariant tag l =>
        have IH : ∀ x ∈ l, SerOK x := by
          intro x hx
          refine IHlt x ?_
          have h1 := List.sizeOf_lt_of_mem hx
          simp only [Value.tupleVariant.sizeOf_spec]
          omega
        intro o cfg n u
        simp only [serializeValue, Serializer.write]
        rw [show (o ++ ('$' :: tag.data ++ ['(']) : List Char) =
          (o ++ ('$' :: tag.data)) ++ ['('] from by simp]
        rw [serializeElems_ok l IH '(' ['('] (o ++ ('$' :: tag.data)) cfg n u
          (by simp)]
        simp [render, Serializer.write, List.append_assoc]
      | structVariant tag fs =>
        have IH : ∀ kv ∈ fs, SerOK kv.2 := by
          intro kv hkv
          refine IHlt kv.2 ?_
          have h1 := List.sizeOf_lt_of_mem hkv
          have h2 : sizeOf kv.2 < sizeOf kv := by
            cases kv with
            | mk a b => simp
          simp only [Value.structVariant.sizeOf_spec]
          omega
        intro o cfg n u
        simp only [serializeValue, Serializer.write]
        rw [show (o ++ ('$' :: tag.data ++ ['\x7b']) : List Char) =
          (o ++ ('$' :: tag.data)) ++ ['\x7b'] from by simp]
        rw [serializeSVFields_ok fs IH ['\x7b'] (o ++ ('$' :: tag.data)) cfg
          n u (by simp)]
        simp [render, Serializer.write, List.append_assoc]
      | map es =>
        have IH : ∀ kv ∈ es, SerOK kv.2 := by
          intro kv hkv
          refine IHlt kv.2 ?_
          have h1 := List.sizeOf_lt_of_mem hkv
          have h2 : sizeOf kv.2 < sizeOf kv := by
            cases kv with
            | mk a b => simp
          simp only [Value.map.sizeOf_spec]
          omega
        intro o cfg n u
        simp only [serializeValue, Serializer.write]
        rw [serializeMapEntries_ok es IH ['\x7b'] o cfg (n + 1) u
          SerializerMode.Map (by simp)]
        by_cases hemp : es.isEmpty <;>
          by_cases hN : cfg.delimiter = DelimiterType.Newline <;>
            simp [map_struct_end, mapEndChars, render, Serializer.write,
              create_indent_mk, indentChars, hemp, hN, List.append_assoc,
              Nat.add_sub_cancel, decide_eq_false (Nat.succ_ne_zero n)]
      | strct fs =>
        have IH : ∀ kv ∈ fs, SerOK kv.2 := by
          intro kv hkv
          refine IHlt kv.2 ?_
          have h1 := List.sizeOf_lt_of_mem hkv
          have h2 : sizeOf kv.2 < sizeOf kv := by
            cases kv with
            | mk a b => simp
          simp only [Value.strct.sizeOf_spec]
          omega
        intro o cfg n u
        simp only [serializeValue, Serializer.write]
        rw [serializeStructFields_ok fs IH ['\x7b'] o cfg (n + 1) u
          SerializerMode.Map (by simp)]
        by_cases hemp : fs.isEmpty <;>
          by_cases hN : cfg.delimiter = DelimiterType.Newline <;>
            simp [map_struct_end, mapEndChars, render, Serializer.write,
              create_indent_mk, indentChars, hemp, hN, List.append_assoc,
              Nat.add_sub_cancel, decide_eq_false (Nat.succ_ne_zero n)]
  exact main (sizeOf v) v (Nat.le_refl _)

theorem to_string_eq_render (v : Value) :
    to_string v = .ok (render PrettyConfig.default 0 v) := by
  have h := serializeValue_ok v [] PrettyConfig.default 0 false
  simp only [to_string]
  rw [h]
  simp

theorem to_string_pretty_eq_render (v : Value) (cfg : PrettyConfig) :
    to_string_pretty v cfg = .ok (render cfg 0 v) := by
  have h := serializeValue_ok v [] cfg 0 false
  simp only [to_string_pretty]
  rw [h]
  simp

/-! ## Character and digit lemmas -/

theorem getLast?_mem_chars (l : List Char) (a : Char) (h : l.getLast? = some a) :
    a ∈ l := by
  induction l with
  | nil => simp at h
  | cons x xs ih =>
    cases xs with
    | nil =>
      simp at h
      simp [h]
    | cons y ys =>
      rw [List.getLast?_cons_cons] at h
      exact List.mem_cons_of_mem _ (ih h)

theorem getLast?_append_right (l₁ l₂ : List Char) (a : Char)
    (h : l₂.getLast? = some a) : (l₁ ++ l₂).getLast? = some a := by
  rw [List.getLast?_append, h]
  rfl

theorem digitToChar_isDigit (d : Nat) (h : d < 10) :
    De.isDigitChar (digitToChar d) = true := by
  interval_cases d <;> decide

theorem natToCharsF_ne_nil (fuel n : Nat) : natToCharsF (fuel + 1) n ≠ [] := by
  unfold natToCharsF
  split
  · simp
  · simp

theorem natToCharsF_all_digits (fuel : Nat) :
    ∀ (n : Nat), n < fuel → ∀ c ∈ natToCharsF fuel n, De.isDigitChar c = true := by
  induction fuel with
  | zero => intro n hn; omega
  | succ fuel ih =>
    intro n hn c hc
    unfold natToCharsF at hc
    by_cases h10 : n < 10
    · rw [if_pos h10] at hc
      simp at hc
      subst hc
      exact digitToChar_isDigit n h10
    · rw [if_neg h10] at hc
      rcases List.mem_append.mp hc with h1 | h1
      · refine ih (n / 10) ?_ c h1
        have := Nat.div_lt_self (by omega : 0 < n) (by norm_num : 1 < 10)
        omega
      · simp at h1
        subst h1
        exact digitToChar_isDigit (n % 10) (Nat.mod_lt _ (by norm_num))

theorem natToChars_ne_nil (n : Nat) : natToChars n ≠ [] :=
  natToCharsF_ne_nil n n

theorem natToChars_all_digits (n : Nat) :
    ∀ c ∈ natToChars n, De.isDigitChar c = true :=
  natToCharsF_all_digits (n + 1) n (Nat.lt_succ_self n)

theorem digit_not_open (c : Char) (h : De.isDigitChar c = true) :
    isOpenChar c = false := by
  by_contra hc
  simp only [Bool.not_eq_false, isOpenChar, Bool.or_eq_true, beq_iff_eq] at hc
  rcases hc with (h1 | h1) | h1 <;> subst h1 <;> exact absurd h (by decide)

theorem tag_not_open (c : Char) (h : isTagChar c = true) :
    isOpenChar c = false := by
  by_contra hc
  simp only [Bool.not_eq_false, isOpenChar, Bool.or_eq_true, beq_iff_eq] at hc
  rcases hc with (h1 | h1) | h1 <;> subst h1 <;> exact absurd h (by decide)

theorem keyChar_toNat (c : Char) (h : isKeyChar c = true) :
    (48 ≤ c.toNat ∧ c.toNat ≤ 57) ∨ (65 ≤ c.toNat ∧ c.toNat ≤ 90) ∨
    (97 ≤ c.toNat ∧ c.toNat ≤ 122) ∨ c.toNat = 95 ∨ c.toNat = 45 := by
  simp only [isKeyChar, Bool.or_eq_true, Bool.and_eq_true, decide_eq_true_eq,
    beq_iff_eq] at h
  rcases h with (((h1 | h1) | h1) | h1) | h1
  · exact Or.inl h1
  · exact Or.inr (Or.inl h1)
  · exact Or.inr (Or.inr (Or.inl h1))
  · subst h1; exact Or.inr (Or.inr (Or.inr (Or.inl (by decide))))
  · subst h1; exact Or.inr (Or.inr (Or.inr (Or.inr (by decide))))

theorem tagChar_toNat (c : Char) (h : isTagChar c = true) :
    (48 ≤ c.toNat ∧ c.toNat ≤ 57) ∨ (65 ≤ c.toNat ∧ c.toNat ≤ 90) ∨
    (97 ≤ c.toNat ∧ c.toNat ≤ 122) ∨ c.toNat = 95 := by
  simp only [isTagChar, Bool.or_eq_true, Bool.and_eq_true, decide_eq_true_eq,
    beq_iff_eq] at h
  rcases h with ((h1 | h1) | h1) | h1
  · exact Or.inl h1
  · exact Or.inr (Or.inl h1)
  · exact Or.inr (Or.inr (Or.inl h1))
  · subst h1; exact Or.inr (Or.inr (Or.inr (by decide)))

theorem key_not_sep (c : Char) (h : isKeyChar c = true) :
    De.isSepChar c = false ∧ c ≠ '\x7d' ∧ c ≠ '>' := by
  have hv := keyChar_toNat c h
  refine ⟨?_, ?_, ?_⟩
  · by_contra hs
    simp only [Bool.not_eq_false, De.isSepChar, De.isWSChar, Bool.or_eq_true,
      beq_iff_eq, decide_eq_true_eq] at hs
    rcases hs with ((((h1 | h1) | h1) | h1)) | h1 <;>
      · subst h1
        revert hv
        decide
  · rintro rfl
    revert hv
    decide
  · rintro rfl
    revert hv
    decide

/-! ## Rendering facts: nonemptiness and last characters -/

theorem render_ne_nil (cfg : PrettyConfig) (d : Nat) (v : Value) :
    render cfg d v ≠ [] := by
  cases v with
  | bool b => cases b <;> simp [render]
  | int i =>
    simp only [render, intChars]
    split
    · simp
    · exact natToChars_ne_nil _
  | uint n => exact natToChars_ne_nil n
  | char c => simp [render]
  | str s => simp [render]
  | unit => simp [render]
  | bytes bs => simp [render]
  | seq l => simp [render]
  | tuple l => simp [render]
  | map es =>
    simp only [render]
    refine List.append_ne_nil_of_right_ne_nil _ ?_
    unfold mapEndChars
    split <;> simp
  | strct fs =>
    simp only [render]
    refine List.append_ne_nil_of_right_ne_nil _ ?_
    unfold mapEndChars
    split <;> simp
  | unitVariant t => simp [render]
  | newtypeVariant t v => simp [render]
  | tupleVariant t l => simp [render]
  | structVariant t fs => simp [render]

theorem mapEndChars_getLast (cfg : PrettyConfig) (d : Nat) (b : Bool) :
    (mapEndChars cfg d b).getLast? = some '\x7d' := by
  unfold mapEndChars
  split
  · rfl
  · exact getLast?_append_right ['\n'] _ _ (List.getLast?_concat _)

theorem natToChars_getLast_not_open (n : Nat) (c : Char)
    (h : (natToChars n).getLast? = some c) : isOpenChar c = false :=
  digit_not_open c (natToChars_all_digits n c (getLast?_mem_chars _ _ h))

theorem render_last_not_open (cfg : PrettyConfig) (d : Nat) (v : Value)
    (hg : goodTagsV v = true) (c : Char)
    (hc : (render cfg d v).getLast? = some c) : isOpenChar c = false := by
  cases v with
  | bool b =>
    cases b <;> simp only [render] at hc <;>
      · have := getLast?_mem_chars _ _ hc
        fin_cases this <;> decide
  | int i =>
    simp only [render, intChars] at hc
    split at hc
    · rw [show ('-' :: natToChars i.natAbs : List Char) =
        ['-'] ++ natToChars i.natAbs from rfl, List.getLast?_append] at hc
      cases hl : (natToChars i.natAbs).getLast? with
      | none => rw [hl] at hc; simp [Option.or] at hc; subst hc; decide
      | some a =>
        rw [hl] at hc
        simp [Option.or] at hc
        subst hc
        exact natToChars_getLast_not_open _ _ hl
    · exact natToChars_getLast_not_open _ _ hc
  | uint n => exact natToChars_getLast_not_open _ _ hc
  | char c0 =>
    simp only [render] at hc
    rw [show (['\x27', c0, '\x27'] : List Char).getLast? = some '\x27' from rfl]
      at hc
    injection hc with hcc
    subst hcc
    decide
  | str s =>
    simp only [render] at hc
    rw [show ('\x22' :: s.data ++ ['\x22'] : List Char) =
      ['\x22'] ++ (s.data ++ ['\x22']) from by simp] at hc
    rw [getLast?_append_right _ _ _ (List.getLast?_concat _)] at hc
    injection hc with hcc
    subst hcc
    decide
  | unit =>
    simp only [render] at hc
    injection hc with hcc
    subst hcc
    decide
  | bytes bs =>
    simp only [render] at hc
    rw [List.getLast?_concat] at hc
    injection hc with hcc
    subst hcc
    decide
  | seq l =>
    simp only [render] at hc
    rw [List.getLast?_concat] at hc
    injection hc with hcc
    subst hcc
    decide
  | tuple l =>
    simp only [render] at hc
    rw [List.getLast?_concat] at hc
    injection hc with hcc
    subst hcc
    decide
  | map es =>
    simp only [render] at hc
    rw [getLast?_append_right _ _ _ (mapEndChars_getLast cfg d es.isEmpty)]
      at hc
    injection hc with hcc
    subst hcc
    decide
  | strct fs =>
    simp only [render] at hc
    rw [getLast?_append_right _ _ _ (mapEndChars_getLast cfg d fs.isEmpty)]
      at hc
    injection hc with hcc
    subst hcc
    decide
  | unitVariant t =>
    simp only [render] at hc
    simp only [goodTagsV, goodTag] at hg
    rw [show ('$' :: t.data : List Char) = ['$'] ++ t.data from rfl,
      List.getLast?_append] at hc
    cases hl : t.data.getLast? with
    | none => rw [hl] at hc; simp [Option.or] at hc; subst hc; decide
    | some a =>
      rw [hl] at hc
      simp [Option.or] at hc
      subst hc
      exact tag_not_open _ (List.all_eq_true.mp hg _ (getLast?_mem_chars _ _ hl))
  | newtypeVariant t v =>
    simp only [render] at hc
    rw [List.getLast?_concat] at hc
    injection hc with hcc
    subst hcc
    decide
  | tupleVariant t l =>
    simp only [render] at hc
    rw [show ('$' :: t.data ++ renderElems cfg d '(' ['('] l ++ [')']
        : List Char) =
      ('$' :: t.data ++ renderElems cfg d '(' ['('] l) ++ [')'] from by simp]
      at hc
    rw [List.getLast?_concat] at hc
    injection hc with hcc
    subst hcc
    decide
  | structVariant t fs =>
    simp only [render] at hc
    rw [show ('$' :: t.data ++ renderSVFields cfg d ['\x7b'] fs ++ ['\x7d']
        : List Char) =
      ('$' :: t.data ++ renderSVFields cfg d ['\x7b'] fs) ++ ['\x7d'] from by
        simp] at hc
    rw [List.getLast?_concat] at hc
    injection hc with hcc
    subst hcc
    decide

/-! ## Clean forms of the container renderings -/

theorem renderElems_tail (cfg : PrettyConfig) (d : Nat) (start : Char)
    (hs : isOpenChar start = true) :
    ∀ (l : List Value) (acc : List Char), goodTagsL l = true →
    (∀ c, acc.getLast? = some c → isOpenChar c = false) →
    renderElems cfg d start acc l =
      acc ++ (l.map
        (fun v => seqSepChar cfg.delimiter start :: render cfg d v)).flatten := by
  intro l
  induction l with
  | nil => intro acc _ _; simp [renderElems]
  | cons v tl ih =>
    intro acc hg hlast
    simp only [goodTagsL, Bool.and_eq_true] at hg
    have hfalse : endsWithChar acc start = false := by
      unfold endsWithChar
      cases hl : acc.getLast? with
      | none => rfl
      | some a =>
        have ha := hlast a hl
        simp only [beq_eq_false_iff_ne, ne_eq, Option.some.injEq]
        rintro rfl
        rw [hs] at ha
        exact Bool.true_eq_false.mp ha
    simp only [renderElems, hfalse, Bool.false_eq_true, if_false]
    rw [ih (acc ++ [seqSepChar cfg.delimiter start] ++ render cfg d v) hg.2 ?_]
    · simp [List.append_assoc]
    · intro c hc
      rw [List.append_assoc, List.getLast?_append] at hc
      cases hr : (render cfg d v).getLast? with
      | none =>
        exact absurd (List.getLast?_eq_none_iff.mp hr) (render_ne_nil cfg d v)
      | some a =>
        rw [getLast?_append_right _ _ _ hr] at hc
        simp only [Option.or] at hc
        injection hc with hac
        subst hac
        exact render_last_not_open cfg d v hg.1 _ hr

theorem renderElems_clean (cfg : PrettyConfig) (d : Nat) (start : Char)
    (hs : isOpenChar start = true) (l : List Value) (h : goodTagsL l = true) :
    renderElems cfg d start [start] l =
      start :: sepJoin (seqSepChar cfg.delimiter start)
        (l.map (render cfg d)) := by
  cases l with
  | nil => simp [renderElems, sepJoin]
  | cons v tl =>
    simp only [goodTagsL, Bool.and_eq_true] at h
    have htrue : endsWithChar [start] start = true := by
      simp [endsWithChar]
    simp only [renderElems, htrue, if_true]
    rw [renderElems_tail cfg d start hs tl ([start] ++ render cfg d v) h.2 ?_]
    · simp only [sepJoin, List.map_cons, List.map_map, List.cons_append,
        List.append_assoc]
      rfl
    · intro c hc
      rw [List.getLast?_append] at hc
      cases hr : (render cfg d v).getLast? with
      | none =>
        exact absurd (List.getLast?_eq_none_iff.mp hr) (render_ne_nil cfg d v)
      | some a =>
        rw [hr] at hc
        simp only [Option.or] at hc
        injection hc with hac
        subst hac
        exact render_last_not_open cfg d v h.1 _ hr

theorem renderMapEntries_tail (cfg : PrettyConfig) (d : Nat)
    (hN : cfg.delimiter ≠ DelimiterType.Newline) :
    ∀ (l : List (String × Value)) (acc : List Char), goodTagsE l = true →
    (∀ c, acc.getLast? = some c → isOpenChar c = false) →
    renderMapEntries cfg d acc l =
      acc ++ (l.map
        (fun kv => delimChar cfg.delimiter :: pairItem cfg d kv)).flatten := by
  intro l
  induction l with
  | nil => intro acc _ _; simp [renderMapEntries]
  | cons kv tl ih =>
    obtain ⟨k, v⟩ := kv
    intro acc hg hlast
    simp only [goodTagsE, Bool.and_eq_true] at hg
    have hfalse : endsWithChar acc '\x7b' = false := by
      unfold endsWithChar
      cases hl : acc.getLast? with
      | none => rfl
      | some a =>
        have ha := hlast a hl
        simp only [beq_eq_false_iff_ne, ne_eq, Option.some.injEq]
        rintro rfl
        exact absurd ha (by decide)
    have hcond : ¬ endsWithChar acc '\x7b' = true
        ∨ cfg.delimiter = DelimiterType.Newline := by
      left; simp [hfalse]
    simp only [renderMapEntries, if_pos hcond, if_neg hN]
    rw [ih (acc ++ [delimChar cfg.delimiter] ++ k.data ++ ['-', '>']
        ++ render cfg d v) hg.2 ?_]
    · simp [pairItem, List.append_assoc]
    · intro c hc
      rw [List.append_assoc, List.append_assoc, List.append_assoc,
        List.getLast?_append] at hc
      cases hr : (render cfg d v).getLast? with
      | none =>
        exact absurd (List.getLast?_eq_none_iff.mp hr) (render_ne_nil cfg d v)
      | some a =>
        rw [getLast?_append_right _ _ _ (getLast?_append_right _ _ _
          (getLast?_append_right _ _ _ hr))] at hc
        simp only [Option.or] at hc
        injection hc with hac
        subst hac
        exact render_last_not_open cfg d v hg.1 _ hr

theorem renderMapEntries_clean_colon (cfg : PrettyConfig) (d : Nat)
    (hN : cfg.delimiter ≠ DelimiterType.Newline) (l : List (String × Value))
    (h : goodTagsE l = true) :
    renderMapEntries cfg d ['\x7b'] l =
      '\x7b' :: sepJoin (delimChar cfg.delimiter) (l.map (pairItem cfg d)) := by
  cases l with
  | nil => simp [renderMapEntries, sepJoin]
  | cons kv tl =>
    obtain ⟨k, v⟩ := kv
    simp only [goodTagsE, Bool.and_eq_true] at h
    have htrue : endsWithChar ['\x7b'] '\x7b' = true := by
      simp [endsWithChar]
    have hcond : ¬ (¬ endsWithChar ['\x7b'] '\x7b' = true
        ∨ cfg.delimiter = DelimiterType.Newline) := by
      simp [htrue, hN]
    simp only [renderMapEntries, if_neg hcond, if_neg hN]
    rw [renderMapEntries_tail cfg d hN tl
      (['\x7b'] ++ k.data ++ ['-', '>'] ++ render cfg d v) h.2 ?_]
    · simp only [sepJoin, List.map_cons, List.map_map, pairItem,
        List.cons_append, List.append_assoc]
      rfl
    · intro c hc
      cases hr : (render cfg d v).getLast? with
      | none =>
        exact absurd (List.getLast?_eq_none_iff.mp hr) (render_ne_nil cfg d v)
      | some a =>
        rw [getLast?_append_right _ _ _ hr] at hc
        injection hc with hac
        subst hac
        exact render_last_not_open cfg d v h.1 _ hr

theorem renderMapEntries_clean_newline (cfg : PrettyConfig) (d : Nat)
    (hN : cfg.delimiter = DelimiterType.Newline) (l : List (String × Value)) :
    ∀ (acc : List Char),
    renderMapEntries cfg d acc l =
      acc ++ (l.map
        (fun kv => '\n' :: (indentChars cfg d ++ pairItem cfg d kv))).flatten := by
  induction l with
  | nil => intro acc; simp [renderMapEntries]
  | cons kv tl ih =>
    obtain ⟨k, v⟩ := kv
    intro acc
    have hcond : ¬ endsWithChar acc '\x7b' = true
        ∨ cfg.delimiter = DelimiterType.Newline := Or.inr hN
    simp only [renderMapEntries, if_pos hcond, if_pos hN]
    rw [ih]
    rw [hN]
    simp [pairItem, List.append_assoc, delimChar]

theorem renderStructFields_eq_map (cfg : PrettyConfig) (d : Nat) :
    ∀ (l : List (String × Value)) (acc : List Char),
    renderStructFields cfg d acc l = renderMapEntries cfg d acc l := by
  intro l
  induction l with
  | nil => intro acc; simp [renderStructFields, renderMapEntries]
  | cons kv tl ih =>
    obtain ⟨k, v⟩ := kv
    intro acc
    simp only [renderStructFields, renderMapEntries]
    split <;> split <;> rw [ih]

theorem renderSVFields_tail (cfg : PrettyConfig) (d : Nat) :
    ∀ (l : List (String × Value)) (acc : List Char), goodTagsE l = true →
    (∀ c, acc.getLast? = some c → isOpenChar c = false) →
    renderSVFields cfg d acc l =
      acc ++ (l.map
        (fun kv => delimChar cfg.delimiter :: pairItem cfg d kv)).flatten := by
  intro l
  induction l with
  | nil => intro acc _ _; simp [renderSVFields]
  | cons kv tl ih =>
    obtain ⟨k, v⟩ := kv
    intro acc hg hlast
    simp only [goodTagsE, Bool.and_eq_true] at hg
    have hfalse : endsWithChar acc '\x7b' = false := by
      unfold endsWithChar
      cases hl : acc.getLast? with
      | none => rfl
      | some a =>
        have ha := hlast a hl
        simp only [beq_eq_false_iff_ne, ne_eq, Option.some.injEq]
        rintro rfl
        exact absurd ha (by decide)
    have hcond : ¬ endsWithChar acc '\x7b' = true := by simp [hfalse]
    simp only [renderSVFields, if_pos hcond]
    rw [ih (acc ++ [delimChar cfg.delimiter] ++ k.data ++ ['-', '>']
        ++ render cfg d v) hg.2 ?_]
    · simp [pairItem, List.append_assoc]
    · intro c hc
      rw [List.append_assoc, List.append_assoc, List.append_assoc,
        List.getLast?_append] at hc
      cases hr : (render cfg d v).getLast? with
      | none =>
        exact absurd (List.getLast?_eq_none_iff.mp hr) (render_ne_nil cfg d v)
      | some a =>
        rw [getLast?_append_right _ _ _ (getLast?_append_right _ _ _
          (getLast?_append_right _ _ _ hr))] at hc
        simp only [Option.or] at hc
        injection hc with hac
        subst hac
        exact render_last_not_open cfg d v hg.1 _ hr

theorem renderSVFields_clean (cfg : PrettyConfig) (d : Nat)
    (l : List (String × Value)) (h : goodTagsE l = true) :
    renderSVFields cfg d ['\x7b'] l =
      '\x7b' :: sepJoin (delimChar cfg.delimiter) (l.map (pairItem cfg d)) := by
  cases l with
  | nil => simp [renderSVFields, sepJoin]
  | cons kv tl =>
    obtain ⟨k, v⟩ := kv
    simp only [goodTagsE, Bool.and_eq_true] at h
    have hcond : ¬ (¬ endsWithChar ['\x7b'] '\x7b' = true) := by
      simp [endsWithChar]
    simp only [renderSVFields, if_neg hcond]
    rw [renderSVFields_tail cfg d tl
      (['\x7b'] ++ k.data ++ ['-', '>'] ++ render cfg d v) h.2 ?_]
    · simp only [sepJoin, List.map_cons, List.map_map, pairItem,
        List.cons_append, List.append_assoc]
      rfl
    · intro c hc
      cases hr : (render cfg d v).getLast? with
      | none =>
        exact absurd (List.getLast?_eq_none_iff.mp hr) (render_ne_nil cfg d v)
      | some a =>
        rw [getLast?_append_right _ _ _ hr] at hc
        injection hc with hac
        subst hac
        exact render_last_not_open cfg d v h.1 _ hr

/-! ## Parser scanning lemmas -/

theorem isWS_of_not_sep (c : Char) (hc : De.isSepChar c = false) :
    De.isWSChar c = false := by
  by_contra h
  simp only [Bool.not_eq_false] at h
  simp [De.isSepChar, h] at hc

theorem skipSep_append_sep (junk : List Char) (h : allSep junk)
    (r : List Char) : De.skipSep (junk ++ r) = De.skipSep r := by
  induction junk with
  | nil => rfl
  | cons c tl ih =>
    have hc : De.isSepChar c = true := h c (by simp)
    simp only [List.cons_append, De.skipSep, List.dropWhile_cons, hc, if_true]
    exact ih (fun b hb => h b (by simp [hb]))

theorem skipSep_cons_not (c : Char) (r : List Char)
    (hc : De.isSepChar c = false) : De.skipSep (c :: r) = c :: r := by
  simp [De.skipSep, List.dropWhile_cons, hc]

theorem skipWS_cons_not (c : Char) (r : List Char)
    (hc : De.isSepChar c = false) : De.skipWS (c :: r) = c :: r := by
  simp [De.skipWS, List.dropWhile_cons, isWS_of_not_sep c hc]

theorem seqSepChar_isSep (dt : DelimiterType) (start : Char) :
    De.isSepChar (seqSepChar dt start) = true := by
  cases dt <;>
    · unfold seqSepChar
      split <;> decide

theorem delimChar_isSep (dt : DelimiterType) :
    De.isSepChar (delimChar dt) = true := by
  cases dt <;> decide

theorem indentChars_allSep (cfg : PrettyConfig) (d : Nat) :
    allSep (indentChars cfg d) := by
  intro c hc
  have : c = ' ' := List.eq_of_mem_replicate hc
  subst this
  decide

theorem boundary_cons_flags (c : Char)
    (h : De.isSepChar c = true ∨ c = ']' ∨ c = ')' ∨ c = '\x7d') :
    De.isDigitChar c = false ∧ isTagChar c = false := by
  rcases h with h | h | h | h
  · simp only [De.isSepChar, De.isWSChar, Bool.or_eq_true, beq_iff_eq,
      decide_eq_true_eq] at h
    rcases h with ((((h1 | h1) | h1) | h1)) | h1 <;> subst h1 <;>
      exact ⟨by decide, by decide⟩
  all_goals (subst h; exact ⟨by decide, by decide⟩)

theorem digit_flags (c : Char) (h : De.isDigitChar c = true) :
    De.isSepChar c = false ∧ (c = ']' → False) ∧ (c = ')' → False) ∧
    (c = '\x7d' → False) ∧ (c = '-' → False) := by
  simp only [De.isDigitChar, Bool.and_eq_true, decide_eq_true_eq] at h
  obtain ⟨h1, h2⟩ := h
  refine ⟨?_, ?_, ?_, ?_, ?_⟩
  · by_contra hs
    simp only [Bool.not_eq_false, De.isSepChar, De.isWSChar, Bool.or_eq_true,
      beq_iff_eq, decide_eq_true_eq] at hs
    rcases hs with ((((hx | hx) | hx) | hx)) | hx <;> subst hx <;>
      revert h1 h2 <;> decide
  all_goals (rintro rfl; revert h1 h2; decide)

/-! ## Decimal parsing round-trip -/

theorem charToDigit_digitToChar (d : Nat) (h : d < 10) :
    De.charToDigit (digitToChar d) = d := by
  interval_cases d <;> decide

theorem natToCharsF_foldl (fuel : Nat) :
    ∀ (n : Nat), n < fuel →
    (natToCharsF fuel n).foldl (fun a c => 10 * a + De.charToDigit c) 0 = n := by
  induction fuel with
  | zero => intro n hn; omega
  | succ fuel ih =>
    intro n hn
    unfold natToCharsF
    by_cases h10 : n < 10
    · rw [if_pos h10]
      simp [charToDigit_digitToChar n h10]
    · rw [if_neg h10]
      rw [List.foldl_append]
      have hdiv : n / 10 < fuel := by
        have := Nat.div_lt_self (by omega : 0 < n) (by norm_num : 1 < 10)
        omega
      rw [ih (n / 10) hdiv]
      simp only [List.foldl_cons, List.foldl_nil]
      rw [charToDigit_digitToChar (n % 10) (Nat.mod_lt _ (by norm_num))]
      omega

theorem natToChars_foldl (n : Nat) :
    (natToChars n).foldl (fun a c => 10 * a + De.charToDigit c) 0 = n :=
  natToCharsF_foldl (n + 1) n (Nat.lt_succ_self n)

theorem natToChars_head (n : Nat) :
    ∃ c r, natToChars n = c :: r ∧ De.isDigitChar c = true := by
  have main : ∀ (fuel m : Nat), m < fuel →
      ∃ c r, natToCharsF fuel m = c :: r ∧ De.isDigitChar c = true := by
    intro fuel
    induction fuel with
    | zero => intro m hm; omega
    | succ fuel ih =>
      intro m hm
      unfold natToCharsF
      by_cases h10 : m < 10
      · rw [if_pos h10]
        exact ⟨digitToChar m, [], rfl, digitToChar_isDigit m h10⟩
      · rw [if_neg h10]
        have hdiv : m / 10 < fuel := by
          have := Nat.div_lt_self (by omega : 0 < m) (by norm_num : 1 < 10)
          omega
        obtain ⟨c, r, hcr, hd⟩ := ih (m / 10) hdiv
        exact ⟨c, r ++ [digitToChar (m % 10)], by rw [hcr]; rfl, hd⟩
  exact main (n + 1) n (Nat.lt_succ_self n)

theorem parseNatTok_render (n : Nat) (rest : List Char)
    (hrest : rest = [] ∨ ∃ c r, rest = c :: r ∧ De.isDigitChar c = false) :
    De.parseNatTok (natToChars n ++ rest) = some (n, rest) := by
  have htake : (natToChars n ++ rest).takeWhile De.isDigitChar = natToChars n := by
    rcases hrest with rfl | ⟨c, r, rfl, hc⟩
    · rw [List.append_nil]
      exact takeWhile_all_eq _ _ (natToChars_all_digits n)
    · exact takeWhile_append_stop _ _ (natToChars_all_digits n) c hc r
  have hdrop : (natToChars n ++ rest).dropWhile De.isDigitChar = rest := by
    rcases hrest with rfl | ⟨c, r, rfl, hc⟩
    · rw [List.append_nil]
      exact dropWhile_all_eq _ _ (natToChars_all_digits n)
    · exact dropWhile_append_stop _ _ (natToChars_all_digits n) c hc r
  unfold De.parseNatTok
  rw [htake, hdrop]
  rw [if_neg (by simp [natToChars_ne_nil n])]
  rw [natToChars_foldl n]

theorem parseIntTok_render_nonneg (i : Int) (hi : 0 ≤ i) (rest : List Char)
    (hrest : rest = [] ∨ ∃ c r, rest = c :: r ∧ De.isDigitChar c = false) :
    De.parseIntTok (intChars i ++ rest) = some (i, rest) := by
  have hch : intChars i = natToChars i.natAbs := by
    unfold intChars
    rw [if_neg (by omega)]
  obtain ⟨c, r, hcr, hd⟩ := natToChars_head i.natAbs
  have hne : ¬ ((natToChars i.natAbs ++ rest).head? = some '-') := by
    rw [hcr]
    simp only [List.cons_append, List.head?_cons, Option.some.injEq]
    rintro rfl
    exact (digit_flags _ hd).2.2.2.2 rfl
  unfold De.parseIntTok
  rw [hch, if_neg hne, parseNatTok_render i.natAbs rest hrest]
  simp [Int.natAbs_of_nonneg hi]

theorem parseIntTok_render_neg (i : Int) (hi : i < 0) (rest : List Char)
    (hrest : rest = [] ∨ ∃ c r, rest = c :: r ∧ De.isDigitChar c = false) :
    De.parseIntTok (intChars i ++ rest) = some (i, rest) := by
  have hch : intChars i = '-' :: natToChars i.natAbs := by
    unfold intChars
    rw [if_pos hi]
  unfold De.parseIntTok
  rw [hch]
  simp only [List.cons_append, List.head?_cons, List.tail_cons, if_pos rfl]
  rw [parseNatTok_render i.natAbs rest hrest]
  show some (-((i.natAbs : Nat) : Int), rest) = some (i, rest)
  have h2 : -((i.natAbs : Nat) : Int) = i := by
    omega
  rw [h2]

/-! ## Key scanning -/

theorem scanKey_exact (k : List Char) (hk : ∀ c ∈ k, isKeyChar c = true)
    (rest : List Char) :
    De.scanKey (k ++ '-' :: '>' :: rest) = (k, '-' :: '>' :: rest) := by
  induction k with
  | nil =>
    unfold De.scanKey
    simp
  | cons c tl ih =>
    have hc := key_not_sep c (hk c (by simp))
    simp only [De.scanKey, List.cons_append]
    rw [if_neg (by simp [hc.1, hc.2.1])]
    rw [if_neg ?hlook]
    case hlook =>
      simp only [Bool.and_eq_true, decide_eq_true_eq]
      rintro ⟨h1, h2⟩
      cases tl with
      | nil =>
        rw [show ([] : List Char).append ('-' :: '>' :: rest) =
          '-' :: '>' :: rest from rfl] at h2
        simp only [List.head?_cons, Option.some.injEq] at h2
        exact absurd h2 (by decide)
      | cons c2 tl2 =>
        have hc2 := key_not_sep c2 (hk c2 (by simp))
        rw [show ((c2 :: tl2).append ('-' :: '>' :: rest)).head? = some c2
          from rfl] at h2
        injection h2 with h2
        exact hc2.2.2 h2
    simp only [List.append_eq]
    rw [ih (fun b hb => hk b (by simp [hb]))]

/-! ## Round-trip infrastructure -/

theorem boundaryOK_nil : De.boundaryOK [] := trivial

theorem boundaryOK_cons (c : Char) (r : List Char)
    (h : De.isSepChar c = true ∨ c = ']' ∨ c = ')' ∨ c = '\x7d') :
    De.boundaryOK (c :: r) := h

theorem boundaryOK_elim (c : Char) (r : List Char)
    (h : De.boundaryOK (c :: r)) :
    De.isSepChar c = true ∨ c = ']' ∨ c = ')' ∨ c = '\x7d' := h

theorem goodTagsL_of_list (l : List Value)
    (IH : ∀ w ∈ l, goodV w = true → goodTagsV w = true)
    (h : goodL l = true) : goodTagsL l = true := by
  induction l with
  | nil => rfl
  | cons v tl ih =>
    simp only [goodL, Bool.and_eq_true] at h
    simp only [goodTagsL, Bool.and_eq_true]
    exact ⟨IH v (by simp) h.1, ih (fun w hw => IH w (by simp [hw])) h.2⟩

theorem goodTagsE_of_list (l : List (String × Value))
    (IH : ∀ kv ∈ l, goodV kv.2 = true → goodTagsV kv.2 = true)
    (h : goodE l = true) : goodTagsE l = true := by
  induction l with
  | nil => rfl
  | cons kv tl ih =>
    obtain ⟨k, v⟩ := kv
    simp only [goodE, Bool.and_eq_true] at h
    simp only [goodTagsE, Bool.and_eq_true]
    exact ⟨IH (k, v) (by simp) h.1.2, ih (fun w hw => IH w (by simp [hw])) h.2⟩

theorem goodV_tags (v : Value) (h : goodV v = true) : goodTagsV v = true := by
  have main : ∀ (N : Nat) (w : Value), sizeOf w ≤ N →
      goodV w = true → goodTagsV w = true := by
    intro N
    induction N with
    | zero =>
      intro w hw
      exfalso
      cases w <;> simp_arith at hw
    | succ N ihN =>
      intro w hw hg
      cases w with
      | bool b => rfl
      | int i => rfl
      | uint n => rfl
      | char c => rfl
      | str s => rfl
      | unit => rfl
      | bytes bs => rfl
      | seq l =>
        simp only [goodV] at hg
        simp only [goodTagsV]
        refine goodTagsL_of_list l (fun x hx => ihN x ?_) hg
        have h1 := List.sizeOf_lt_of_mem hx
        simp only [Value.seq.sizeOf_spec] at hw
        omega
      | tuple l =>
        simp only [goodV] at hg
        simp only [goodTagsV]
        refine goodTagsL_of_list l (fun x hx => ihN x ?_) hg
        have h1 := List.sizeOf_lt_of_mem hx
        simp only [Value.tuple.sizeOf_spec] at hw
        omega
      | map es =>
        simp only [goodV] at hg
        simp only [goodTagsV]
        refine goodTagsE_of_list es (fun kv hkv => ihN kv.2 ?_) hg
        have h1 := List.sizeOf_lt_of_mem hkv
        have h2 : sizeOf kv.2 < sizeOf kv := by
          cases kv with
          | mk a b => simp
        simp only [Value.map.sizeOf_spec] at hw
        omega
      | strct fs =>
        simp only [goodV] at hg
        simp only [goodTagsV]
        refine goodTagsE_of_list fs (fun kv hkv => ihN kv.2 ?_) hg
        have h1 := List.sizeOf_lt_of_mem hkv
        have h2 : sizeOf kv.2 < sizeOf kv := by
          cases kv with
          | mk a b => simp
        simp only [Value.strct.sizeOf_spec] at hw
        omega
      | unitVariant t =>
        simp only [goodV] at hg
        simp only [goodTagsV]
        exact hg
      | newtypeVariant t x =>
        simp only [goodV, Bool.and_eq_true] at hg
        simp only [goodTagsV, Bool.and_eq_true]
        refine ⟨hg.1, ihN x ?_ hg.2⟩
        simp only [Value.newtypeVariant.sizeOf_spec] at hw
        omega
      | tupleVariant t l =>
        simp only [goodV, Bool.and_eq_true] at hg
        simp only [goodTagsV, Bool.and_eq_true]
        refine ⟨hg.1, goodTagsL_of_list l (fun x hx => ihN x ?_) hg.2⟩
        have h1 := List.sizeOf_lt_of_mem hx
        simp only [Value.tupleVariant.sizeOf_spec] at hw
        omega
      | structVariant t fs =>
        simp only [goodV, Bool.and_eq_true] at hg
        simp only [goodTagsV, Bool.and_eq_true]
        refine ⟨hg.1, goodTagsE_of_list fs (fun kv hkv => ihN kv.2 ?_) hg.2⟩
        have h1 := List.sizeOf_lt_of_mem hkv
        have h2 : sizeOf kv.2 < sizeOf kv := by
          cases kv with
          | mk a b => simp
        simp only [Value.structVariant.sizeOf_spec] at hw
        omega
  exact main (sizeOf v) v (Nat.le_refl _) h

theorem sepJoin_eq_sepJoinL (sep : Char) (items : List (List Char)) :
    sepJoin sep items = sepJoinL [sep] items := by
  cases items <;> rfl

theorem flatten_sep_cons (sep : Char) (x : List Char) (tl : List (List Char)) :
    ((x :: tl).map (fun y => sep :: y)).flatten = sep :: sepJoin sep (x :: tl) := by
  simp [sepJoin]

theorem flatten_junk_cons (j : List Char) (x : List Char) (tl : List (List Char)) :
    ((x :: tl).map (fun y => j ++ y)).flatten = j ++ sepJoinL j (x :: tl) := by
  simp [sepJoinL]

theorem renderBytesElems_cons_head (cfg : PrettyConfig) :
    ∀ (bs : List Nat) (a : Char) (acc0 : List Char),
    ∃ t, renderBytesElems cfg (a :: acc0) bs = a :: t := by
  intro bs
  induction bs with
  | nil => intro a acc0; exact ⟨acc0, by simp [renderBytesElems]⟩
  | cons b tl ih =>
    intro a acc0
    by_cases h : endsWithChar (a :: acc0) '[' = true
    · simp only [renderBytesElems, h, if_true, List.cons_append]
      exact ih a _
    · simp only [renderBytesElems, if_neg h, List.cons_append,
        List.append_assoc]
      exact ih a _

theorem renderElems_cons_head (cfg : PrettyConfig) (d : Nat) (start : Char) :
    ∀ (l : List Value) (a : Char) (acc0 : List Char),
    ∃ t, renderElems cfg d start (a :: acc0) l = a :: t := by
  intro l
  induction l with
  | nil => intro a acc0; exact ⟨acc0, by simp [renderElems]⟩
  | cons v tl ih =>
    intro a acc0
    by_cases h : endsWithChar (a :: acc0) start = true
    · simp only [renderElems, h, if_true, List.cons_append]
      exact ih a _
    · simp only [renderElems, if_neg h, List.cons_append, List.append_assoc]
      exact ih a _

theorem renderMapEntries_cons_head (cfg : PrettyConfig) (d : Nat) :
    ∀ (l : List (String × Value)) (a : Char) (acc0 : List Char),
    ∃ t, renderMapEntries cfg d (a :: acc0) l = a :: t := by
  intro l
  induction l with
  | nil => intro a acc0; exact ⟨acc0, by simp [renderMapEntries]⟩
  | cons kv tl ih =>
    obtain ⟨k, v⟩ := kv
    intro a acc0
    by_cases h1 : (¬ endsWithChar (a :: acc0) '\x7b' = true
        ∨ cfg.delimiter = DelimiterType.Newline)
    · by_cases h2 : cfg.delimiter = DelimiterType.Newline
      · simp only [renderMapEntries, if_pos h1, if_pos h2, List.cons_append,
          List.append_assoc]
        exact ih a _
      · simp only [renderMapEntries, if_pos h1, if_neg h2, List.cons_append,
          List.append_assoc]
        exact ih a _
    · by_cases h2 : cfg.delimiter = DelimiterType.Newline
      · simp only [renderMapEntries, if_neg h1, if_pos h2, List.cons_append,
          List.append_assoc]
        exact ih a _
      · simp only [renderMapEntries, if_neg h1, if_neg h2, List.cons_append,
          List.append_assoc]
        exact ih a _

theorem renderSVFields_cons_head (cfg : PrettyConfig) (d : Nat) :
    ∀ (l : List (String × Value)) (a : Char) (acc0 : List Char),
    ∃ t, renderSVFields cfg d (a :: acc0) l = a :: t := by
  intro l
  induction l with
  | nil => intro a acc0; exact ⟨acc0, by simp [renderSVFields]⟩
  | cons kv tl ih =>
    obtain ⟨k, v⟩ := kv
    intro a acc0
    by_cases h1 : (¬ endsWithChar (a :: acc0) '\x7b' = true)
    · simp only [renderSVFields, if_pos h1, List.cons_append,
        List.append_assoc]
      exact ih a _
    · simp only [renderSVFields, if_neg h1, List.cons_append,
        List.append_assoc]
      exact ih a _

theorem render_head (cfg : PrettyConfig) (d : Nat) (v : Value) :
    ∃ c r, render cfg d v = c :: r ∧ De.isSepChar c = false ∧
      (c = ']' → False) ∧ (c = ')' → False) ∧ (c = '\x7d' → False) := by
  cases v with
  | bool b =>
    cases b
    · exact ⟨'f', "alse".data, rfl, by decide, by decide, by decide, by decide⟩
    · exact ⟨'t', "rue".data, rfl, by decide, by decide, by decide, by decide⟩
  | int i =>
    simp only [render, intChars]
    by_cases hi : i < 0
    · rw [if_pos hi]
      exact ⟨'-', natToChars i.natAbs, rfl, by decide, by decide, by decide,
        by decide⟩
    · rw [if_neg hi]
      obtain ⟨c, r, hcr, hd⟩ := natToChars_head i.natAbs
      obtain ⟨h1, h2, h3, h4, _⟩ := digit_flags c hd
      exact ⟨c, r, hcr, h1, h2, h3, h4⟩
  | uint n =>
    simp only [render]
    obtain ⟨c, r, hcr, hd⟩ := natToChars_head n
    obtain ⟨h1, h2, h3, h4, _⟩ := digit_flags c hd
    exact ⟨c, r, hcr, h1, h2, h3, h4⟩
  | char c0 =>
    exact ⟨'\x27', [c0, '\x27'], rfl, by decide, by decide, by decide,
      by decide⟩
  | str s =>
    exact ⟨'\x22', s.data ++ ['\x22'], rfl, by decide, by decide, by decide,
      by decide⟩
  | unit => exact ⟨'/', [], rfl, by decide, by decide, by decide, by decide⟩
  | bytes bs =>
    simp only [render]
    obtain ⟨t, ht⟩ := renderBytesElems_cons_head cfg bs '[' []
    rw [ht]
    exact ⟨'[', t ++ [']'], List.cons_append _ _ _, by decide, by decide,
      by decide, by decide⟩
  | seq l =>
    simp only [render]
    obtain ⟨t, ht⟩ := renderElems_cons_head cfg d '[' l '[' []
    rw [ht]
    exact ⟨'[', t ++ [']'], List.cons_append _ _ _, by decide, by decide,
      by decide, by decide⟩
  | tuple l =>
    simp only [render]
    obtain ⟨t, ht⟩ := renderElems_cons_head cfg d '(' l '(' []
    rw [ht]
    exact ⟨'(', t ++ [')'], List.cons_append _ _ _, by decide, by decide,
      by decide, by decide⟩
  | map es =>
    simp only [render]
    obtain ⟨t, ht⟩ := renderMapEntries_cons_head cfg (d + 1) es '\x7b' []
    rw [ht]
    exact ⟨'\x7b', t ++ mapEndChars cfg d es.isEmpty, List.cons_append _ _ _,
      by decide, by decide, by decide, by decide⟩
  | strct fs =>
    simp only [render, renderStructFields_eq_map]
    obtain ⟨t, ht⟩ := renderMapEntries_cons_head cfg (d + 1) fs '\x7b' []
    rw [ht]
    exact ⟨'\x7b', t ++ mapEndChars cfg d fs.isEmpty, List.cons_append _ _ _,
      by decide, by decide, by decide, by decide⟩
  | unitVariant t =>
    exact ⟨'$', t.data, rfl, by decide, by decide, by decide, by decide⟩
  | newtypeVariant t x =>
    exact ⟨'$', t.data ++ ['('] ++ render cfg d x ++ [')'], rfl, by decide,
      by decide, by decide, by decide⟩
  | tupleVariant t l =>
    exact ⟨'$', t.data ++ renderElems cfg d '(' ['('] l ++ [')'], rfl,
      by decide, by decide, by decide, by decide⟩
  | structVariant t fs =>
    exact ⟨'$', t.data ++ renderSVFields cfg d ['\x7b'] fs ++ ['\x7d'], rfl,
      by decide, by decide, by decide, by decide⟩

theorem renderBytesElems_tail (cfg : PrettyConfig) :
    ∀ (bs : List Nat) (acc : List Char),
    (∀ c, acc.getLast? = some c → isOpenChar c = false) →
    renderBytesElems cfg acc bs =
      acc ++ (bs.map
        (fun b => seqSepChar cfg.delimiter '[' :: natToChars b)).flatten := by
  intro bs
  induction bs with
  | nil => intro acc _; simp [renderBytesElems]
  | cons b tl ih =>
    intro acc hlast
    have hfalse : endsWithChar acc '[' = false := by
      unfold endsWithChar
      cases hl : acc.getLast? with
      | none => rfl
      | some a =>
        have ha := hlast a hl
        simp only [beq_eq_false_iff_ne, ne_eq, Option.some.injEq]
        rintro rfl
        exact absurd ha (by decide)
    simp only [renderBytesElems, hfalse, Bool.false_eq_true, if_false]
    rw [ih (acc ++ [seqSepChar cfg.delimiter '['] ++ natToChars b) ?_]
    · simp [List.append_assoc]
    · intro c hc
      rw [List.append_assoc, List.getLast?_append] at hc
      cases hr : (natToChars b).getLast? with
      | none =>
        exact absurd (List.getLast?_eq_none_iff.mp hr) (natToChars_ne_nil b)
      | some a =>
        rw [getLast?_append_right _ _ _ hr] at hc
        simp only [Option.or] at hc
        injection hc with hac
        subst hac
        exact natToChars_getLast_not_open b _ hr

theorem renderBytesElems_clean (cfg : PrettyConfig) (bs : List Nat) :
    renderBytesElems cfg ['['] bs =
      '[' :: sepJoin (seqSepChar cfg.delimiter '[') (bs.map natToChars) := by
  cases bs with
  | nil => simp [renderBytesElems, sepJoin]
  | cons b tl =>
    have htrue : endsWithChar ['['] '[' = true := by
      simp [endsWithChar]
    simp only [renderBytesElems, htrue, if_true]
    rw [renderBytesElems_tail cfg tl (['['] ++ natToChars b) ?_]
    · simp only [sepJoin, List.map_cons, List.map_map, List.cons_append,
        List.append_assoc]
      rfl
    · intro c hc
      rw [List.getLast?_append] at hc
      cases hr : (natToChars b).getLast? with
      | none =>
        exact absurd (List.getLast?_eq_none_iff.mp hr) (natToChars_ne_nil b)
      | some a =>
        rw [hr] at hc
        simp only [Option.or] at hc
        injection hc with hac
        subst hac
        exact natToChars_getLast_not_open b _ hr

theorem fuelV_pos (v : Value) : 1 ≤ fuelV v := by
  cases v <;> simp only [fuelV] <;> omega

theorem fuelL_pos (l : List Value) : 1 ≤ fuelL l := by
  cases l with
  | nil => exact Nat.le_refl 1
  | cons v tl => simp only [fuelL]; omega

theorem fuelE_pos (l : List (String × Value)) : 1 ≤ fuelE l := by
  cases l with
  | nil => exact Nat.le_refl 1
  | cons kv tl => obtain ⟨k, v⟩ := kv; simp only [fuelE]; omega

theorem skipSep_digits (n : Nat) (z : List Char) :
    De.skipSep (natToChars n ++ z) = natToChars n ++ z := by
  obtain ⟨c, r, hcr, hd⟩ := natToChars_head n
  rw [hcr, List.cons_append]
  exact skipSep_cons_not c _ (digit_flags c hd).1

theorem natToChars_append_head_ne (n : Nat) (z : List Char) (x : Char)
    (hx : De.isDigitChar x = false) :
    ¬ (natToChars n ++ z).head? = some x := by
  obtain ⟨c, r, hcr, hd⟩ := natToChars_head n
  rw [hcr]
  simp only [List.cons_append, List.head?_cons, Option.some.injEq]
  rintro rfl
  rw [hd] at hx
  exact Bool.true_eq_false.mp hx

theorem skipSep_render (cfg : PrettyConfig) (d : Nat) (v : Value)
    (z : List Char) :
    De.skipSep (render cfg d v ++ z) = render cfg d v ++ z := by
  obtain ⟨c, r, hcr, hs, _, _, _⟩ := render_head cfg d v
  rw [hcr, List.cons_append]
  exact skipSep_cons_not c _ hs

theorem skipWS_render (cfg : PrettyConfig) (d : Nat) (v : Value)
    (z : List Char) :
    De.skipWS (render cfg d v ++ z) = render cfg d v ++ z := by
  obtain ⟨c, r, hcr, hs, _, _, _⟩ := render_head cfg d v
  rw [hcr, List.cons_append]
  exact skipWS_cons_not c _ hs

theorem render_append_head_ne (cfg : PrettyConfig) (d : Nat) (v : Value)
    (z : List Char) (x : Char) (hx : x = ']' ∨ x = ')' ∨ x = '\x7d') :
    ¬ (render cfg d v ++ z).head? = some x := by
  obtain ⟨c, r, hcr, _, h1, h2, h3⟩ := render_head cfg d v
  rw [hcr]
  simp only [List.cons_append, List.head?_cons, Option.some.injEq]
  rintro rfl
  rcases hx with h | h | h
  · exact h1 h
  · exact h2 h
  · exact h3 h

theorem pair_head (k : String) (hk : goodKey k = true) (m : List Char) :
    ∃ c r, k.data ++ '-' :: '>' :: m = c :: r ∧ De.isSepChar c = false ∧
      (c = '\x7d' → False) := by
  cases hd : k.data with
  | nil => exact ⟨'-', '>' :: m, rfl, by decide, by decide⟩
  | cons c tlk =>
    have hc : isKeyChar c = true := by
      simp only [goodKey, List.all_eq_true] at hk
      exact hk c (by rw [hd]; simp)
    obtain ⟨h1, h2, _⟩ := key_not_sep c hc
    exact ⟨c, tlk ++ '-' :: '>' :: m, rfl, h1, fun he => h2 he⟩

/-! ## Parse loops recover rendered container bodies -/

theorem parseBytesTail_lemma (cfg : PrettyConfig) :
    ∀ (bs : List Nat) (f : Nat) (rest pre : List Char),
    (∀ b ∈ bs, b < 256) → 1 + bs.length ≤ f → allSep pre →
    De.parseBytesTail f
      (pre ++ sepJoin (seqSepChar cfg.delimiter '[') (bs.map natToChars)
        ++ (']' :: rest)) = some (bs, rest) := by
  intro bs
  induction bs with
  | nil =>
    intro f rest pre _ hf hpre
    obtain ⟨f', rfl⟩ : ∃ f', f = f' + 1 := ⟨f - 1, by omega⟩
    rw [show sepJoin (seqSepChar cfg.delimiter '[')
      (([] : List Nat).map natToChars) = [] from rfl]
    rw [List.append_nil]
    simp only [De.parseBytesTail]
    rw [skipSep_append_sep pre hpre, skipSep_cons_not ']' rest (by decide)]
    simp
  | cons b tl ih =>
    intro f rest pre hlt hf hpre
    obtain ⟨f', rfl⟩ : ∃ f', f = f' + 1 := ⟨f - 1, by omega⟩
    rw [show sepJoin (seqSepChar cfg.delimiter '[') ((b :: tl).map natToChars)
      = natToChars b ++ ((tl.map natToChars).map
          (fun y => seqSepChar cfg.delimiter '[' :: y)).flatten from rfl]
    rw [List.append_assoc pre, List.append_assoc (natToChars b)]
    simp only [De.parseBytesTail]
    rw [skipSep_append_sep pre hpre, skipSep_digits b _]
    rw [if_neg (natToChars_append_head_ne b _ ']' (by decide))]
    rw [parseNatTok_render b _ ?hb]
    case hb =>
      cases tl with
      | nil => exact Or.inr ⟨']', rest, rfl, by decide⟩
      | cons n2 tl2 =>
        refine Or.inr ⟨seqSepChar cfg.delimiter '[', _, rfl,
          (boundary_cons_flags _ (Or.inl (seqSepChar_isSep _ _))).1⟩
    simp only []
    rw [if_pos (hlt b (by simp))]
    have hrec : De.parseBytesTail f'
        (((tl.map natToChars).map
          (fun y => seqSepChar cfg.delimiter '[' :: y)).flatten
          ++ (']' :: rest)) = some (tl, rest) := by
      cases tl with
      | nil =>
        have h0 := ih f' rest []
          (fun x hx => absurd hx (List.not_mem_nil x))
          (by simp only [List.length_cons] at hf; simp; omega)
          (fun c hc => absurd hc (List.not_mem_nil c))
        simpa [sepJoin] using h0
      | cons n2 tl2 =>
        have h0 := ih f' rest [seqSepChar cfg.delimiter '[']
          (fun x hx => hlt x (by simp [hx]))
          (by simp only [List.length_cons] at hf ⊢; omega)
          (by intro c hc
              simp only [List.mem_singleton] at hc
              subst hc
              exact seqSepChar_isSep _ _)
        simpa [sepJoin, flatten_sep_cons, List.append_assoc] using h0
    rw [hrec]

theorem parseSeqTail_lemma (Sh : Shape) (cfg : PrettyConfig) (d : Nat) :
    ∀ (l : List Value) (f : Nat) (rest pre : List Char),
    (∀ w ∈ l, PRT w) → goodL l = true → hasShapeL l Sh = true →
    fuelL l ≤ f → allSep pre → De.boundaryOK rest →
    De.parseSeqTail Sh f
      (pre ++ sepJoin (seqSepChar cfg.delimiter '[') (l.map (render cfg d))
        ++ (']' :: rest)) = some (l, rest) := by
  intro l
  induction l with
  | nil =>
    intro f rest pre _ _ _ hf hpre _
    obtain ⟨f', rfl⟩ : ∃ f', f = f' + 1 :=
      ⟨f - 1, by have h1 := le_trans (fuelL_pos _) hf; omega⟩
    rw [show sepJoin (seqSepChar cfg.delimiter '[')
      (([] : List Value).map (render cfg d)) = [] from rfl]
    rw [List.append_nil]
    simp only [De.parseSeqTail]
    rw [skipSep_append_sep pre hpre, skipSep_cons_not ']' rest (by decide)]
    simp
  | cons v tl ih =>
    intro f rest pre hP hg hsh hf hpre hrest
    obtain ⟨f', rfl⟩ : ∃ f', f = f' + 1 :=
      ⟨f - 1, by have h1 := le_trans (fuelL_pos _) hf; omega⟩
    simp only [goodL, Bool.and_eq_true] at hg
    simp only [hasShapeL, Bool.and_eq_true] at hsh
    simp only [fuelL] at hf
    rw [show sepJoin (seqSepChar cfg.delimiter '[')
      ((v :: tl).map (render cfg d))
      = render cfg d v ++ ((tl.map (render cfg d)).map
          (fun y => seqSepChar cfg.delimiter '[' :: y)).flatten from rfl]
    rw [List.append_assoc pre, List.append_assoc (render cfg d v)]
    simp only [De.parseSeqTail]
    rw [skipSep_append_sep pre hpre, skipSep_render cfg d v _]
    rw [if_neg (render_append_head_ne cfg d v _ ']' (Or.inl rfl))]
    have hbnd : De.boundaryOK
        (((tl.map (render cfg d)).map
          (fun y => seqSepChar cfg.delimiter '[' :: y)).flatten
          ++ (']' :: rest)) := by
      cases tl with
      | nil => exact boundaryOK_cons ']' rest (Or.inr (Or.inl rfl))
      | cons w tl2 =>
        exact boundaryOK_cons (seqSepChar cfg.delimiter '[') _
          (Or.inl (seqSepChar_isSep _ _))
    rw [hP v (by simp) Sh cfg d f' _ hg.1 hsh.1 (by omega) hbnd]
    simp only []
    have hrec : De.parseSeqTail Sh f'
        (((tl.map (render cfg d)).map
          (fun y => seqSepChar cfg.delimiter '[' :: y)).flatten
          ++ (']' :: rest)) = some (tl, rest) := by
      cases tl with
      | nil =>
        have h0 := ih f' rest []
          (fun w hw => absurd hw (List.not_mem_nil w)) rfl rfl
          (by show 1 ≤ f'
              have := fuelV_pos v
              omega)
          (fun c hc => absurd hc (List.not_mem_nil c)) hrest
        simpa [sepJoin] using h0
      | cons w tl2 =>
        have h0 := ih f' rest [seqSepChar cfg.delimiter '[']
          (fun x hx => hP x (by simp [hx])) hg.2 hsh.2 (by omega)
          (by intro c hc
              simp only [List.mem_singleton] at hc
              subst hc
              exact seqSepChar_isSep _ _) hrest
        simpa [sepJoin, List.append_assoc] using h0
    rw [hrec]

theorem parseTupleTail_lemma (cfg : PrettyConfig) (d : Nat) :
    ∀ (l : List Value) (Ss : List Shape) (f : Nat) (rest pre : List Char),
    (∀ w ∈ l, PRT w) → goodL l = true → hasShapeT l Ss = true →
    fuelL l ≤ f → allSep pre → De.boundaryOK rest →
    De.parseTupleTail Ss f
      (pre ++ sepJoin (seqSepChar cfg.delimiter '(') (l.map (render cfg d))
        ++ (')' :: rest)) = some (l, rest) := by
  intro l
  induction l with
  | nil =>
    intro Ss f rest pre _ _ hsh hf hpre _
    cases Ss with
    | cons S Ss' => simp [hasShapeT] at hsh
    | nil =>
      obtain ⟨f', rfl⟩ : ∃ f', f = f' + 1 :=
        ⟨f - 1, by have h1 := le_trans (fuelL_pos _) hf; omega⟩
      rw [show sepJoin (seqSepChar cfg.delimiter '(')
        (([] : List Value).map (render cfg d)) = [] from rfl]
      rw [List.append_nil]
      simp only [De.parseTupleTail]
      rw [skipSep_append_sep pre hpre, skipSep_cons_not ')' rest (by decide)]
      simp
  | cons v tl ih =>
    intro Ss f rest pre hP hg hsh hf hpre hrest
    cases Ss with
    | nil => simp [hasShapeT] at hsh
    | cons S Ss' =>
      obtain ⟨f', rfl⟩ : ∃ f', f = f' + 1 :=
        ⟨f - 1, by have h1 := le_trans (fuelL_pos _) hf; omega⟩
      simp only [goodL, Bool.and_eq_true] at hg
      simp only [hasShapeT, Bool.and_eq_true] at hsh
      simp only [fuelL] at hf
      rw [show sepJoin (seqSepChar cfg.delimiter '(')
        ((v :: tl).map (render cfg d))
        = render cfg d v ++ ((tl.map (render cfg d)).map
            (fun y => seqSepChar cfg.delimiter '(' :: y)).flatten from rfl]
      rw [List.append_assoc pre, List.append_assoc (render cfg d v)]
      simp only [De.parseTupleTail]
      rw [skipSep_append_sep pre hpre, skipSep_render cfg d v _]
      have hbnd : De.boundaryOK
          (((tl.map (render cfg d)).map
            (fun y => seqSepChar cfg.delimiter '(' :: y)).flatten
            ++ (')' :: rest)) := by
        cases tl with
        | nil => exact boundaryOK_cons ')' rest (Or.inr (Or.inr (Or.inl rfl)))
        | cons w tl2 =>
          exact boundaryOK_cons (seqSepChar cfg.delimiter '(') _
            (Or.inl (seqSepChar_isSep _ _))
      rw [hP v (by simp) S cfg d f' _ hg.1 hsh.1 (by omega) hbnd]
      simp only []
      have hrec : De.parseTupleTail Ss' f'
          (((tl.map (render cfg d)).map
            (fun y => seqSepChar cfg.delimiter '(' :: y)).flatten
            ++ (')' :: rest)) = some (tl, rest) := by
        cases tl with
        | nil =>
          have hsh2 : Ss' = [] := by
            cases Ss' with
            | nil => rfl
            | cons S2 Ss2 => simp [hasShapeT] at hsh
          subst hsh2
          have h0 := ih [] f' rest []
            (fun w hw => absurd hw (List.not_mem_nil w)) rfl rfl
            (by show 1 ≤ f'
                have := fuelV_pos v
                omega)
            (fun c hc => absurd hc (List.not_mem_nil c)) hrest
          simpa [sepJoin] using h0
        | cons w tl2 =>
          have h0 := ih Ss' f' rest [seqSepChar cfg.delimiter '(']
            (fun x hx => hP x (by simp [hx])) hg.2 hsh.2 (by omega)
            (by intro c hc
                simp only [List.mem_singleton] at hc
                subst hc
                exact seqSepChar_isSep _ _) hrest
          simpa [sepJoin, List.append_assoc] using h0
      rw [hrec]

theorem parseMapTail_lemma (Sv : Shape) (cfg : PrettyConfig) (d : Nat) :
    ∀ (l : List (String × Value)) (f : Nat) (rest pre sepj endJ : List Char),
    (∀ kv ∈ l, PRT kv.2) → goodE l = true → hasShapeM l Sv = true →
    fuelE l ≤ f → allSep pre → allSep sepj → sepj ≠ [] → allSep endJ →
    De.boundaryOK rest →
    De.parseMapTail Sv f
      (pre ++ sepJoinL sepj (l.map (pairItem cfg d)) ++ endJ
        ++ ('\x7d' :: rest)) = some (l, rest) := by
  intro l
  induction l with
  | nil =>
    intro f rest pre sepj endJ _ _ _ hf hpre _ _ hend _
    obtain ⟨f', rfl⟩ : ∃ f', f = f' + 1 :=
      ⟨f - 1, by have h1 := le_trans (fuelE_pos _) hf; omega⟩
    rw [show sepJoinL sepj (([] : List (String × Value)).map (pairItem cfg d))
      = [] from rfl]
    rw [List.append_nil, List.append_assoc pre]
    simp only [De.parseMapTail]
    rw [skipSep_append_sep pre hpre, skipSep_append_sep endJ hend,
      skipSep_cons_not '\x7d' rest (by decide)]
    simp
  | cons kv tl ih =>
    obtain ⟨k, v⟩ := kv
    intro f rest pre sepj endJ hP hg hsh hf hpre hsepj hne hend hrest
    obtain ⟨f', rfl⟩ : ∃ f', f = f' + 1 :=
      ⟨f - 1, by have h1 := le_trans (fuelE_pos _) hf; omega⟩
    simp only [goodE, Bool.and_eq_true] at hg
    simp only [hasShapeM, Bool.and_eq_true] at hsh
    simp only [fuelE] at hf
    have hPv : PRT v := hP (k, v) (by simp)
    have hkc : ∀ c ∈ k.data, isKeyChar c = true := by
      have h1 := hg.1.1
      simp only [goodKey, List.all_eq_true] at h1
      exact h1
    rw [show sepJoinL sepj (((k, v) :: tl).map (pairItem cfg d))
      = (k.data ++ '-' :: '>' :: render cfg d v)
        ++ ((tl.map (pairItem cfg d)).map (fun y => sepj ++ y)).flatten
        from rfl]
    simp only [List.append_assoc, List.cons_append]
    obtain ⟨c0, r0, hc0, hs0, hb0⟩ := pair_head k hg.1.1
      (render cfg d v
        ++ (((tl.map (pairItem cfg d)).map (fun y => sepj ++ y)).flatten
          ++ (endJ ++ '\x7d' :: rest)))
    simp only [De.parseMapTail]
    rw [skipSep_append_sep pre hpre]
    rw [hc0, skipSep_cons_not c0 r0 hs0]
    rw [if_neg (show ¬ (c0 :: r0).head? = some '\x7d' by
      simp only [List.head?_cons, Option.some.injEq]
      exact fun he => hb0 he)]
    rw [← hc0]
    rw [scanKey_exact k.data hkc _]
    simp only []
    have hbnd : De.boundaryOK
        (((tl.map (pairItem cfg d)).map (fun y => sepj ++ y)).flatten
          ++ (endJ ++ '\x7d' :: rest)) := by
      cases tl with
      | nil =>
        cases endJ with
        | nil => exact boundaryOK_cons '\x7d' rest (Or.inr (Or.inr (Or.inr rfl)))
        | cons e etl => exact boundaryOK_cons e _ (Or.inl (hend e (by simp)))
      | cons kv2 tl2 =>
        cases hsj : sepj with
        | nil => exact absurd hsj hne
        | cons s0 sj =>
          refine boundaryOK_cons s0 _ (Or.inl (hsepj s0 (by rw [hsj]; simp)))
    rw [hPv Sv cfg d f' _ hg.1.2 hsh.1 (by omega) hbnd]
    simp only []
    have hrec : De.parseMapTail Sv f'
        (((tl.map (pairItem cfg d)).map (fun y => sepj ++ y)).flatten
          ++ (endJ ++ '\x7d' :: rest)) = some (tl, rest) := by
      cases tl with
      | nil =>
        have h0 := ih f' rest [] sepj endJ
          (fun w hw => absurd hw (List.not_mem_nil w)) rfl rfl
          (by show 1 ≤ f'
              have := fuelV_pos v
              omega)
          (fun c hc => absurd hc (List.not_mem_nil c)) hsepj hne hend hrest
        simpa [sepJoinL, List.append_assoc] using h0
      | cons kv2 tl2 =>
        have h0 := ih f' rest sepj sepj endJ
          (fun x hx => hP x (by simp [hx])) hg.2 hsh.2 (by omega)
          hsepj hsepj hne hend hrest
        simpa [sepJoinL, List.append_assoc] using h0
    rw [hrec]

theorem parseFieldsTail_lemma (cfg : PrettyConfig) (d : Nat) :
    ∀ (l : List (String × Value)) (Fs : List (String × Shape)) (f : Nat)
      (rest pre sepj endJ : List Char),
    (∀ kv ∈ l, PRT kv.2) → goodE l = true → hasShapeF l Fs = true →
    fuelE l ≤ f → allSep pre → allSep sepj → sepj ≠ [] → allSep endJ →
    De.boundaryOK rest →
    De.parseFieldsTail Fs f
      (pre ++ sepJoinL sepj (l.map (pairItem cfg d)) ++ endJ
        ++ ('\x7d' :: rest)) = some (l, rest) := by
  intro l
  induction l with
  | nil =>
    intro Fs f rest pre sepj endJ _ _ hsh hf hpre _ _ hend _
    cases Fs with
    | cons nS Fs' => simp [hasShapeF] at hsh
    | nil =>
      obtain ⟨f', rfl⟩ : ∃ f', f = f' + 1 :=
        ⟨f - 1, by have h1 := le_trans (fuelE_pos _) hf; omega⟩
      rw [show sepJoinL sepj
        (([] : List (String × Value)).map (pairItem cfg d)) = [] from rfl]
      rw [List.append_nil, List.append_assoc pre]
      simp only [De.parseFieldsTail]
      rw [skipSep_append_sep pre hpre, skipSep_append_sep endJ hend,
        skipSep_cons_not '\x7d' rest (by decide)]
      simp
  | cons kv tl ih =>
    obtain ⟨k, v⟩ := kv
    intro Fs f rest pre sepj endJ hP hg hsh hf hpre hsepj hne hend hrest
    cases Fs with
    | nil => simp [hasShapeF] at hsh
    | cons nS Fs' =>
      obtain ⟨name, S⟩ := nS
      obtain ⟨f', rfl⟩ : ∃ f', f = f' + 1 :=
        ⟨f - 1, by have h1 := le_trans (fuelE_pos _) hf; omega⟩
      simp only [goodE, Bool.and_eq_true] at hg
      simp only [hasShapeF, Bool.and_eq_true] at hsh
      simp only [fuelE] at hf
      have hPv : PRT v := hP (k, v) (by simp)
      have hkc : ∀ c ∈ k.data, isKeyChar c = true := by
        have h1 := hg.1.1
        simp only [goodKey, List.all_eq_true] at h1
        exact h1
      have hkn : k = name := eq_of_beq hsh.1.1
      rw [show sepJoinL sepj (((k, v) :: tl).map (pairItem cfg d))
        = (k.data ++ '-' :: '>' :: render cfg d v)
          ++ ((tl.map (pairItem cfg d)).map (fun y => sepj ++ y)).flatten
          from rfl]
      simp only [List.append_assoc, List.cons_append]
      obtain ⟨c0, r0, hc0, hs0, hb0⟩ := pair_head k hg.1.1
        (render cfg d v
          ++ (((tl.map (pairItem cfg d)).map (fun y => sepj ++ y)).flatten
            ++ (endJ ++ '\x7d' :: rest)))
      simp only [De.parseFieldsTail]
      rw [show De.skipSep (pre
        ++ (k.data ++ '-' :: '>' :: (render cfg d v
          ++ (((tl.map (pairItem cfg d)).map
              (fun y => sepj ++ y)).flatten
            ++ (endJ ++ '\x7d' :: rest)))))
        = k.data ++ '-' :: '>' :: (render cfg d v
          ++ (((tl.map (pairItem cfg d)).map
              (fun y => sepj ++ y)).flatten
            ++ (endJ ++ '\x7d' :: rest))) from by
        rw [skipSep_append_sep pre hpre, hc0]
        exact skipSep_cons_not c0 r0 hs0]
      rw [scanKey_exact k.data hkc _]
      simp only []
      rw [if_pos (show String.mk k.data = name from
        (rfl : String.mk k.data = k).trans hkn)]
      have hbnd : De.boundaryOK
          (((tl.map (pairItem cfg d)).map (fun y => sepj ++ y)).flatten
            ++ (endJ ++ '\x7d' :: rest)) := by
        cases tl with
        | nil =>
          cases endJ with
          | nil =>
            exact boundaryOK_cons '\x7d' rest (Or.inr (Or.inr (Or.inr rfl)))
          | cons e etl => exact boundaryOK_cons e _ (Or.inl (hend e (by simp)))
        | cons kv2 tl2 =>
          cases hsj : sepj with
          | nil => exact absurd hsj hne
          | cons s0 sj =>
            refine boundaryOK_cons s0 _ (Or.inl (hsepj s0 (by rw [hsj]; simp)))
      rw [hPv S cfg d f' _ hg.1.2 hsh.1.2 (by omega) hbnd]
      simp only []
      have hrec : De.parseFieldsTail Fs' f'
          (((tl.map (pairItem cfg d)).map (fun y => sepj ++ y)).flatten
            ++ (endJ ++ '\x7d' :: rest)) = some (tl, rest) := by
        cases tl with
        | nil =>
          have hFs : Fs' = [] := by
            cases Fs' with
            | nil => rfl
            | cons nS2 Fs2 => simp [hasShapeF] at hsh
          subst hFs
          have h0 := ih [] f' rest [] sepj endJ
            (fun w hw => absurd hw (List.not_mem_nil w)) rfl rfl
            (by show 1 ≤ f'
                have := fuelV_pos v
                omega)
            (fun c hc => absurd hc (List.not_mem_nil c)) hsepj hne hend hrest
          simpa [sepJoinL, List.append_assoc] using h0
        | cons kv2 tl2 =>
          have h0 := ih Fs' f' rest sepj sepj endJ
            (fun x hx => hP x (by simp [hx])) hg.2 hsh.2 (by omega)
            hsepj hsepj hne hend hrest
          simpa [sepJoinL, List.append_assoc] using h0
      rw [hrec]

theorem mapEndChars_true (cfg : PrettyConfig) (d : Nat) :
    mapEndChars cfg d true = ['\x7d'] := by
  unfold mapEndChars
  rw [if_pos (Or.inl rfl)]

theorem mapEndChars_false_colon (cfg : PrettyConfig) (d : Nat)
    (hN : cfg.delimiter ≠ DelimiterType.Newline) :
    mapEndChars cfg d false = ['\x7d'] := by
  unfold mapEndChars
  rw [if_pos (Or.inr hN)]

theorem mapEndChars_false_newline (cfg : PrettyConfig) (d : Nat)
    (hN : cfg.delimiter = DelimiterType.Newline) :
    mapEndChars cfg d false = '\n' :: indentChars cfg d ++ ['\x7d'] := by
  unfold mapEndChars
  rw [if_neg]
  rintro (h | h)
  · exact absurd h (by decide)
  · exact h hN

theorem boundary_digit (rest : List Char) (h : De.boundaryOK rest) :
    rest = [] ∨ ∃ c r, rest = c :: r ∧ De.isDigitChar c = false := by
  cases rest with
  | nil => exact Or.inl rfl
  | cons c r =>
    exact Or.inr ⟨c, r, rfl, (boundary_cons_flags c (boundaryOK_elim c r h)).1⟩

theorem skipWS_intChars (i : Int) (z : List Char) :
    De.skipWS (intChars i ++ z) = intChars i ++ z := by
  unfold intChars
  split
  · rw [List.cons_append]
    exact skipWS_cons_not '-' _ (by decide)
  · obtain ⟨c, r, hcr, hd⟩ := natToChars_head i.natAbs
    rw [hcr, List.cons_append]
    exact skipWS_cons_not c _ (digit_flags c hd).1

theorem skipWS_natChars (n : Nat) (z : List Char) :
    De.skipWS (natToChars n ++ z) = natToChars n ++ z := by
  obtain ⟨c, r, hcr, hd⟩ := natToChars_head n
  rw [hcr, List.cons_append]
  exact skipWS_cons_not c _ (digit_flags c hd).1

theorem flatten_junk_pair (j : List Char) (item : (String × Value) → List Char)
    (x : String × Value) (tl : List (String × Value)) :
    ((x :: tl).map (fun y => j ++ item y)).flatten
      = j ++ sepJoinL j ((x :: tl).map item) := by
  simp only [sepJoinL, List.map_cons, List.map_map, List.flatten_cons,
    List.append_assoc, Function.comp_def]

theorem parse_render (v : Value) : PRT v := by
  have main : ∀ (N : Nat) (w : Value), sizeOf w ≤ N → PRT w := by
    intro N
    induction N with
    | zero =>
      intro w hw
      exfalso
      cases w <;> simp_arith at hw
    | succ N ihN =>
      intro w hw
      have IHlt : ∀ x : Value, sizeOf x < sizeOf w → PRT x := by
        intro x hx
        exact ihN x (by omega)
      cases w with
      | bool b =>
        intro S cfg d f rest hg hsh hf hrest
        cases S <;> simp only [hasShape] at hsh <;>
          try exact absurd hsh (by decide)
        obtain ⟨f', rfl⟩ : ∃ f', f = f' + 1 :=
          ⟨f - 1, by have h1 := le_trans (fuelV_pos _) hf; omega⟩
        cases b with
        | true =>
          rw [show render cfg d (Value.bool true)
            = 't' :: 'r' :: 'u' :: 'e' :: [] from rfl]
          simp only [List.cons_append, List.nil_append]
          simp only [De.parseValue]
          rw [skipWS_cons_not 't' _ (by decide)]
          rw [if_pos (show ('t' :: 'r' :: 'u' :: 'e' :: rest).take 4
            = "true".data from rfl)]
          rfl
        | false =>
          rw [show render cfg d (Value.bool false)
            = 'f' :: 'a' :: 'l' :: 's' :: 'e' :: [] from rfl]
          simp only [List.cons_append, List.nil_append]
          simp only [De.parseValue]
          rw [skipWS_cons_not 'f' _ (by decide)]
          rw [show ('f' :: 'a' :: 'l' :: 's' :: 'e' :: rest).take 4
            = ['f', 'a', 'l', 's'] from rfl]
          rw [if_neg (show ¬ (['f', 'a', 'l', 's'] : List Char)
            = "true".data by decide)]
          rw [if_pos (show ('f' :: 'a' :: 'l' :: 's' :: 'e' :: rest).take 5
            = "false".data from rfl)]
          rfl
      | int i =>
        intro S cfg d f rest hg hsh hf hrest
        cases S <;> simp only [hasShape] at hsh <;>
          try exact absurd hsh (by decide)
        obtain ⟨f', rfl⟩ : ∃ f', f = f' + 1 :=
          ⟨f - 1, by have h1 := le_trans (fuelV_pos _) hf; omega⟩
        simp only [goodV, Bool.and_eq_true, decide_eq_true_eq] at hg
        rw [show render cfg d (Value.int i) = intChars i from rfl]
        simp only [De.parseValue]
        rw [skipWS_intChars]
        by_cases hi : i < 0
        · rw [parseIntTok_render_neg i hi rest (boundary_digit rest hrest)]
          simp only []
          rw [if_pos hg]
        · rw [parseIntTok_render_nonneg i (by omega) rest
            (boundary_digit rest hrest)]
          simp only []
          rw [if_pos hg]
      | uint n =>
        intro S cfg d f rest hg hsh hf hrest
        cases S <;> simp only [hasShape] at hsh <;>
          try exact absurd hsh (by decide)
        obtain ⟨f', rfl⟩ : ∃ f', f = f' + 1 :=
          ⟨f - 1, by have h1 := le_trans (fuelV_pos _) hf; omega⟩
        simp only [goodV, decide_eq_true_eq] at hg
        rw [show render cfg d (Value.uint n) = natToChars n from rfl]
        simp only [De.parseValue]
        rw [skipWS_natChars]
        rw [parseNatTok_render n rest (boundary_digit rest hrest)]
        simp only []
        rw [if_pos hg]
      | char c0 =>
        intro S cfg d f rest hg hsh hf hrest
        cases S <;> simp only [hasShape] at hsh <;>
          try exact absurd hsh (by decide)
        obtain ⟨f', rfl⟩ : ∃ f', f = f' + 1 :=
          ⟨f - 1, by have h1 := le_trans (fuelV_pos _) hf; omega⟩
        rw [show render cfg d (Value.char c0)
          = '\x27' :: c0 :: '\x27' :: [] from rfl]
        simp only [List.cons_append, List.nil_append]
        simp only [De.parseValue]
        rw [skipWS_cons_not '\x27' _ (by decide)]
        simp only []
      | str s =>
        intro S cfg d f rest hg hsh hf hrest
        cases S <;> simp only [hasShape] at hsh <;>
          try exact absurd hsh (by decide)
        obtain ⟨f', rfl⟩ : ∃ f', f = f' + 1 :=
          ⟨f - 1, by have h1 := le_trans (fuelV_pos _) hf; omega⟩
        simp only [goodV, List.all_eq_true] at hg
        rw [show render cfg d (Value.str s)
          = '\x22' :: (s.data ++ ['\x22']) from rfl]
        simp only [List.cons_append, List.append_assoc,
          List.singleton_append, List.nil_append]
        simp only [De.parseValue]
        rw [skipWS_cons_not '\x22' _ (by decide)]
        simp only []
        rw [dropWhile_append_stop _ s.data hg '\x22' (by decide) rest]
        simp only []
        rw [takeWhile_append_stop _ s.data hg '\x22' (by decide) rest]
      | unit =>
        intro S cfg d f rest hg hsh hf hrest
        cases S <;> simp only [hasShape] at hsh <;>
          try exact absurd hsh (by decide)
        obtain ⟨f', rfl⟩ : ∃ f', f = f' + 1 :=
          ⟨f - 1, by have h1 := le_trans (fuelV_pos _) hf; omega⟩
        rw [show render cfg d Value.unit = '/' :: [] from rfl]
        simp only [List.cons_append, List.nil_append]
        simp only [De.parseValue]
        rw [skipWS_cons_not '/' _ (by decide)]
        simp only []
      | bytes bs =>
        intro S cfg d f rest hg hsh hf hrest
        cases S <;> simp only [hasShape] at hsh <;>
          try exact absurd hsh (by decide)
        obtain ⟨f', rfl⟩ : ∃ f', f = f' + 1 :=
          ⟨f - 1, by have h1 := le_trans (fuelV_pos _) hf; omega⟩
        simp only [fuelV] at hf
        simp only [goodV, List.all_eq_true, decide_eq_true_eq] at hg
        rw [show render cfg d (Value.bytes bs)
          = renderBytesElems cfg ['['] bs ++ [']'] from rfl]
        rw [renderBytesElems_clean]
        simp only [List.cons_append, List.append_assoc,
          List.singleton_append, List.nil_append]
        simp only [De.parseValue]
        rw [skipWS_cons_not '[' _ (by decide)]
        simp only []
        have h0 := parseBytesTail_lemma cfg bs f' rest [] hg (by omega)
          (fun c hc => absurd hc (List.not_mem_nil c))
        simp only [List.nil_append] at h0
        rw [h0]
      | seq l =>
        have IH : ∀ x ∈ l, PRT x := by
          intro x hx
          refine IHlt x ?_
          have h1 := List.sizeOf_lt_of_mem hx
          simp only [Value.seq.sizeOf_spec]
          omega
        intro S cfg d f rest hg hsh hf hrest
        cases S <;> simp only [hasShape] at hsh <;>
          try exact absurd hsh (by decide)
        obtain ⟨f', rfl⟩ : ∃ f', f = f' + 1 :=
          ⟨f - 1, by have h1 := le_trans (fuelV_pos _) hf; omega⟩
        simp only [fuelV] at hf
        simp only [goodV] at hg
        have htags : goodTagsL l = true :=
          goodTagsL_of_list l (fun x hx hgx => goodV_tags x hgx) hg
        rw [show render cfg d (Value.seq l)
          = renderElems cfg d '[' ['['] l ++ [']'] from rfl]
        rw [renderElems_clean cfg d '[' (by decide) l htags]
        simp only [List.cons_append, List.append_assoc,
          List.singleton_append, List.nil_append]
        simp only [De.parseValue]
        rw [skipWS_cons_not '[' _ (by decide)]
        simp only []
        have h0 := parseSeqTail_lemma _ cfg d l f' rest [] IH hg hsh (by omega)
          (fun c hc => absurd hc (List.not_mem_nil c)) hrest
        simp only [List.nil_append] at h0
        rw [h0]
      | tuple l =>
        have IH : ∀ x ∈ l, PRT x := by
          intro x hx
          refine IHlt x ?_
          have h1 := List.sizeOf_lt_of_mem hx
          simp only [Value.tuple.sizeOf_spec]
          omega
        intro S cfg d f rest hg hsh hf hrest
        cases S <;> simp only [hasShape] at hsh <;>
          try exact absurd hsh (by decide)
        obtain ⟨f', rfl⟩ : ∃ f', f = f' + 1 :=
          ⟨f - 1, by have h1 := le_trans (fuelV_pos _) hf; omega⟩
        simp only [fuelV] at hf
        simp only [goodV] at hg
        have htags : goodTagsL l = true :=
          goodTagsL_of_list l (fun x hx hgx => goodV_tags x hgx) hg
        rw [show render cfg d (Value.tuple l)
          = renderElems cfg d '(' ['('] l ++ [')'] from rfl]
        rw [renderElems_clean cfg d '(' (by decide) l htags]
        simp only [List.cons_append, List.append_assoc,
          List.singleton_append, List.nil_append]
        simp only [De.parseValue]
        rw [skipWS_cons_not '(' _ (by decide)]
        simp only []
        have h0 := parseTupleTail_lemma cfg d l _ f' rest [] IH hg hsh
          (by omega) (fun c hc => absurd hc (List.not_mem_nil c)) hrest
        simp only [List.nil_append] at h0
        rw [h0]
      | map es =>
        have IH : ∀ kv ∈ es, PRT kv.2 := by
          intro kv hkv
          refine IHlt kv.2 ?_
          have h1 := List.sizeOf_lt_of_mem hkv
          have h2 : sizeOf kv.2 < sizeOf kv := by
            cases kv with
            | mk a b => simp
          simp only [Value.map.sizeOf_spec]
          omega
        intro S cfg d f rest hg hsh hf hrest
        cases S <;> simp only [hasShape] at hsh <;>
          try exact absurd hsh (by decide)
        obtain ⟨f', rfl⟩ : ∃ f', f = f' + 1 :=
          ⟨f - 1, by have h1 := le_trans (fuelV_pos _) hf; omega⟩
        simp only [fuelV] at hf
        simp only [goodV] at hg
        have htags : goodTagsE es = true :=
          goodTagsE_of_list es (fun kv hkv hgx => goodV_tags kv.2 hgx) hg
        rw [show render cfg d (Value.map es)
          = renderMapEntries cfg (d + 1) ['\x7b'] es
            ++ mapEndChars cfg d es.isEmpty from rfl]
        cases es with
        | nil =>
          rw [show renderMapEntries cfg (d + 1) ['\x7b']
            ([] : List (String × Value)) = ['\x7b'] from rfl]
          rw [show (([] : List (String × Value))).isEmpty = true from rfl,
            mapEndChars_true]
          simp only [List.cons_append, List.append_assoc,
            List.singleton_append, List.nil_append]
          simp only [De.parseValue]
          rw [skipWS_cons_not '\x7b' _ (by decide)]
          simp only []
          have h0 := parseMapTail_lemma _ cfg (d + 1) [] f' rest [] [':'] []
            (fun kv hkv => absurd hkv (List.not_mem_nil kv)) rfl hsh
            (show 1 ≤ f' by omega)
            (fun c hc => absurd hc (List.not_mem_nil c))
            (by intro c hc
                simp only [List.mem_singleton] at hc
                subst hc
                decide)
            (by decide)
            (fun c hc => absurd hc (List.not_mem_nil c)) hrest
          simp only [List.map_nil, sepJoinL, List.nil_append,
            List.append_nil] at h0
          rw [h0]
        | cons kv0 tl0 =>
          by_cases hN : cfg.delimiter = DelimiterType.Newline
          · rw [renderMapEntries_clean_newline cfg (d + 1) hN (kv0 :: tl0)
              ['\x7b']]
            rw [show ((kv0 :: tl0) : List (String × Value)).isEmpty = false
              from rfl, mapEndChars_false_newline cfg d hN]
            rw [show (fun kv => '\n' :: (indentChars cfg (d + 1)
                ++ pairItem cfg (d + 1) kv))
              = (fun kv => ('\n' :: indentChars cfg (d + 1))
                ++ pairItem cfg (d + 1) kv) from rfl]
            rw [flatten_junk_pair ('\n' :: indentChars cfg (d + 1))
              (pairItem cfg (d + 1)) kv0 tl0]
            simp only [List.cons_append, List.append_assoc,
              List.singleton_append, List.nil_append]
            simp only [De.parseValue]
            rw [skipWS_cons_not '\x7b' _ (by decide)]
            simp only []
            have hjsep : allSep ('\n' :: indentChars cfg (d + 1)) := by
              intro c hc
              simp only [List.mem_cons] at hc
              rcases hc with rfl | hc
              · decide
              · exact indentChars_allSep cfg (d + 1) c hc
            have hesep : allSep ('\n' :: indentChars cfg d) := by
              intro c hc
              simp only [List.mem_cons] at hc
              rcases hc with rfl | hc
              · decide
              · exact indentChars_allSep cfg d c hc
            have h0 := parseMapTail_lemma _ cfg (d + 1) (kv0 :: tl0) f' rest
              ('\n' :: indentChars cfg (d + 1))
              ('\n' :: indentChars cfg (d + 1))
              ('\n' :: indentChars cfg d)
              IH hg hsh (by omega) hjsep hjsep (by simp) hesep hrest
            simp only [List.cons_append, List.append_assoc] at h0
            rw [h0]
          · rw [renderMapEntries_clean_colon cfg (d + 1) hN (kv0 :: tl0) htags]
            rw [show ((kv0 :: tl0) : List (String × Value)).isEmpty = false
              from rfl, mapEndChars_false_colon cfg d hN]
            rw [sepJoin_eq_sepJoinL]
            simp only [List.cons_append, List.append_assoc,
              List.singleton_append, List.nil_append]
            simp only [De.parseValue]
            rw [skipWS_cons_not '\x7b' _ (by decide)]
            simp only []
            have h0 := parseMapTail_lemma _ cfg (d + 1) (kv0 :: tl0) f' rest
              [] [delimChar cfg.delimiter] []
              IH hg hsh (by omega)
              (fun c hc => absurd hc (List.not_mem_nil c))
              (by intro c hc
                  simp only [List.mem_singleton] at hc
                  subst hc
                  exact delimChar_isSep _)
              (by simp)
              (fun c hc => absurd hc (List.not_mem_nil c)) hrest
            simp only [List.nil_append, List.append_nil,
              List.append_assoc] at h0
            rw [h0]
      | strct fs =>
        have IH : ∀ kv ∈ fs, PRT kv.2 := by
          intro kv hkv
          refine IHlt kv.2 ?_
          have h1 := List.sizeOf_lt_of_mem hkv
          have h2 : sizeOf kv.2 < sizeOf kv := by
            cases kv with
            | mk a b => simp
          simp only [Value.strct.sizeOf_spec]
          omega
        intro S cfg d f rest hg hsh hf hrest
        cases S <;> simp only [hasShape] at hsh <;>
          try exact absurd hsh (by decide)
        obtain ⟨f', rfl⟩ : ∃ f', f = f' + 1 :=
          ⟨f - 1, by have h1 := le_trans (fuelV_pos _) hf; omega⟩
        simp only [fuelV] at hf
        simp only [goodV] at hg
        have htags : goodTagsE fs = true :=
          goodTagsE_of_list fs (fun kv hkv hgx => goodV_tags kv.2 hgx) hg
        rw [show render cfg d (Value.strct fs)
          = renderStructFields cfg (d + 1) ['\x7b'] fs
            ++ mapEndChars cfg d fs.isEmpty from rfl]
        rw [renderStructFields_eq_map]
        cases fs with
        | nil =>
          rw [show renderMapEntries cfg (d + 1) ['\x7b']
            ([] : List (String × Value)) = ['\x7b'] from rfl]
          rw [show (([] : List (String × Value))).isEmpty = true from rfl,
            mapEndChars_true]
          simp only [List.cons_append, List.append_assoc,
            List.singleton_append, List.nil_append]
          simp only [De.parseValue]
          rw [skipWS_cons_not '\x7b' _ (by decide)]
          simp only []
          have h0 := parseFieldsTail_lemma cfg (d + 1) [] _ f' rest [] [':'] []
            (fun kv hkv => absurd hkv (List.not_mem_nil kv)) rfl hsh
            (show 1 ≤ f' by omega)
            (fun c hc => absurd hc (List.not_mem_nil c))
            (by intro c hc
                simp only [List.mem_singleton] at hc
                subst hc
                decide)
            (by decide)
            (fun c hc => absurd hc (List.not_mem_nil c)) hrest
          simp only [List.map_nil, sepJoinL, List.nil_append,
            List.append_nil] at h0
          rw [h0]
        | cons kv0 tl0 =>
          by_cases hN : cfg.delimiter = DelimiterType.Newline
          · rw [renderMapEntries_clean_newline cfg (d + 1) hN (kv0 :: tl0)
              ['\x7b']]
            rw [show ((kv0 :: tl0) : List (String × Value)).isEmpty = false
              from rfl, mapEndChars_false_newline cfg d hN]
            rw [show (fun kv => '\n' :: (indentChars cfg (d + 1)
                ++ pairItem cfg (d + 1) kv))
              = (fun kv => ('\n' :: indentChars cfg (d + 1))
                ++ pairItem cfg (d + 1) kv) from rfl]
            rw [flatten_junk_pair ('\n' :: indentChars cfg (d + 1))
              (pairItem cfg (d + 1)) kv0 tl0]
            simp only [List.cons_append, List.append_assoc,
              List.singleton_append, List.nil_append]
            simp only [De.parseValue]
            rw [skipWS_cons_not '\x7b' _ (by decide)]
            simp only []
            have hjsep : allSep ('\n' :: indentChars cfg (d + 1)) := by
              intro c hc
              simp only [List.mem_cons] at hc
              rcases hc with rfl | hc
              · decide
              · exact indentChars_allSep cfg (d + 1) c hc
            have hesep : allSep ('\n' :: indentChars cfg d) := by
              intro c hc
              simp only [List.mem_cons] at hc
              rcases hc with rfl | hc
              · decide
              · exact indentChars_allSep cfg d c hc
            have h0 := parseFieldsTail_lemma cfg (d + 1) (kv0 :: tl0) _ f' rest
              ('\n' :: indentChars cfg (d + 1))
              ('\n' :: indentChars cfg (d + 1))
              ('\n' :: indentChars cfg d)
              IH hg hsh (by omega) hjsep hjsep (by simp) hesep hrest
            simp only [List.cons_append, List.append_assoc] at h0
            rw [h0]
          · rw [renderMapEntries_clean_colon cfg (d + 1) hN (kv0 :: tl0) htags]
            rw [show ((kv0 :: tl0) : List (String × Value)).isEmpty = false
              from rfl, mapEndChars_false_colon cfg d hN]
            rw [sepJoin_eq_sepJoinL]
            simp only [List.cons_append, List.append_assoc,
              List.singleton_append, List.nil_append]
            simp only [De.parseValue]
            rw [skipWS_cons_not '\x7b' _ (by decide)]
            simp only []
            have h0 := parseFieldsTail_lemma cfg (d + 1) (kv0 :: tl0) _ f' rest
              [] [delimChar cfg.delimiter] []
              IH hg hsh (by omega)
              (fun c hc => absurd hc (List.not_mem_nil c))
              (by intro c hc
                  simp only [List.mem_singleton] at hc
                  subst hc
                  exact delimChar_isSep _)
              (by simp)
              (fun c hc => absurd hc (List.not_mem_nil c)) hrest
            simp only [List.nil_append, List.append_nil,
              List.append_assoc] at h0
            rw [h0]
      | unitVariant t =>
        intro S cfg d f rest hg hsh hf hrest
        cases S <;> simp only [hasShape] at hsh <;>
          try exact absurd hsh (by decide)
        rename_i vs
        obtain ⟨f', rfl⟩ : ∃ f', f = f' + 1 :=
          ⟨f - 1, by have h1 := le_trans (fuelV_pos _) hf; omega⟩
        simp only [goodV, goodTag, List.all_eq_true] at hg
        have htake : (t.data ++ rest).takeWhile isTagChar = t.data := by
          cases rest with
          | nil =>
            rw [List.append_nil]
            exact takeWhile_all_eq _ _ hg
          | cons c r =>
            exact takeWhile_append_stop _ _ hg c
              (boundary_cons_flags c (boundaryOK_elim c r hrest)).2 r
        have hdrop : (t.data ++ rest).dropWhile isTagChar = rest := by
          cases rest with
          | nil =>
            rw [List.append_nil]
            exact dropWhile_all_eq _ _ hg
          | cons c r =>
            exact dropWhile_append_stop _ _ hg c
              (boundary_cons_flags c (boundaryOK_elim c r hrest)).2 r
        cases hlk : vs.lookup t with
        | none =>
          rw [hlk] at hsh
          simp at hsh
        | some sh =>
          rw [hlk] at hsh
          cases sh <;> simp at hsh
          rw [show render cfg d (Value.unitVariant t) = '$' :: t.data from rfl]
          simp only [List.cons_append]
          simp only [De.parseValue]
          rw [skipWS_cons_not '$' _ (by decide)]
          simp only []
          rw [htake, hdrop]
          rw [show String.mk t.data = t from rfl, hlk]
      | newtypeVariant t x =>
        have IHx : PRT x := by
          refine IHlt x ?_
          simp only [Value.newtypeVariant.sizeOf_spec]
          omega
        intro S cfg d f rest hg hsh hf hrest
        cases S <;> simp only [hasShape] at hsh <;>
          try exact absurd hsh (by decide)
        rename_i vs
        obtain ⟨f', rfl⟩ : ∃ f', f = f' + 1 :=
          ⟨f - 1, by have h1 := le_trans (fuelV_pos _) hf; omega⟩
        simp only [fuelV] at hf
        simp only [goodV, Bool.and_eq_true] at hg
        have htag : ∀ c ∈ t.data, isTagChar c = true := by
          have h1 := hg.1
          simp only [goodTag, List.all_eq_true] at h1
          exact h1
        cases hlk : vs.lookup t with
        | none =>
          rw [hlk] at hsh
          simp at hsh
        | some sh =>
          rw [hlk] at hsh
          cases sh <;> simp at hsh
          rename_i Si
          rw [show render cfg d (Value.newtypeVariant t x)
            = '$' :: (t.data ++ ['('] ++ render cfg d x ++ [')']) from rfl]
          simp only [List.cons_append, List.append_assoc,
            List.singleton_append, List.nil_append]
          simp only [De.parseValue]
          rw [skipWS_cons_not '$' _ (by decide)]
          simp only []
          rw [takeWhile_append_stop _ _ htag '(' (by decide) _]
          rw [dropWhile_append_stop _ _ htag '(' (by decide) _]
          rw [show String.mk t.data = t from rfl, hlk]
          simp only []
          rw [skipWS_cons_not '(' _ (by decide)]
          simp only []
          rw [IHx Si cfg d f' _ hg.2 hsh (by omega)
            (boundaryOK_cons ')' rest (Or.inr (Or.inr (Or.inl rfl))))]
          simp only []
          rw [skipSep_cons_not ')' _ (by decide)]
          simp only []
      | tupleVariant t l =>
        have IH : ∀ x ∈ l, PRT x := by
          intro x hx
          refine IHlt x ?_
          have h1 := List.sizeOf_lt_of_mem hx
          simp only [Value.tupleVariant.sizeOf_spec]
          omega
        intro S cfg d f rest hg hsh hf hrest
        cases S <;> simp only [hasShape] at hsh <;>
          try exact absurd hsh (by decide)
        rename_i vs
        obtain ⟨f', rfl⟩ : ∃ f', f = f' + 1 :=
          ⟨f - 1, by have h1 := le_trans (fuelV_pos _) hf; omega⟩
        simp only [fuelV] at hf
        simp only [goodV, Bool.and_eq_true] at hg
        have htag : ∀ c ∈ t.data, isTagChar c = true := by
          have h1 := hg.1
          simp only [goodTag, List.all_eq_true] at h1
          exact h1
        have htags : goodTagsL l = true :=
          goodTagsL_of_list l (fun y hy hgy => goodV_tags y hgy) hg.2
        cases hlk : vs.lookup t with
        | none =>
          rw [hlk] at hsh
          simp at hsh
        | some sh =>
          rw [hlk] at hsh
          cases sh <;> simp at hsh
          rename_i Ss
          rw [show render cfg d (Value.tupleVariant t l)
            = '$' :: (t.data ++ renderElems cfg d '(' ['('] l ++ [')'])
            from rfl]
          rw [renderElems_clean cfg d '(' (by decide) l htags]
          simp only [List.cons_append, List.append_assoc,
            List.singleton_append, List.nil_append]
          simp only [De.parseValue]
          rw [skipWS_cons_not '$' _ (by decide)]
          simp only []
          rw [takeWhile_append_stop _ _ htag '(' (by decide) _]
          rw [dropWhile_append_stop _ _ htag '(' (by decide) _]
          rw [show String.mk t.data = t from rfl, hlk]
          simp only []
          rw [skipWS_cons_not '(' _ (by decide)]
          simp only []
          have h0 := parseTupleTail_lemma cfg d l Ss f' rest [] IH hg.2 hsh
            (by omega) (fun c hc => absurd hc (List.not_mem_nil c)) hrest
          simp only [List.nil_append] at h0
          rw [h0]
      | structVariant t fs =>
        have IH : ∀ kv ∈ fs, PRT kv.2 := by
          intro kv hkv
          refine IHlt kv.2 ?_
          have h1 := List.sizeOf_lt_of_mem hkv
          have h2 : sizeOf kv.2 < sizeOf kv := by
            cases kv with
            | mk a b => simp
          simp only [Value.structVariant.sizeOf_spec]
          omega
        intro S cfg d f rest hg hsh hf hrest
        cases S <;> simp only [hasShape] at hsh <;>
          try exact absurd hsh (by decide)
        rename_i vs
        obtain ⟨f', rfl⟩ : ∃ f', f = f' + 1 :=
          ⟨f - 1, by have h1 := le_trans (fuelV_pos _) hf; omega⟩
        simp only [fuelV] at hf
        simp only [goodV, Bool.and_eq_true] at hg
        have htag : ∀ c ∈ t.data, isTagChar c = true := by
          have h1 := hg.1
          simp only [goodTag, List.all_eq_true] at h1
          exact h1
        have htags : goodTagsE fs = true :=
          goodTagsE_of_list fs (fun kv hkv hgx => goodV_tags kv.2 hgx) hg.2
        cases hlk : vs.lookup t with
        | none =>
          rw [hlk] at hsh
          simp at hsh
        | some sh =>
          rw [hlk] at hsh
          cases sh <;> simp at hsh
          rename_i Fs
          rw [show render cfg d (Value.structVariant t fs)
            = '$' :: (t.data ++ renderSVFields cfg d ['\x7b'] fs ++ ['\x7d'])
            from rfl]
          rw [renderSVFields_clean cfg d fs htags]
          rw [sepJoin_eq_sepJoinL]
          simp only [List.cons_append, List.append_assoc,
            List.singleton_append, List.nil_append]
          simp only [De.parseValue]
          rw [skipWS_cons_not '$' _ (by decide)]
          simp only []
          rw [takeWhile_append_stop _ _ htag '\x7b' (by decide) _]
          rw [dropWhile_append_stop _ _ htag '\x7b' (by decide) _]
          rw [show String.mk t.data = t from rfl, hlk]
          simp only []
          rw [skipWS_cons_not '\x7b' _ (by decide)]
          simp only []
          have h0 := parseFieldsTail_lemma cfg d fs Fs f' rest []
            [delimChar cfg.delimiter] [] IH hg.2 hsh (by omega)
            (fun c hc => absurd hc (List.not_mem_nil c))
            (by intro c hc
                simp only [List.mem_singleton] at hc
                subst hc
                exact delimChar_isSep _)
            (by simp)
            (fun c hc => absurd hc (List.not_mem_nil c)) hrest
          simp only [List.nil_append, List.append_nil,
            List.append_assoc] at h0
          rw [h0]
  exact main (sizeOf v) v (Nat.le_refl _)

theorem mapEndChars_len (cfg : PrettyConfig) (d : Nat) (b : Bool) :
    1 ≤ (mapEndChars cfg d b).length := by
  unfold mapEndChars
  split <;> simp

theorem renderBytesElems_len (cfg : PrettyConfig) :
    ∀ (bs : List Nat) (acc : List Char),
    ∃ t, renderBytesElems cfg acc bs = acc ++ t ∧ bs.length ≤ t.length := by
  intro bs
  induction bs with
  | nil =>
    intro acc
    exact ⟨[], by simp [renderBytesElems], Nat.le_refl 0⟩
  | cons b tl ih =>
    intro acc
    have hb : 1 ≤ (natToChars b).length :=
      List.length_pos.mpr (natToChars_ne_nil b)
    by_cases h : endsWithChar acc '[' = true
    · obtain ⟨t, ht, hlen⟩ := ih (acc ++ natToChars b)
      refine ⟨natToChars b ++ t, ?_, ?_⟩
      · simp only [renderBytesElems, h, if_true]
        rw [ht, List.append_assoc]
      · simp only [List.length_cons, List.length_append]
        omega
    · obtain ⟨t, ht, hlen⟩ :=
        ih (acc ++ [seqSepChar cfg.delimiter '['] ++ natToChars b)
      refine ⟨[seqSepChar cfg.delimiter '['] ++ natToChars b ++ t, ?_, ?_⟩
      · simp only [renderBytesElems, if_neg h]
        rw [ht]
        simp [List.append_assoc]
      · simp only [List.length_cons, List.length_append, List.length_singleton]
        omega

theorem renderElems_len (cfg : PrettyConfig) (d : Nat) (start : Char) :
    ∀ (l : List Value) (acc : List Char),
    (∀ x ∈ l, fuelV x + 1 ≤ 2 * (render cfg d x).length) →
    ∃ t, renderElems cfg d start acc l = acc ++ t ∧
      fuelL l ≤ 2 * t.length + 1 := by
  intro l
  induction l with
  | nil =>
    intro acc _
    exact ⟨[], by simp [renderElems], Nat.le_refl 1⟩
  | cons v tl ih =>
    intro acc hIH
    have hv := hIH v (by simp)
    by_cases h : endsWithChar acc start = true
    · obtain ⟨t, ht, hlen⟩ := ih (acc ++ render cfg d v)
        (fun x hx => hIH x (by simp [hx]))
      refine ⟨render cfg d v ++ t, ?_, ?_⟩
      · simp only [renderElems, h, if_true]
        rw [ht, List.append_assoc]
      · simp only [fuelL, List.length_append]
        omega
    · obtain ⟨t, ht, hlen⟩ :=
        ih (acc ++ [seqSepChar cfg.delimiter start] ++ render cfg d v)
          (fun x hx => hIH x (by simp [hx]))
      refine ⟨[seqSepChar cfg.delimiter start] ++ render cfg d v ++ t, ?_, ?_⟩
      · simp only [renderElems, if_neg h]
        rw [ht]
        simp [List.append_assoc]
      · simp only [fuelL, List.length_append, List.length_singleton]
        omega

theorem renderMapEntries_len (cfg : PrettyConfig) (d : Nat) :
    ∀ (l : List (String × Value)) (acc : List Char),
    (∀ kv ∈ l, fuelV kv.2 + 1 ≤ 2 * (render cfg d kv.2).length) →
    ∃ t, renderMapEntries cfg d acc l = acc ++ t ∧
      fuelE l ≤ 2 * t.length + 1 := by
  intro l
  induction l with
  | nil =>
    intro acc _
    exact ⟨[], by simp [renderMapEntries], Nat.le_refl 1⟩
  | cons kv tl ih =>
    obtain ⟨k, v⟩ := kv
    intro acc hIH
    have hv := hIH (k, v) (by simp)
    simp only at hv
    by_cases h1 : (¬ endsWithChar acc '\x7b' = true
        ∨ cfg.delimiter = DelimiterType.Newline)
    · by_cases h2 : cfg.delimiter = DelimiterType.Newline
      · obtain ⟨t, ht, hlen⟩ := ih (acc ++ [delimChar cfg.delimiter]
          ++ indentChars cfg d ++ k.data ++ ['-', '>'] ++ render cfg d v)
          (fun x hx => hIH x (by simp [hx]))
        refine ⟨[delimChar cfg.delimiter] ++ indentChars cfg d ++ k.data
          ++ ['-', '>'] ++ render cfg d v ++ t, ?_, ?_⟩
        · simp only [renderMapEntries, if_pos h1, if_pos h2]
          rw [ht]
          simp [List.append_assoc]
        · simp only [fuelE, List.length_append, List.length_singleton,
            List.length_cons]
          omega
      · obtain ⟨t, ht, hlen⟩ := ih (acc ++ [delimChar cfg.delimiter]
          ++ k.data ++ ['-', '>'] ++ render cfg d v)
          (fun x hx => hIH x (by simp [hx]))
        refine ⟨[delimChar cfg.delimiter] ++ k.data
          ++ ['-', '>'] ++ render cfg d v ++ t, ?_, ?_⟩
        · simp only [renderMapEntries, if_pos h1, if_neg h2]
          rw [ht]
          simp [List.append_assoc]
        · simp only [fuelE, List.length_append, List.length_singleton,
            List.length_cons]
          omega
    · by_cases h2 : cfg.delimiter = DelimiterType.Newline
      · obtain ⟨t, ht, hlen⟩ := ih (acc ++ indentChars cfg d
          ++ k.data ++ ['-', '>'] ++ render cfg d v)
          (fun x hx => hIH x (by simp [hx]))
        refine ⟨indentChars cfg d ++ k.data
          ++ ['-', '>'] ++ render cfg d v ++ t, ?_, ?_⟩
        · simp only [renderMapEntries, if_neg h1, if_pos h2]
          rw [ht]
          simp [List.append_assoc]
        · simp only [fuelE, List.length_append, List.length_singleton,
            List.length_cons]
          omega
      · obtain ⟨t, ht, hlen⟩ := ih (acc ++ k.data ++ ['-', '>']
          ++ render cfg d v) (fun x hx => hIH x (by simp [hx]))
        refine ⟨k.data ++ ['-', '>'] ++ render cfg d v ++ t, ?_, ?_⟩
        · simp only [renderMapEntries, if_neg h1, if_neg h2]
          rw [ht]
          simp [List.append_assoc]
        · simp only [fuelE, List.length_append, List.length_singleton,
            List.length_cons]
          omega

theorem renderSVFields_len (cfg : PrettyConfig) (d : Nat) :
    ∀ (l : List (String × Value)) (acc : List Char),
    (∀ kv ∈ l, fuelV kv.2 + 1 ≤ 2 * (render cfg d kv.2).length) →
    ∃ t, renderSVFields cfg d acc l = acc ++ t ∧
      fuelE l ≤ 2 * t.length + 1 := by
  intro l
  induction l with
  | nil =>
    intro acc _
    exact ⟨[], by simp [renderSVFields], Nat.le_refl 1⟩
  | cons kv tl ih =>
    obtain ⟨k, v⟩ := kv
    intro acc hIH
    have hv := hIH (k, v) (by simp)
    simp only at hv
    by_cases h1 : (¬ endsWithChar acc '\x7b' = true)
    · obtain ⟨t, ht, hlen⟩ := ih (acc ++ [delimChar cfg.delimiter]
        ++ k.data ++ ['-', '>'] ++ render cfg d v)
        (fun x hx => hIH x (by simp [hx]))
      refine ⟨[delimChar cfg.delimiter] ++ k.data
        ++ ['-', '>'] ++ render cfg d v ++ t, ?_, ?_⟩
      · simp only [renderSVFields, if_pos h1]
        rw [ht]
        simp [List.append_assoc]
      · simp only [fuelE, List.length_append, List.length_singleton,
          List.length_cons]
        omega
    · obtain ⟨t, ht, hlen⟩ := ih (acc ++ k.data ++ ['-', '>']
        ++ render cfg d v) (fun x hx => hIH x (by simp [hx]))
      refine ⟨k.data ++ ['-', '>'] ++ render cfg d v ++ t, ?_, ?_⟩
      · simp only [renderSVFields, if_neg h1]
        rw [ht]
        simp [List.append_assoc]
      · simp only [fuelE, List.length_append, List.length_singleton,
          List.length_cons]
        omega

theorem fuelV_le_render (cfg : PrettyConfig) (v : Value) :
    ∀ (d : Nat), fuelV v + 1 ≤ 2 * (render cfg d v).length := by
  have main : ∀ (N : Nat) (w : Value), sizeOf w ≤ N →
      ∀ (d : Nat), fuelV w + 1 ≤ 2 * (render cfg d w).length := by
    intro N
    induction N with
    | zero =>
      intro w hw
      exfalso
      cases w <;> simp_arith at hw
    | succ N ihN =>
      intro w hw d
      cases w with
      | bool b =>
        simp only [fuelV]
        have h2 : 0 < (render cfg d (Value.bool b)).length :=
          List.length_pos.mpr (render_ne_nil cfg d _)
        omega
      | int i =>
        simp only [fuelV]
        have h2 : 0 < (render cfg d (Value.int i)).length :=
          List.length_pos.mpr (render_ne_nil cfg d _)
        omega
      | uint n =>
        simp only [fuelV]
        have h2 : 0 < (render cfg d (Value.uint n)).length :=
          List.length_pos.mpr (render_ne_nil cfg d _)
        omega
      | char c0 =>
        simp only [fuelV]
        have h2 : 0 < (render cfg d (Value.char c0)).length :=
          List.length_pos.mpr (render_ne_nil cfg d _)
        omega
      | str s =>
        simp only [fuelV]
        have h2 : 0 < (render cfg d (Value.str s)).length :=
          List.length_pos.mpr (render_ne_nil cfg d _)
        omega
      | unit =>
        simp only [fuelV]
        have h2 : 0 < (render cfg d Value.unit).length :=
          List.length_pos.mpr (render_ne_nil cfg d _)
        omega
      | unitVariant t =>
        simp only [fuelV]
        have h2 : 0 < (render cfg d (Value.unitVariant t)).length :=
          List.length_pos.mpr (render_ne_nil cfg d _)
        omega
      | bytes bs =>
        obtain ⟨t, ht, hlen⟩ := renderBytesElems_len cfg bs ['[']
        rw [show render cfg d (Value.bytes bs)
          = renderBytesElems cfg ['['] bs ++ [']'] from rfl, ht]
        simp only [fuelV, List.length_append, List.length_cons,
          List.length_singleton]
        omega
      | seq l =>
        have hIH : ∀ x ∈ l, fuelV x + 1 ≤ 2 * (render cfg d x).length := by
          intro x hx
          refine ihN x ?_ d
          have h1 := List.sizeOf_lt_of_mem hx
          simp only [Value.seq.sizeOf_spec] at hw
          omega
        obtain ⟨t, ht, hlen⟩ := renderElems_len cfg d '[' l ['['] hIH
        rw [show render cfg d (Value.seq l)
          = renderElems cfg d '[' ['['] l ++ [']'] from rfl, ht]
        simp only [fuelV, List.length_append, List.length_cons,
          List.length_singleton]
        omega
      | tuple l =>
        have hIH : ∀ x ∈ l, fuelV x + 1 ≤ 2 * (render cfg d x).length := by
          intro x hx
          refine ihN x ?_ d
          have h1 := List.sizeOf_lt_of_mem hx
          simp only [Value.tuple.sizeOf_spec] at hw
          omega
        obtain ⟨t, ht, hlen⟩ := renderElems_len cfg d '(' l ['('] hIH
        rw [show render cfg d (Value.tuple l)
          = renderElems cfg d '(' ['('] l ++ [')'] from rfl, ht]
        simp only [fuelV, List.length_append, List.length_cons,
          List.length_singleton]
        omega
      | map es =>
        have hIH : ∀ kv ∈ es, fuelV kv.2 + 1
            ≤ 2 * (render cfg (d + 1) kv.2).length := by
          intro kv hkv
          refine ihN kv.2 ?_ (d + 1)
          have h1 := List.sizeOf_lt_of_mem hkv
          have h2 : sizeOf kv.2 < sizeOf kv := by
            cases kv with
            | mk a b => simp
          simp only [Value.map.sizeOf_spec] at hw
          omega
        obtain ⟨t, ht, hlen⟩ := renderMapEntries_len cfg (d + 1) es ['\x7b'] hIH
        have hend := mapEndChars_len cfg d es.isEmpty
        rw [show render cfg d (Value.map es)
          = renderMapEntries cfg (d + 1) ['\x7b'] es
            ++ mapEndChars cfg d es.isEmpty from rfl, ht]
        simp only [fuelV, List.length_append, List.length_cons,
          List.length_singleton]
        omega
      | strct fs =>
        have hIH : ∀ kv ∈ fs, fuelV kv.2 + 1
            ≤ 2 * (render cfg (d + 1) kv.2).length := by
          intro kv hkv
          refine ihN kv.2 ?_ (d + 1)
          have h1 := List.sizeOf_lt_of_mem hkv
          have h2 : sizeOf kv.2 < sizeOf kv := by
            cases kv with
            | mk a b => simp
          simp only [Value.strct.sizeOf_spec] at hw
          omega
        obtain ⟨t, ht, hlen⟩ := renderMapEntries_len cfg (d + 1) fs ['\x7b'] hIH
        have hend := mapEndChars_len cfg d fs.isEmpty
        rw [show render cfg d (Value.strct fs)
          = renderStructFields cfg (d + 1) ['\x7b'] fs
            ++ mapEndChars cfg d fs.isEmpty from rfl,
          renderStructFields_eq_map, ht]
        simp only [fuelV, List.length_append, List.length_cons,
          List.length_singleton]
        omega
      | newtypeVariant t x =>
        have hx : fuelV x + 1 ≤ 2 * (render cfg d x).length := by
          refine ihN x ?_ d
          simp only [Value.newtypeVariant.sizeOf_spec] at hw
          omega
        rw [show render cfg d (Value.newtypeVariant t x)
          = '$' :: (t.data ++ ['('] ++ render cfg d x ++ [')']) from rfl]
        simp only [fuelV, List.length_append, List.length_cons,
          List.length_singleton]
        omega
      | tupleVariant t l =>
        have hIH : ∀ x ∈ l, fuelV x + 1 ≤ 2 * (render cfg d x).length := by
          intro x hx
          refine ihN x ?_ d
          have h1 := List.sizeOf_lt_of_mem hx
          simp only [Value.tupleVariant.sizeOf_spec] at hw
          omega
        obtain ⟨t0, ht, hlen⟩ := renderElems_len cfg d '(' l ['('] hIH
        rw [show render cfg d (Value.tupleVariant t l)
          = '$' :: (t.data ++ renderElems cfg d '(' ['('] l ++ [')'])
          from rfl, ht]
        simp only [fuelV, List.length_append, List.length_cons,
          List.length_singleton]
        omega
      | structVariant t fs =>
        have hIH : ∀ kv ∈ fs, fuelV kv.2 + 1
            ≤ 2 * (render cfg d kv.2).length := by
          intro kv hkv
          refine ihN kv.2 ?_ d
          have h1 := List.sizeOf_lt_of_mem hkv
          have h2 : sizeOf kv.2 < sizeOf kv := by
            cases kv with
            | mk a b => simp
          simp only [Value.structVariant.sizeOf_spec] at hw
          omega
        obtain ⟨t0, ht, hlen⟩ := renderSVFields_len cfg d fs ['\x7b'] hIH
        rw [show render cfg d (Value.structVariant t fs)
          = '$' :: (t.data ++ renderSVFields cfg d ['\x7b'] fs ++ ['\x7d'])
          from rfl, ht]
        simp only [fuelV, List.length_append, List.length_cons,
          List.length_singleton]
        omega
  exact main (sizeOf v) v (Nat.le_refl _)

/-! ## Claim theorems -/

/-- C2 counterexample: serializing the S1 `Plugin` value with `to_string`
(default colon config) does not yield the claimed string
`{name->"my-plugin":version->[1: 0: 0]:api_compat->[1: 0: 1]:distribution->$Stable:compat->{}}`:
the code produces `(1:0:0)`-style tuples (serde drives `[u8; 3]` through
`serialize_tuple`, and the colon delimiter carries no trailing space), so the
actual output differs from the claimed one. -/
theorem claim_C2_counterexample :
    to_string s1_plugin = .ok s1_actual_output ∧
    s1_actual_output ≠ s1_claimed_output := by
  constructor
  · rw [to_string_eq_render]
    exact congrArg Except.ok (by decide)
  · decide

/-- C2 amended: serializing the S1 `Plugin` value with `to_string` yields
exactly
`{name->"my-plugin":version->(1:0:0):api_compat->(1:0:1):distribution->$Stable:compat->{}}`. -/
theorem claim_C2 : to_string s1_plugin = .ok s1_actual_output := by
  rw [to_string_eq_render]
  exact congrArg Except.ok (by decide)

/-- C3 counterexample: serializing
`ReleaseCandidate { changelog: "Added \"switch\" subcommand" }` with
`to_string_pretty` under the newline delimiter and indent width 4 does not
yield the claimed three-line text: `SerializeStructVariant::serialize_field`
has no newline-delimiter clause and no indentation call, and its `end` writes
a bare `}`, so the output is a single line. -/
theorem claim_C3_counterexample :
    to_string_pretty s3_release_candidate
      { delimiter := DelimiterType.Newline, indent_width := 4 } =
      .ok s3_actual_output ∧
    s3_actual_output ≠ s3_claimed_output := by
  constructor
  · rw [to_string_pretty_eq_render]
    exact congrArg Except.ok (by decide)
  · decide

/-- C3 amended: under the newline delimiter with indent width 4 the struct
variant serializes to the single line
`$ReleaseCandidate{changelog->"Added "switch" subcommand"}` — the embedded
double quotes do appear raw and unescaped, but the field is not indented and
the closing brace is not on its own line. -/
theorem claim_C3 :
    to_string_pretty s3_release_candidate
      { delimiter := DelimiterType.Newline, indent_width := 4 } =
      .ok s3_actual_output := by
  rw [to_string_pretty_eq_render]
  exact congrArg Except.ok (by decide)

/-- C4 counterexample: under the newline delimiter a keyed container emits the
configured delimiter immediately after the opening `{` — `serialize_key` /
`serialize_field` write the delimiter whenever the delimiter is newline, even
directly after `{` — so the first key does not follow its opening bracket
directly: serializing `{a: true}` with newline delimiter and indent 0 yields
`{`, newline, `a->true`, newline, `}`, with the newline delimiter as the
second character. -/
theorem claim_C4_counterexample :
    to_string_pretty (Value.strct [("a", Value.bool true)])
      { delimiter := DelimiterType.Newline, indent_width := 0 } =
      .ok ("\x7b\na->true\n\x7d").data ∧
    ("\x7b\na->true\n\x7d").data.take 2 = ['\x7b', '\n'] ∧
    delimChar DelimiterType.Newline = '\n' := by
  refine ⟨?_, by decide, rfl⟩
  rw [to_string_pretty_eq_render]
  exact congrArg Except.ok (by decide)

/-- C4 amended: between consecutive siblings exactly one delimiter character
is inserted (the newline-to-space substitution applying inside `[`/`(`), and no
delimiter is emitted immediately after an opening `[` or `(`; after an opening
`{` no delimiter is emitted either, except that when the configured delimiter
is newline each key-value pair of a map or struct — including the first — is
preceded by exactly one newline plus its indentation.  Stated via the closed
forms of the container renderings, for values whose variant tags are
identifier-shaped (as `derive(Serialize)` guarantees). -/
theorem claim_C4 (cfg : PrettyConfig) (d : Nat) (l : List Value)
    (es fs : List (String × Value)) (tag : String)
    (hl : goodTagsL l = true) (hes : goodTagsE es = true)
    (hfs : goodTagsE fs = true) :
    render cfg d (Value.seq l) =
      ('[' :: sepJoin (seqSepChar cfg.delimiter '[') (l.map (render cfg d)))
        ++ [']'] ∧
    render cfg d (Value.tuple l) =
      ('(' :: sepJoin (seqSepChar cfg.delimiter '(') (l.map (render cfg d)))
        ++ [')'] ∧
    (cfg.delimiter ≠ DelimiterType.Newline →
      render cfg d (Value.map es) =
        ('\x7b' :: sepJoin (delimChar cfg.delimiter)
          (es.map (pairItem cfg (d + 1)))) ++ ['\x7d']) ∧
    (cfg.delimiter ≠ DelimiterType.Newline →
      render cfg d (Value.strct fs) =
        ('\x7b' :: sepJoin (delimChar cfg.delimiter)
          (fs.map (pairItem cfg (d + 1)))) ++ ['\x7d']) ∧
    (cfg.delimiter = DelimiterType.Newline →
      render cfg d (Value.map es) =
        ('\x7b' :: (es.map (fun kv =>
          '\n' :: (indentChars cfg (d + 1) ++ pairItem cfg (d + 1) kv))).flatten)
          ++ mapEndChars cfg d es.isEmpty) ∧
    render cfg d (Value.structVariant tag fs) =
      '$' :: tag.data ++ ('\x7b' :: sepJoin (delimChar cfg.delimiter)
        (fs.map (pairItem cfg d))) ++ ['\x7d'] ∧
    to_string_pretty (Value.seq l) cfg = .ok (render cfg 0 (Value.seq l)) := by
  refine ⟨?_, ?_, ?_, ?_, ?_, ?_, to_string_pretty_eq_render _ _⟩
  · simp only [render]
    rw [renderElems_clean cfg d '[' (by decide) l hl]
  · simp only [render]
    rw [renderElems_clean cfg d '(' (by decide) l hl]
  · intro hN
    simp only [render]
    rw [renderMapEntries_clean_colon cfg (d + 1) hN es hes]
    unfold mapEndChars
    rw [if_pos (Or.inr hN)]
  · intro hN
    simp only [render]
    rw [renderStructFields_eq_map, renderMapEntries_clean_colon cfg (d + 1)
      hN fs hfs]
    unfold mapEndChars
    rw [if_pos (Or.inr hN)]
  · intro hN
    simp only [render]
    rw [renderMapEntries_clean_newline cfg (d + 1) hN es ['\x7b']]
    rfl
  · simp only [render]
    rw [renderSVFields_clean cfg d fs hfs]

/-- C4 amended witness: the closed forms hold at a two-element sequence under
the default config. -/
theorem claim_C4_witness :
    goodTagsL [Value.uint 1, Value.uint 2] = true ∧
    render PrettyConfig.default 0 (Value.seq [Value.uint 1, Value.uint 2]) =
      ('[' :: sepJoin (seqSepChar PrettyConfig.default.delimiter '[')
        ([Value.uint 1, Value.uint 2].map (render PrettyConfig.default 0)))
        ++ [']'] :=
  ⟨by decide,
   (claim_C4 PrettyConfig.default 0 [Value.uint 1, Value.uint 2]
     [("a", Value.uint 1)] [("b", Value.uint 2)] "T" (by decide) (by decide)
     (by decide)).1⟩

/-- C5: under the newline delimiter the separator substituted between the
siblings of a bracketed or parenthesized container is the single space — so no
tuple or sequence contains a raw newline between its siblings — while keyed
containers (maps and structs) separate their pairs with true newlines. -/
theorem claim_C5 (cfg : PrettyConfig)
    (hN : cfg.delimiter = DelimiterType.Newline) (d : Nat) (l : List Value)
    (es : List (String × Value)) (hl : goodTagsL l = true) :
    seqSepChar cfg.delimiter '[' = ' ' ∧
    seqSepChar cfg.delimiter '(' = ' ' ∧
    (' ' : Char) ≠ '\n' ∧
    render cfg d (Value.seq l) =
      ('[' :: sepJoin ' ' (l.map (render cfg d))) ++ [']'] ∧
    render cfg d (Value.tuple l) =
      ('(' :: sepJoin ' ' (l.map (render cfg d))) ++ [')'] ∧
    delimChar cfg.delimiter = '\n' ∧
    render cfg d (Value.map es) =
      ('\x7b' :: (es.map (fun kv =>
        '\n' :: (indentChars cfg (d + 1) ++ pairItem cfg (d + 1) kv))).flatten)
        ++ mapEndChars cfg d es.isEmpty ∧
    render cfg d (Value.strct es) =
      ('\x7b' :: (es.map (fun kv =>
        '\n' :: (indentChars cfg (d + 1) ++ pairItem cfg (d + 1) kv))).flatten)
        ++ mapEndChars cfg d es.isEmpty ∧
    to_string_pretty (Value.seq l) cfg = .ok (render cfg 0 (Value.seq l)) := by
  have hsep1 : seqSepChar cfg.delimiter '[' = ' ' := by rw [hN]; decide
  have hsep2 : seqSepChar cfg.delimiter '(' = ' ' := by rw [hN]; decide
  refine ⟨hsep1, hsep2, by decide, ?_, ?_, by rw [hN]; rfl, ?_, ?_,
    to_string_pretty_eq_render _ _⟩
  · simp only [render]
    rw [renderElems_clean cfg d '[' (by decide) l hl, hsep1]
  · simp only [render]
    rw [renderElems_clean cfg d '(' (by decide) l hl, hsep2]
  · simp only [render]
    rw [renderMapEntries_clean_newline cfg (d + 1) hN es ['\x7b']]
    rfl
  · simp only [render]
    rw [renderStructFields_eq_map,
      renderMapEntries_clean_newline cfg (d + 1) hN es ['\x7b']]
    rfl

/-- C5 witness: the single-line substitution holds at a concrete two-element
sequence under the `hierarchy` config (newline delimiter, indent 4). -/
theorem claim_C5_witness :
    PrettyConfig.hierarchy.delimiter = DelimiterType.Newline ∧
    goodTagsL [Value.uint 1, Value.uint 2] = true ∧
    render PrettyConfig.hierarchy 0 (Value.seq [Value.uint 1, Value.uint 2]) =
      ('[' :: sepJoin ' '
        ([Value.uint 1, Value.uint 2].map (render PrettyConfig.hierarchy 0)))
        ++ [']'] :=
  ⟨rfl, by decide,
   (claim_C5 PrettyConfig.hierarchy rfl 0 [Value.uint 1, Value.uint 2]
     [("a", Value.uint 1)] (by decide)).2.2.2.1⟩

/-- C6: integer sub-kinds smaller than 64 bits serialize through the single
64-bit textualization — for every in-range value, the 8/16/32-bit entry points
produce exactly what the 64-bit entry point produces, and a nonnegative signed
value has the same lexical form as the equal unsigned value. -/
theorem claim_C6 (s : Serializer) (x : Int) (y : Nat) :
    ((-(2 ^ 7 : Int) ≤ x ∧ x < 2 ^ 7) → serialize_i8 s x = serialize_i64 s x) ∧
    ((-(2 ^ 15 : Int) ≤ x ∧ x < 2 ^ 15) →
      serialize_i16 s x = serialize_i64 s x) ∧
    ((-(2 ^ 31 : Int) ≤ x ∧ x < 2 ^ 31) →
      serialize_i32 s x = serialize_i64 s x) ∧
    (y < 2 ^ 8 → serialize_u8 s y = serialize_u64 s y) ∧
    (y < 2 ^ 16 → serialize_u16 s y = serialize_u64 s y) ∧
    (y < 2 ^ 32 → serialize_u32 s y = serialize_u64 s y) ∧
    (0 ≤ x → serialize_i64 s x = serialize_u64 s x.natAbs) := by
  refine ⟨fun _ => rfl, fun _ => rfl, fun _ => rfl, fun _ => rfl, fun _ => rfl,
    fun _ => rfl, fun hx => ?_⟩
  simp [serialize_i64, serialize_u64, intChars, not_lt.mpr hx]

/-- C6 witness: the widening equations hold at the concrete inputs `-5 : i8`
and `7 : u8`. -/
theorem claim_C6_witness :
    ((-(2 ^ 7 : Int) ≤ -5 ∧ (-5 : Int) < 2 ^ 7) ∧ (7 : Nat) < 2 ^ 8) ∧
    serialize_i8 sample_serializer (-5) = serialize_i64 sample_serializer (-5) ∧
    serialize_u8 sample_serializer 7 = serialize_u64 sample_serializer 7 :=
  ⟨⟨⟨by decide, by decide⟩, by decide⟩,
   (claim_C6 sample_serializer (-5) 7).1 ⟨by decide, by decide⟩,
   (claim_C6 sample_serializer (-5) 7).2.2.2.1 (by decide)⟩

/-- C7: `to_string v` equals `to_string_pretty v PrettyConfig::default()`, and
the default pretty config is the colon delimiter with indent width 0. -/
theorem claim_C7 (v : Value) :
    to_string v = to_string_pretty v PrettyConfig.default ∧
    PrettyConfig.default =
      { delimiter := DelimiterType.Colon, indent_width := 0 } :=
  ⟨rfl, rfl⟩

/-- C8: both entry points succeed (return `Ok` with the output string) for
every value of the vocabulary under every pretty config; no serializer method
constructs an error of its own, so driving any in-vocabulary value can only
return `Ok`. -/
theorem claim_C8 (v : Value) (cfg : PrettyConfig) :
    (∃ out, to_string v = .ok out) ∧
    (∃ out, to_string_pretty v cfg = .ok out) :=
  ⟨⟨_, to_string_eq_render v⟩, ⟨_, to_string_pretty_eq_render v cfg⟩⟩

/-- C9: under the well-formed open/end pairing that driving a `Value`
guarantees, serialization from any `Normal`-mode state returns the depth
counter to its pre-call value (each map/struct open's increment is matched by
its end's decrement), and the ghost `underflow` flag is unchanged — in
particular, starting from `underflow = false`, no decrement is ever applied to
a zero counter, so the source's `u16` subtraction never underflows. -/
theorem claim_C9 (v : Value) (o : List Char) (cfg : PrettyConfig) (n : Nat)
    (u : Bool) :
    ∃ out, serializeValue
      { output := o, mode := SerializerMode.Normal, pretty := cfg,
        indent_tracking := n, underflow := u } v =
    .ok { output := out, mode := SerializerMode.Normal, pretty := cfg,
          indent_tracking := n, underflow := u } :=
  ⟨_, serializeValue_ok v o cfg n u⟩

/-- C10: `serialize_char` emits exactly the character between two single
quotes with no escaping — three characters — and when the character is itself
the single quote the output is three consecutive single quotes. -/
theorem claim_C10 (s : Serializer) (c : Char) :
    serialize_char s c = .ok (s.write ['\x27', c, '\x27']) ∧
    (['\x27', c, '\x27'] : List Char).length = 3 ∧
    to_string (Value.char c) = .ok ['\x27', c, '\x27'] ∧
    serialize_char s '\x27' = .ok (s.write ['\x27', '\x27', '\x27']) := by
  refine ⟨rfl, rfl, ?_, rfl⟩
  rw [to_string_eq_render]
  rfl

/-- C1 counterexample: the spec itself renders strings with embedded double
quotes raw (section 6 string rule), so serializing the S3 changelog string and
feeding the output back to the spec-modelled deserializer fails: the string
production reads up to the first `"` and the remainder is not consumed. -/
theorem claim_C1_counterexample :
    to_string (Value.str "Added \x22switch\x22 subcommand")
      = .ok ("\x22Added \x22switch\x22 subcommand\x22").data
    ∧ De.from_str Shape.str ("\x22Added \x22switch\x22 subcommand\x22").data
      = none := by
  constructor
  · rw [to_string_eq_render]
    rfl
  · rfl

/-- C1 (amended): for every value whose strings contain no double quote, whose
chars are not the single quote, whose keys and tags are identifier-shaped and
whose integers fit their machine widths, and for every pretty config,
serializing with `to_string_pretty` succeeds and the spec-modelled deserializer
driven by the value's own shape recovers exactly the original value. -/
theorem claim_C1 (v : Value) (S : Shape) (cfg : PrettyConfig)
    (hg : goodV v = true) (hsh : hasShape v S = true) :
    ∃ out, to_string_pretty v cfg = .ok out ∧ De.from_str S out = some v := by
  refine ⟨render cfg 0 v, to_string_pretty_eq_render v cfg, ?_⟩
  unfold De.from_str
  have hP := parse_render v S cfg 0 (3 * (render cfg 0 v).length + 3) [] hg hsh
    (by have := fuelV_le_render cfg v 0; omega) boundaryOK_nil
  rw [List.append_nil] at hP
  rw [hP]
  simp [De.skipWS]

/-- C1 witness: the amended round-trip at the S1 `Plugin` value under the
newline-and-indent-4 config. -/
theorem claim_C1_witness :
    goodV s1_plugin = true ∧ hasShape s1_plugin s1_shape = true ∧
    ∃ out, to_string_pretty s1_plugin PrettyConfig.hierarchy = .ok out ∧
      De.from_str s1_shape out = some s1_plugin :=
  ⟨by decide, by decide,
    claim_C1 s1_plugin s1_shape PrettyConfig.hierarchy (by decide) (by decide)⟩

end Ruleport
